import Mathlib

/-! # go-keymutex: keyed mutual exclusion

A shallow embedding of `keymutex.go` (type `KeyMutex[T]`, methods `Lock`,
`Unlock` and `lockWithWaiting`).

* Part 1 embeds the data: the registry with its two Go maps and the
  `sync.Mutex` objects the map values point to.
* Part 2 embeds the statements that run under the mapping-lock `km.mut`
  as functions on the registry, and sequences of whole operations.
* Part 3 embeds whole calls as a step function on a pool of callers, one
  step per statement of the source, so that interleavings can be discussed.
* Parts 4 to 7 hold the predicates of the statements, concrete inputs, the
  invariant of the interleaving model, and the program order of the calls.
* Part 8 holds the properties: first the sequential ones (the two maps, the
  counts, other keys), then the invariant of the interleaving model and what
  follows from it (mutual exclusion, independence of keys, no premature
  deletion), then the order of the actions of `Lock` and `Unlock`, and last
  the postconditions of the two calls, the rendezvous hook of
  `lockWithWaiting`, and what a duplicate `Unlock` does.

Conventions.  A Go map is `Option (T → Option V)`: `none` is the nil map,
`some f` a map in which `f k = none` means that `k` has no entry.  A pointer
`*sync.Mutex` is `Option Handle`: `none` is the nil pointer and `some h` is
the `h`-th mutex object allocated so far.  A `sync.Mutex` is a `Bool`
(`true` = locked); Go mutexes have no owner.  The counts are Go `int`s; a
count never exceeds the number of callers inside `Lock` or holding a key,
so 64-bit wrap-around is out of reach and the counts are `Int`.
-/

namespace keymutex

/-! ## Part 1: data -/

/-- The address of a `sync.Mutex` object: its index in `KeyMutex.heap`. -/
abbrev Handle := Nat

/-- Run-time failures of the Go runtime that the code can run into. -/
inductive Fault where
  /-- Go panic: assignment to entry in nil map. -/
  | nilMapWrite
  /-- Go panic: `mut.Unlock()` through a nil `*sync.Mutex`. -/
  | nilDeref
  /-- Go fatal error: sync: unlock of unlocked mutex. -/
  | unlockOfUnlocked
  deriving DecidableEq, Repr

/-- The struct `KeyMutex[T]` (keymutex.go:6-10) together with the mutex
objects its map values point to.  `mapMut` is the mapping-lock `km.mut`
(`mut` is reserved in Lean),
`m` is `km.m`, `refCounts` is `km.refCounts`; `heap` lists the state of every
`sync.Mutex` allocated by `&sync.Mutex{}` so far. -/
structure KeyMutex (T : Type) where
  mapMut : Bool
  m : Option (T → Option Handle)
  refCounts : Option (T → Option Int)
  heap : List Bool

/-- The zero value `var km KeyMutex[T]`: mapping-lock free, both maps nil. -/
def KeyMutex.zero (T : Type) : KeyMutex T :=
  { mapMut := false, m := none, refCounts := none, heap := [] }

/-- The read `km.m[key]`: the stored pointer, or the nil pointer when the map
is nil or has no entry for `key`. -/
def KeyMutex.lookup {T : Type} (km : KeyMutex T) (key : T) : Option Handle :=
  match km.m with
  | none => none
  | some f => f key

/-- The comma-ok read of `km.refCounts[key]`: `none` when there is no entry. -/
def KeyMutex.countEntry {T : Type} (km : KeyMutex T) (key : T) : Option Int :=
  match km.refCounts with
  | none => none
  | some f => f key

/-- The read `km.refCounts[key]`: the zero value `0` when there is no entry. -/
def KeyMutex.count {T : Type} (km : KeyMutex T) (key : T) : Int :=
  (km.countEntry key).getD 0

/-- The state of the mutex behind a pointer: `none` for the nil pointer (or
an address that holds no mutex), `some true` for a locked mutex. -/
def KeyMutex.lockState {T : Type} (km : KeyMutex T) (p : Option Handle) : Option Bool :=
  match p with
  | none => none
  | some h => km.heap[h]?

/-! ## Part 2: the statements run under the mapping-lock -/

section Sequential

variable {T : Type} [DecidableEq T]

/-- Lines 49-54 of `lockWithWaiting`: replace a nil map by an empty one. -/
def ensureMaps (km : KeyMutex T) : KeyMutex T :=
  { km with
    m := some (match km.m with
      | none => fun _ => none
      | some f => f)
    refCounts := some (match km.refCounts with
      | none => fun _ => none
      | some f => f) }

/-- Lines 57-61 of `lockWithWaiting`: `mut, ok := km.m[key]`; when there is no
entry, allocate a new unlocked mutex and store its address under `key`.
Returns the registry and the local `mut`. -/
def getOrCreate (km : KeyMutex T) (key : T) : Except Fault (KeyMutex T × Handle) :=
  match km.lookup key with
  | some h => .ok (km, h)
  | none =>
    match km.m with
    | none => .error .nilMapWrite
    | some f =>
      .ok ({ km with
              m := some (Function.update f key (some km.heap.length))
              heap := km.heap ++ [false] },
           km.heap.length)

/-- Line 64 of `lockWithWaiting`: `km.refCounts[key]++`. -/
def increment (km : KeyMutex T) (key : T) : Except Fault (KeyMutex T) :=
  match km.refCounts with
  | none => .error .nilMapWrite
  | some f => .ok { km with refCounts := some (Function.update f key (some (km.count key + 1))) }

/-- The bookkeeping of `lockWithWaiting` (lines 49-64), everything it does
between acquiring and releasing the mapping-lock.  Returns the registry and
the local `mut` that line 71 will lock. -/
def register (km : KeyMutex T) (key : T) : Except Fault (KeyMutex T × Handle) := do
  let km1 := ensureMaps km
  let (km2, h) ← getOrCreate km1 key
  let km3 ← increment km2 key
  pure (km3, h)

/-- Line 71 of `lockWithWaiting`: `mut.Lock()`.  `none` means that the call
does not return in this state (the mutex is locked). -/
def acquire (km : KeyMutex T) (h : Handle) : Option (KeyMutex T) :=
  match km.heap[h]? with
  | some false => some { km with heap := km.heap.set h true }
  | _ => none

/-- Line 32 of `Unlock`: `km.refCounts[key]--`. -/
def decrement (km : KeyMutex T) (key : T) : Except Fault (KeyMutex T) :=
  match km.refCounts with
  | none => .error .nilMapWrite
  | some f => .ok { km with refCounts := some (Function.update f key (some (km.count key - 1))) }

/-- Lines 35-38 of `Unlock`: when the count is zero, delete the key from both
maps (`delete` on a nil map does nothing). -/
def deleteIfZero (km : KeyMutex T) (key : T) : KeyMutex T :=
  if km.count key = 0 then
    { km with
      m := km.m.map (fun f => Function.update f key none)
      refCounts := km.refCounts.map (fun f => Function.update f key none) }
  else km

/-- Line 41 of `Unlock`: `mut.Unlock()` on the pointer read at line 29. -/
def release (km : KeyMutex T) (p : Option Handle) : Except Fault (KeyMutex T) :=
  match p with
  | none => .error .nilDeref
  | some h =>
    match km.heap[h]? with
    | some true => .ok { km with heap := km.heap.set h false }
    | some false => .error .unlockOfUnlocked
    | none => .error .nilDeref

/-- The body of `Unlock` (lines 23-41), everything the call does while it
holds the mapping-lock. -/
def Unlock (km : KeyMutex T) (key : T) : Except Fault (KeyMutex T) :=
  if km.count key ≤ 0 then .ok km
  else do
    let p := km.lookup key
    let km1 ← decrement km key
    let km2 := deleteIfZero km1 key
    release km2 p

/-- One operation on the registry, as seen between critical sections. -/
inductive Op (T : Type) where
  /-- The bookkeeping of a `Lock(key)` call (lines 46-70). -/
  | register (key : T)
  /-- Some caller of `Lock(key)` gets past `mut.Lock()` (line 71). -/
  | acquire (key : T)
  /-- A whole `Unlock(key)` call. -/
  | unlock (key : T)

/-- Run one operation; `none` when the operation does not complete (a blocked
`mut.Lock()`, or a failure of the Go runtime). -/
def applyOp (km : KeyMutex T) : Op T → Option (KeyMutex T)
  | .register key =>
    match register km key with
    | .ok (km1, _) => some km1
    | .error _ => none
  | .acquire key =>
    match km.lookup key with
    | some h => acquire km h
    | none => none
  | .unlock key =>
    match Unlock km key with
    | .ok km1 => some km1
    | .error _ => none

/-- Run a sequence of operations from left to right. -/
def runOps (km : KeyMutex T) : List (Op T) → Option (KeyMutex T)
  | [] => some km
  | op :: ops =>
    match applyOp km op with
    | some km1 => runOps km1 ops
    | none => none

end Sequential

/-! ## Part 3: callers and interleavings

Every caller (goroutine) is at some statement of `lockWithWaiting` or of
`Unlock`, or between two calls.  One step of the model runs one statement
that touches shared state; a test on a local variable (`!ok`,
`chanCallback != nil`, `== 0`) is run together with the statement it guards.
-/

/-- A rendezvous channel (`chan<- struct{}`), by name. -/
abbrev Chan := Nat

/-- The calls a caller can make.  `chanCallback = none` is the nil channel. -/
inductive Call (T : Type) where
  | lockWithWaiting (key : T) (chanCallback : Option Chan)
  | Unlock (key : T)

/-- The method `Lock(key)`: it is `km.lockWithWaiting(key, nil)` (keymutex.go:13-15). -/
def Call.Lock {T : Type} (key : T) : Call T := .lockWithWaiting key none

/-- The statement a caller is about to run, with the live local variables
(`key`, `chanCallback`, and the pointer `mut`, written `p`). -/
inductive PC (T : Type) where
  /-- Not inside a call. -/
  | idle
  /-- At line 46, `km.mut.Lock()`. -/
  | lockAcquire (key : T) (ch : Option Chan)
  /-- At lines 49-61: make the maps, look the key up, create its mutex. -/
  | lockCreate (key : T) (ch : Option Chan)
  /-- At line 64, `km.refCounts[key]++`. -/
  | lockIncr (key : T) (ch : Option Chan) (p : Handle)
  /-- At line 68, `chanCallback <- struct{}{}` (only when the channel is not nil). -/
  | lockSend (key : T) (ch : Chan) (p : Handle)
  /-- At line 70, `km.mut.Unlock()`. -/
  | lockRelease (key : T) (p : Handle)
  /-- At line 71, `mut.Lock()`. -/
  | lockWait (key : T) (p : Handle)
  /-- At line 20, `km.mut.Lock()`. -/
  | unlockAcquire (key : T)
  /-- At line 24, the guard `km.refCounts[key] <= 0`. -/
  | unlockGuard (key : T)
  /-- At line 29, `mut := km.m[key]`. -/
  | unlockLookup (key : T)
  /-- At line 32, `km.refCounts[key]--`. -/
  | unlockDecr (key : T) (p : Option Handle)
  /-- At lines 35-38, the deletion when the count is zero. -/
  | unlockDelete (key : T) (p : Option Handle)
  /-- At line 41, `mut.Unlock()`. -/
  | unlockRelease (key : T) (p : Option Handle)
  /-- At the return of `Unlock`: the deferred `km.mut.Unlock()` of line 21. -/
  | unlockDeferred (key : T)

/-- The primitive actions on shared state. -/
inductive Action where
  /-- The call `km.mut.Lock()` (lines 20 and 46). -/
  | lockMap
  /-- Lines 49-61. -/
  | createIfAbsent
  /-- Line 64. -/
  | incrementCount
  /-- Line 68. -/
  | send (ch : Chan)
  /-- The call `km.mut.Unlock()` (line 70, and the deferred call of line 21). -/
  | unlockMap
  /-- Line 71, `mut.Lock()`. -/
  | lockKey (p : Handle)
  /-- Line 24. -/
  | guard
  /-- Line 29. -/
  | readKey
  /-- Line 32. -/
  | decrementCount
  /-- Lines 35-38. -/
  | deleteIfZero
  /-- Line 41, `mut.Unlock()`. -/
  | unlockKey (p : Option Handle)
  deriving DecidableEq, Repr

/-- The action a caller at this statement performs next. -/
def PC.action {T : Type} : PC T → Option Action
  | .idle => none
  | .lockAcquire _ _ => some .lockMap
  | .lockCreate _ _ => some .createIfAbsent
  | .lockIncr _ _ _ => some .incrementCount
  | .lockSend _ ch _ => some (.send ch)
  | .lockRelease _ _ => some .unlockMap
  | .lockWait _ p => some (.lockKey p)
  | .unlockAcquire _ => some .lockMap
  | .unlockGuard _ => some .guard
  | .unlockLookup _ => some .readKey
  | .unlockDecr _ _ => some .decrementCount
  | .unlockDelete _ _ => some .deleteIfZero
  | .unlockRelease _ p => some (.unlockKey p)
  | .unlockDeferred _ => some .unlockMap

/-- Whether a caller at this statement holds the mapping-lock: it is past
`km.mut.Lock()` and has not yet run `km.mut.Unlock()`. -/
def PC.inCS {T : Type} : PC T → Bool
  | .idle => false
  | .lockAcquire _ _ => false
  | .lockCreate _ _ => true
  | .lockIncr _ _ _ => true
  | .lockSend _ _ _ => true
  | .lockRelease _ _ => true
  | .lockWait _ _ => false
  | .unlockAcquire _ => false
  | .unlockGuard _ => true
  | .unlockLookup _ => true
  | .unlockDecr _ _ => true
  | .unlockDelete _ _ => true
  | .unlockRelease _ _ => true
  | .unlockDeferred _ => true

/-- A caller: where it is, and (as a ghost) the keys it holds: those for
which its `Lock` has returned and its matching `Unlock` has not started, each
with the mutex object that its `Lock` locked at line 71. -/
structure Caller (T : Type) where
  pc : PC T
  held : List (T × Handle)

/-- The whole system: the registry, the callers, whether the process has
crashed, the signals sent on rendezvous channels so far, and the receivers
that are ready: `ready` has one entry `ch` for every goroutine outside the
registry that is blocked in a receive on `ch` (for a buffered channel, for
every free slot of its buffer). -/
structure State (T : Type) where
  km : KeyMutex T
  callers : List (Caller T)
  fault : Option Fault
  sent : List Chan
  ready : List Chan

/-- A zero-value registry and `n` callers, none of them inside a call. -/
def State.init (T : Type) (n : Nat) : State T :=
  { km := KeyMutex.zero T, callers := List.replicate n ⟨.idle, []⟩, fault := none, sent := [],
    ready := [] }

/-- An event of the interleaving: caller `t` starts a call, caller `t` runs
its next statement, or a goroutine outside the registry starts to receive on
the channel `ch`. -/
inductive Event (T : Type) where
  | call (t : Nat) (c : Call T)
  | tick (t : Nat)
  | recv (ch : Chan)

section Interleaving

variable {T : Type} [DecidableEq T]

/-- The ghost list of held keys when `Unlock(key)` starts: the first entry
for `key` is dropped. -/
def dropKey (key : T) : List (T × Handle) → List (T × Handle)
  | [] => []
  | e :: es => if e.1 = key then es else e :: dropKey key es

/-- How many times `key` is in a ghost list of held keys. -/
def heldCount (key : T) (held : List (T × Handle)) : Nat :=
  held.countP (fun e => decide (e.1 = key))

/-- Caller `t` moves on to `c`, the registry becomes `km`. -/
def State.move (s : State T) (km : KeyMutex T) (t : Nat) (c : Caller T) : State T :=
  { s with km := km, callers := s.callers.set t c }

/-- The process crashes. -/
def State.crash (s : State T) (f : Fault) : State T :=
  { s with fault := some f }

/-- Caller `t`, at statement `pc` and holding `held`, runs that statement.
`none` means that the statement cannot run now: the caller is suspended
(`Lock()` on a locked mutex, or a send on a channel on which no receiver is
ready) or is not inside a call.  The send of line 68 is a rendezvous: it takes
one ready receiver of its channel. -/
def exec (s : State T) (t : Nat) (held : List (T × Handle)) : PC T → Option (State T)
  | .idle => none
  | .lockAcquire key ch =>
    if s.km.mapMut then none
    else some (s.move { s.km with mapMut := true } t ⟨.lockCreate key ch, held⟩)
  | .lockCreate key ch =>
    match getOrCreate (ensureMaps s.km) key with
    | .ok (km1, p) => some (s.move km1 t ⟨.lockIncr key ch p, held⟩)
    | .error f => some (s.crash f)
  | .lockIncr key ch p =>
    match increment s.km key with
    | .ok km1 =>
      match ch with
      | some c => some (s.move km1 t ⟨.lockSend key c p, held⟩)
      | none => some (s.move km1 t ⟨.lockRelease key p, held⟩)
    | .error f => some (s.crash f)
  | .lockSend key c p =>
    if c ∈ s.ready then
      some { s.move s.km t ⟨.lockRelease key p, held⟩ with
        sent := s.sent ++ [c], ready := s.ready.erase c }
    else none
  | .lockRelease key p =>
    some (s.move { s.km with mapMut := false } t ⟨.lockWait key p, held⟩)
  | .lockWait key p =>
    match acquire s.km p with
    | some km1 => some (s.move km1 t ⟨.idle, (key, p) :: held⟩)
    | none => none
  | .unlockAcquire key =>
    if s.km.mapMut then none
    else some (s.move { s.km with mapMut := true } t ⟨.unlockGuard key, held⟩)
  | .unlockGuard key =>
    if s.km.count key ≤ 0 then some (s.move s.km t ⟨.unlockDeferred key, held⟩)
    else some (s.move s.km t ⟨.unlockLookup key, held⟩)
  | .unlockLookup key =>
    some (s.move s.km t ⟨.unlockDecr key (s.km.lookup key), held⟩)
  | .unlockDecr key p =>
    match decrement s.km key with
    | .ok km1 => some (s.move km1 t ⟨.unlockDelete key p, held⟩)
    | .error f => some (s.crash f)
  | .unlockDelete key p =>
    some (s.move (deleteIfZero s.km key) t ⟨.unlockRelease key p, held⟩)
  | .unlockRelease key p =>
    match release s.km p with
    | .ok km1 => some (s.move km1 t ⟨.unlockDeferred key, held⟩)
    | .error f => some (s.crash f)
  | .unlockDeferred _ =>
    some (s.move { s.km with mapMut := false } t ⟨.idle, held⟩)

/-- One event.  `none` when the event cannot happen in this state.  Nothing
happens after a crash. -/
def step (s : State T) : Event T → Option (State T)
  | .call t c =>
    match s.fault, s.callers[t]? with
    | none, some ⟨.idle, held⟩ =>
      match c with
      | .lockWithWaiting key ch => some (s.move s.km t ⟨.lockAcquire key ch, held⟩)
      | .Unlock key => some (s.move s.km t ⟨.unlockAcquire key, dropKey key held⟩)
    | _, _ => none
  | .tick t =>
    match s.fault, s.callers[t]? with
    | none, some c => exec s t c.held c.pc
    | _, _ => none
  | .recv ch =>
    match s.fault with
    | none => some { s with ready := s.ready ++ [ch] }
    | some _ => none

/-- The Lock-then-Unlock discipline: `Unlock(key)` is only called by a caller
that holds `key`. -/
def disciplined (s : State T) : Event T → Bool
  | .call t (.Unlock key) =>
    match s.callers[t]? with
    | some c => decide (0 < heldCount key c.held)
    | none => false
  | _ => true

/-- Run a schedule from left to right; with `disc` set, only schedules that
follow the discipline run. -/
def run (disc : Bool) (s : State T) : List (Event T) → Option (State T)
  | [] => some s
  | e :: es =>
    if disc && !disciplined s e then none
    else
      match step s e with
      | some s1 => run disc s1 es
      | none => none

/-- The actions caller `t` performs along a schedule, in order. -/
def traceOf (t : Nat) (s : State T) : List (Event T) → List Action
  | [] => []
  | e :: es =>
    match step s e with
    | none => []
    | some s1 =>
      match e with
      | .tick u =>
        if u = t then
          match s.callers[t]? with
          | some c => c.pc.action.toList ++ traceOf t s1 es
          | none => traceOf t s1 es
        else traceOf t s1 es
      | .call _ _ => traceOf t s1 es
      | .recv _ => traceOf t s1 es

/-- Caller `t` holds `key`: it is between its `Lock(key)` returning and its
matching `Unlock(key)` starting. -/
def State.holds (s : State T) (t : Nat) (key : T) : Prop :=
  ∃ c, s.callers[t]? = some c ∧ 0 < heldCount key c.held

/-- The pc of caller `t`, `none` when there is no such caller. -/
def State.pcOf (s : State T) (t : Nat) : Option (PC T) :=
  (s.callers[t]?).map Caller.pc

/-- States reachable from a zero-value registry by callers that follow the
discipline. -/
def Reachable (s : State T) : Prop :=
  ∃ n es, run true (State.init T n) es = some s

/-- States reachable from a zero-value registry by arbitrary calls. -/
def ReachableAny (s : State T) : Prop :=
  ∃ n es, run false (State.init T n) es = some s

end Interleaving

/-! ## Part 4: predicates and counters used in the statements -/

section SequentialPredicates

variable {T : Type} [DecidableEq T]

/-- The key->lock map has an entry for `k`. -/
def KeyMutex.hasEntry (km : KeyMutex T) (k : T) : Prop :=
  ∃ p, km.lookup k = some p

/-- The key->count map holds a count greater than zero for `k`. -/
def KeyMutex.hasPositiveCount (km : KeyMutex T) (k : T) : Prop :=
  ∃ c, km.countEntry k = some c ∧ 0 < c

/-- The two maps agree: a key has a lock entry exactly when it has a count
entry, and every stored count is positive. -/
def KeyMutex.Consistent (km : KeyMutex T) : Prop :=
  ∀ k, ((∃ p, km.lookup k = some p) ↔ (∃ c, km.countEntry k = some c)) ∧
    ∀ c, km.countEntry k = some c → 0 < c

/-- One lock instance per key: every mapped pointer is the address of an
allocated mutex, and no two keys are mapped to the same mutex. -/
def KeyMutex.Separate (km : KeyMutex T) : Prop :=
  ∀ k p, km.lookup k = some p → p < km.heap.length ∧ ∀ k1, km.lookup k1 = some p → k1 = k

/-- Whether an operation is the bookkeeping of a `Lock(k)`. -/
def Op.isRegister (k : T) : Op T → Bool
  | .register key => decide (key = k)
  | _ => false

/-- Whether an operation is an `Unlock(k)`. -/
def Op.isUnlock (k : T) : Op T → Bool
  | .unlock key => decide (key = k)
  | _ => false

/-- The number of `Lock(k)` registrations in a sequence. -/
def registrations (k : T) (ops : List (Op T)) : Nat := ops.countP (Op.isRegister k)

/-- The number of `Unlock(k)` calls in a sequence. -/
def unlocks (k : T) (ops : List (Op T)) : Nat := ops.countP (Op.isUnlock k)

/-- Every prefix of the sequence has at least as many registrations of `k`
as unlocks of `k`. -/
def Balanced (k : T) (ops : List (Op T)) : Prop :=
  ∀ n, unlocks k (ops.take n) ≤ registrations k (ops.take n)

end SequentialPredicates

/-! ## Part 5: concrete registries and schedules used as test inputs -/

section Demo

/-- A registry in which key 1 is held and key 2 is registered: the state after
registering key 1, locking its mutex, and registering key 2. -/
def demoRegistry : KeyMutex Nat :=
  (runOps (KeyMutex.zero Nat) [.register 1, .acquire 1, .register 2]).getD (KeyMutex.zero Nat)

/-- A registry in which keys 1 and 2 are both held, each with its own mutex. -/
def demoTwoHeld : KeyMutex Nat :=
  (runOps (KeyMutex.zero Nat) [.register 1, .acquire 1, .register 2, .acquire 2]).getD
    (KeyMutex.zero Nat)

/-- A registry in which keys 1 and 2, each with count 1, are mapped to one and
the same mutex object, which is locked. -/
def demoAliased : KeyMutex Nat :=
  { mapMut := false, m := some fun k => if k = 1 ∨ k = 2 then some 0 else none,
    refCounts := some fun k => if k = 1 ∨ k = 2 then some 1 else none, heap := [true] }

/-- The events of a whole `Lock(k)` by caller `t` that finds no contention:
the call and its five statements. -/
def lockSolo (t k : Nat) : List (Event Nat) :=
  [.call t (Call.Lock k), .tick t, .tick t, .tick t, .tick t, .tick t]

/-- The events of a `Lock(k)` by caller `t` up to the wait of line 71. -/
def lockUpToWait (t k : Nat) : List (Event Nat) :=
  [.call t (Call.Lock k), .tick t, .tick t, .tick t, .tick t]

/-- The events of a whole `Unlock(k)` by caller `t` whose guard does not fire:
the call and its seven statements. -/
def unlockSolo (t k : Nat) : List (Event Nat) :=
  [.call t (.Unlock k), .tick t, .tick t, .tick t, .tick t, .tick t, .tick t, .tick t]

/-- Two callers: caller 0 holds key 1, caller 1 is waiting for key 1. -/
def demoContended : State Nat :=
  (run true (State.init Nat 2) (lockSolo 0 1 ++ lockUpToWait 1 1)).getD (State.init Nat 2)

/-- Two callers: caller 0 holds key 1, caller 1 is not inside a call. -/
def demoHeld : State Nat :=
  (run true (State.init Nat 2) (lockSolo 0 1)).getD (State.init Nat 2)

/-- Two callers: caller 0 is inside the critical section of `Lock(1)`, caller 1
has called `Lock(2)` and is at `km.mut.Lock()` (line 46). -/
def demoMapBusy : State Nat :=
  (run true (State.init Nat 2) [.call 0 (Call.Lock 1), .tick 0, .call 1 (Call.Lock 2)]).getD
    (State.init Nat 2)

/-- One caller that has locked key 1 and is inside `Unlock(1)`, about to run
`mut.Unlock()` (line 41). -/
def demoBeforeRelease : State Nat :=
  (run true (State.init Nat 1) (lockSolo 0 1 ++ (unlockSolo 0 1).take 6)).getD
    (State.init Nat 1)

end Demo

/-! ## Part 6: the invariant of the interleaving model -/

section InvariantDefs

variable {T : Type} [DecidableEq T]

/-- The sum of a weight over all callers. -/
def total (f : Caller T → Nat) (l : List (Caller T)) : Nat := (l.map f).sum

/-- Weight 1 for a caller that holds the mapping-lock. -/
def csW (c : Caller T) : Nat := if c.pc.inCS then 1 else 0

/-- The caller is inside `Lock(k)` past the increment of line 64, or inside
`Unlock(k)` before the decrement of line 32. -/
def PC.registered (k : T) : PC T → Bool
  | .lockSend key _ _ => decide (key = k)
  | .lockRelease key _ => decide (key = k)
  | .lockWait key _ => decide (key = k)
  | .unlockAcquire key => decide (key = k)
  | .unlockGuard key => decide (key = k)
  | .unlockLookup key => decide (key = k)
  | .unlockDecr key _ => decide (key = k)
  | _ => false

/-- The caller is inside `Unlock(k)` before the release of line 41. -/
def PC.owning (k : T) : PC T → Bool
  | .unlockAcquire key => decide (key = k)
  | .unlockGuard key => decide (key = k)
  | .unlockLookup key => decide (key = k)
  | .unlockDecr key _ => decide (key = k)
  | .unlockDelete key _ => decide (key = k)
  | .unlockRelease key _ => decide (key = k)
  | _ => false

/-- The caller is between the creation of the entry of `k` and its increment,
or between the decrement and the deletion: the entry of `k` is there although
the count does not count this caller. -/
def PC.pending (k : T) : PC T → Bool
  | .lockIncr key _ _ => decide (key = k)
  | .unlockDelete key _ => decide (key = k)
  | _ => false

/-- How often the caller is counted in `km.refCounts[k]`: once for every time
it holds `k`, and once when it is registered for `k`. -/
def regW (k : T) (c : Caller T) : Nat :=
  heldCount k c.held + (if c.pc.registered k then 1 else 0)

/-- How often the caller owns the mutex of `k`: once for every time it holds
`k`, and once while its `Unlock(k)` has not released the mutex. -/
def ownW (k : T) (c : Caller T) : Nat :=
  heldCount k c.held + (if c.pc.owning k then 1 else 0)

/-- Weight 1 for a caller that is pending on `k`. -/
def pendW (k : T) (c : Caller T) : Nat := if c.pc.pending k then 1 else 0

/-- The mutex object a caller inside `Lock(k)` is about to wait on or is
waiting on: its local `mut`, once the count has been incremented. -/
def PC.waitingOn (k : T) : PC T → Option Handle
  | .lockSend key _ p => if key = k then some p else none
  | .lockRelease key p => if key = k then some p else none
  | .lockWait key p => if key = k then some p else none
  | _ => none

/-- What the local variable `mut` of a caller has to do with the registry. -/
def PC.LocalOK (km : KeyMutex T) : PC T → Prop
  | .lockIncr key _ p => km.lookup key = some p
  | .lockSend key _ p => km.lookup key = some p
  | .lockRelease key p => km.lookup key = some p
  | .lockWait key p => km.lookup key = some p
  | .unlockDecr key q => q = km.lookup key
  | .unlockDelete key q => q = km.lookup key
  | .unlockRelease key q =>
    ∃ p, q = some p ∧ km.heap[p]? = some true ∧
      (∀ k, km.lookup k = some p → k = key) ∧
      (km.lookup key = none ∨ km.lookup key = some p)
  | _ => True

/-- The mutex a caller holds for a key is the one the key is mapped to. -/
def HeldOK (km : KeyMutex T) (held : List (T × Handle)) : Prop :=
  ∀ k p, (k, p) ∈ held → km.lookup k = some p

/-- The invariant of the interleaving model under the Lock-then-Unlock
discipline. -/
structure Inv (s : State T) : Prop where
  /-- The process has not crashed. -/
  noFault : s.fault = none
  /-- The mapping-lock is locked exactly when one caller is in its critical section. -/
  cs : total csW s.callers = if s.km.mapMut then 1 else 0
  /-- The two maps are nil together. -/
  maps : s.km.m.isSome = s.km.refCounts.isSome
  /-- The count of a key is the number of callers counted for it. -/
  counts : ∀ k, ((total (regW k) s.callers : Nat) : Int) = s.km.count k
  /-- A key has an entry exactly when a caller is counted for it or pending on it. -/
  entries : ∀ k, (∃ p, s.km.lookup k = some p) ↔
    0 < total (regW k) s.callers + total (pendW k) s.callers
  /-- The mutex of a key is locked exactly when one caller owns it, and no more than one does. -/
  locks : ∀ k p, s.km.lookup k = some p →
    ∃ b, s.km.heap[p]? = some b ∧ total (ownW k) s.callers = if b then 1 else 0
  /-- Two keys never share a mutex. -/
  inj : ∀ k1 k2 p, s.km.lookup k1 = some p → s.km.lookup k2 = some p → k1 = k2
  /-- The local pointers are the mapped ones. -/
  loc : ∀ (t : Nat) (c : Caller T), s.callers[t]? = some c → c.pc.LocalOK s.km
  /-- The held mutexes are the mapped ones. -/
  heldOK : ∀ (t : Nat) (c : Caller T), s.callers[t]? = some c → HeldOK s.km c.held

end InvariantDefs

/-! ## Part 7: program order and traces -/

section TraceDefs

variable {T : Type} [DecidableEq T]

/-- The schedule contains no call by caller `t`. -/
def noCallBy (t : Nat) (es : List (Event T)) : Bool :=
  es.all fun e =>
    match e with
    | .call u _ => decide (u ≠ t)
    | .tick _ => true
    | .recv _ => true

/-- The control flow of the source: where a caller that is at `pc` holding
`held` can be after running its statement without a crash. -/
def PC.Succ : PC T → List (T × Handle) → Caller T → Prop
  | .idle, _, _ => False
  | .lockAcquire key ch, held, c => c = ⟨.lockCreate key ch, held⟩
  | .lockCreate key ch, held, c => ∃ p, c = ⟨.lockIncr key ch p, held⟩
  | .lockIncr key (some ch) p, held, c => c = ⟨.lockSend key ch p, held⟩
  | .lockIncr key none p, held, c => c = ⟨.lockRelease key p, held⟩
  | .lockSend key _ p, held, c => c = ⟨.lockRelease key p, held⟩
  | .lockRelease key p, held, c => c = ⟨.lockWait key p, held⟩
  | .lockWait key p, held, c => c = ⟨.idle, (key, p) :: held⟩
  | .unlockAcquire key, held, c => c = ⟨.unlockGuard key, held⟩
  | .unlockGuard key, held, c => c = ⟨.unlockDeferred key, held⟩ ∨ c = ⟨.unlockLookup key, held⟩
  | .unlockLookup key, held, c => ∃ q, c = ⟨.unlockDecr key q, held⟩
  | .unlockDecr key q, held, c => c = ⟨.unlockDelete key q, held⟩
  | .unlockDelete key q, held, c => c = ⟨.unlockRelease key q, held⟩
  | .unlockRelease key _, held, c => c = ⟨.unlockDeferred key, held⟩
  | .unlockDeferred _, held, c => c = ⟨.idle, held⟩

/-- The statements that have a failing branch in the Go runtime: a map write
(lines 60, 64, 32) and `mut.Unlock()` (line 41). -/
def PC.canCrash : PC T → Bool
  | .lockCreate _ _ => true
  | .lockIncr _ _ _ => true
  | .unlockDecr _ _ => true
  | .unlockRelease _ _ => true
  | _ => false

/-- The actions `tr` that caller `t` has performed are an initial part of
`rem`, and they are all of `rem` exactly when the caller has returned. -/
def Completes (t : Nat) (rem tr : List Action) (s1 : State T) : Prop :=
  tr <+: rem ∧ (tr = rem ↔ ∃ h, s1.callers[t]? = some ⟨.idle, h⟩)

/-- The actions of `Lock(key)` in the order of the specification (section
4.1, steps 1 to 5), `p` being the per-key lock. -/
def specLockActions (p : Handle) : List Action :=
  [.lockMap, .createIfAbsent, .incrementCount, .unlockMap, .lockKey p]

/-- The actions of an `Unlock(key)` whose guard does not fire, in the order of
the source: the per-key lock `q` is released at line 41, the mapping-lock by
the deferred call when the function returns. -/
def codeUnlockActions (q : Option Handle) : List Action :=
  [.lockMap, .guard, .readKey, .decrementCount, .deleteIfZero, .unlockKey q, .unlockMap]

/-- The actions of an `Unlock(key)` whose guard does not fire, in the order the
specification gives (section 4.1, steps 1 to 6): the mapping-lock is released
before the per-key lock. -/
def specUnlockActions (q : Option Handle) : List Action :=
  [.lockMap, .guard, .readKey, .decrementCount, .deleteIfZero, .unlockMap, .unlockKey q]

/-- The actions of an `Unlock(key)` whose guard fires. -/
def noopUnlockActions : List Action := [.lockMap, .guard, .unlockMap]

/-- The actions an `Unlock(key)` can perform: `none` when the guard fires,
`some q` when it does not and line 29 reads the pointer `q`. -/
def unlockActions : Option (Option Handle) → List Action
  | none => noopUnlockActions
  | some q => codeUnlockActions q

end TraceDefs

/-! ## Part 7b: further inputs and action lists -/

section MoreDefs

/-- A registry in which key 1 is registered and its mutex is not locked: the
state after the bookkeeping of one `Lock(1)` whose `mut.Lock()` has not run. -/
def demoRegistered : KeyMutex Nat :=
  (runOps (KeyMutex.zero Nat) [.register 1]).getD (KeyMutex.zero Nat)

/-- A registry with empty maps except for a stored count of 0 for key 1. -/
def demoZeroCount : KeyMutex Nat :=
  { mapMut := false, m := some fun _ => none,
    refCounts := some fun k => if k = 1 then some 0 else none, heap := [] }

/-- The actions of `lockWithWaiting(key, ch)` with a channel, in the order of
the source: the send of line 68 comes before the release of the mapping-lock
of line 70. -/
def codeHookActions (ch : Chan) (p : Handle) : List Action :=
  [.lockMap, .createIfAbsent, .incrementCount, .send ch, .unlockMap, .lockKey p]

/-- The actions of `lockWithWaiting(key, ch)` with a channel, in the order the
specification gives (section 6): the signal is sent after the mapping-lock is
released. -/
def specHookActions (ch : Chan) (p : Handle) : List Action :=
  [.lockMap, .createIfAbsent, .incrementCount, .unlockMap, .send ch, .lockKey p]

/-- The events of a `lockWithWaiting(k, ch)` by caller `t` up to the send of
line 68: the call and three statements. -/
def hookUpToSend (t k : Nat) (ch : Chan) : List (Event Nat) :=
  [.call t (.lockWithWaiting k (some ch)), .tick t, .tick t, .tick t]

/-- One caller inside `lockWithWaiting(1, 7)`, about to send on the channel;
no receiver is ready. -/
def demoBeforeSend : State Nat :=
  (run true (State.init Nat 1) (hookUpToSend 0 1 7)).getD (State.init Nat 1)

/-- The events of a whole `lockWithWaiting(k, ch)` by caller `t` that finds no
contention and whose receiver gets ready while the caller is at the send. -/
def hookSolo (t k : Nat) (ch : Chan) : List (Event Nat) :=
  hookUpToSend t k ch ++ [.recv ch, .tick t, .tick t, .tick t]

/-- Two callers and no receiver: caller 0 is inside `lockWithWaiting(1, 7)` at
the send of line 68, caller 1 has called `Lock(2)`. -/
def demoHookStalled : State Nat :=
  (run true (State.init Nat 2) (hookUpToSend 0 1 7 ++ [.call 1 (Call.Lock 2)])).getD
    (State.init Nat 2)

/-- One caller, not inside a call, and one receiver ready on channel 7. -/
def demoReceiver : State Nat :=
  (run true (State.init Nat 1) [.recv 7]).getD (State.init Nat 1)

/-- Three callers A = 0, B = 1, C = 2 and key 1: A locks, B registers and
waits, A unlocks, B acquires.  B now holds key 1 and the count is 1. -/
def demoDupBefore : State Nat :=
  (run false (State.init Nat 3)
    (lockSolo 0 1 ++ lockUpToWait 1 1 ++ unlockSolo 0 1 ++ [.tick 1])).getD (State.init Nat 3)

/-- The state after A has called `Unlock(1)` a second time. -/
def demoDupAfter : State Nat :=
  (run false demoDupBefore (unlockSolo 0 1)).getD (State.init Nat 3)

/-- The state after C has then called `Lock(1)`. -/
def demoDupFinal : State Nat :=
  (run false demoDupAfter (lockSolo 2 1)).getD (State.init Nat 3)

/-- The events by which caller `t` runs the statements of `lockWithWaiting`
that hold the mapping-lock, from line 49 to line 70: lines 49-61, line 64,
line 68 when there is a channel, and line 70. -/
def registerTicks {T : Type} (t : Nat) : Option Chan → List (Event T)
  | none => [.tick t, .tick t, .tick t]
  | some _ => [.tick t, .tick t, .tick t, .tick t]

/-- One caller inside `Lock(1)`, about to release the mapping-lock (line 70). -/
def demoBeforeUnlockMap : State Nat :=
  (run true (State.init Nat 1) ((lockUpToWait 0 1).take 4)).getD (State.init Nat 1)

/-- The ready receivers once a call with channel `ch` is past line 68: the
send has taken one receiver of `ch`; with the nil channel nothing is taken. -/
def afterSend (ready : List Chan) : Option Chan → List Chan
  | none => ready
  | some c => ready.erase c

end MoreDefs

/-! ## Part 8: properties -/

section SequentialFacts

set_option linter.unusedSectionVars false

variable {T : Type} [DecidableEq T]

theorem count_eq_of_entry {km : KeyMutex T} {k : T} {c : Int}
    (h : km.countEntry k = some c) : km.count k = c := by
  simp [KeyMutex.count, h]

theorem count_eq_zero_of_no_entry {km : KeyMutex T} {k : T}
    (h : km.countEntry k = none) : km.count k = 0 := by
  simp [KeyMutex.count, h]

theorem entry_of_count_ne_zero {km : KeyMutex T} {k : T}
    (h : km.count k ≠ 0) : km.countEntry k = some (km.count k) := by
  cases hc : km.countEntry k with
  | none => simp [KeyMutex.count, hc] at h
  | some c => simp [KeyMutex.count, hc]

@[simp] theorem ensureMaps_lookup (km : KeyMutex T) (k : T) :
    (ensureMaps km).lookup k = km.lookup k := by
  cases hm : km.m <;> simp [ensureMaps, KeyMutex.lookup, hm]

@[simp] theorem ensureMaps_countEntry (km : KeyMutex T) (k : T) :
    (ensureMaps km).countEntry k = km.countEntry k := by
  cases hm : km.refCounts <;> simp [ensureMaps, KeyMutex.countEntry, hm]

@[simp] theorem ensureMaps_count (km : KeyMutex T) (k : T) :
    (ensureMaps km).count k = km.count k := by
  simp [KeyMutex.count]

@[simp] theorem ensureMaps_heap (km : KeyMutex T) : (ensureMaps km).heap = km.heap := rfl

@[simp] theorem ensureMaps_mapMut (km : KeyMutex T) : (ensureMaps km).mapMut = km.mapMut := rfl

theorem ensureMaps_m_isSome (km : KeyMutex T) : (ensureMaps km).m.isSome = true := rfl

theorem ensureMaps_refCounts_isSome (km : KeyMutex T) : (ensureMaps km).refCounts.isSome = true := rfl

/-- What `getOrCreate` does when the map is not nil. -/
theorem getOrCreate_spec (km : KeyMutex T) (k : T) (hm : km.m.isSome = true) :
    ∃ km1 p, getOrCreate km k = .ok (km1, p) ∧ km1.lookup k = some p ∧
      km1.refCounts = km.refCounts ∧ km1.mapMut = km.mapMut ∧
      (∀ k1, k1 ≠ k → km1.lookup k1 = km.lookup k1) ∧
      ((km.lookup k = some p ∧ km1 = km) ∨
       (km.lookup k = none ∧ p = km.heap.length ∧ km1.heap = km.heap ++ [false])) := by
  obtain ⟨mm, m, rc, heap⟩ := km
  cases m with
  | none => simp at hm
  | some f =>
    cases hl : f k with
    | some h =>
      exact ⟨⟨mm, some f, rc, heap⟩, h, by simp [getOrCreate, KeyMutex.lookup, hl],
        by simp [KeyMutex.lookup, hl], rfl, rfl, fun _ _ => rfl,
        Or.inl ⟨by simp [KeyMutex.lookup, hl], rfl⟩⟩
    | none =>
      refine ⟨⟨mm, some (Function.update f k (some heap.length)), rc, heap ++ [false]⟩,
        heap.length, by simp [getOrCreate, KeyMutex.lookup, hl], by simp [KeyMutex.lookup],
        rfl, rfl, ?_, Or.inr ⟨by simp [KeyMutex.lookup, hl], rfl, rfl⟩⟩
      intro k1 hk
      simp [KeyMutex.lookup, Function.update_apply, hk]

/-- What `increment` does when the count map is not nil. -/
theorem increment_spec (km : KeyMutex T) (k : T) (hm : km.refCounts.isSome = true) :
    ∃ km1, increment km k = .ok km1 ∧ km1.countEntry k = some (km.count k + 1) ∧
      km1.m = km.m ∧ km1.heap = km.heap ∧ km1.mapMut = km.mapMut ∧
      (∀ k1, k1 ≠ k → km1.countEntry k1 = km.countEntry k1) := by
  obtain ⟨mm, m, rc, heap⟩ := km
  cases rc with
  | none => simp at hm
  | some f =>
    refine ⟨⟨mm, m, some (Function.update f k
      (some ((KeyMutex.mk mm m (some f) heap).count k + 1))), heap⟩,
      by simp [increment], by simp [KeyMutex.countEntry], rfl, rfl, rfl, ?_⟩
    intro k1 hk
    simp [KeyMutex.countEntry, Function.update_apply, hk]

/-- What `decrement` does when the count map is not nil. -/
theorem decrement_spec (km : KeyMutex T) (k : T) (hm : km.refCounts.isSome = true) :
    ∃ km1, decrement km k = .ok km1 ∧ km1.countEntry k = some (km.count k - 1) ∧
      km1.m = km.m ∧ km1.heap = km.heap ∧ km1.mapMut = km.mapMut ∧
      (∀ k1, k1 ≠ k → km1.countEntry k1 = km.countEntry k1) := by
  obtain ⟨mm, m, rc, heap⟩ := km
  cases rc with
  | none => simp at hm
  | some f =>
    refine ⟨⟨mm, m, some (Function.update f k
      (some ((KeyMutex.mk mm m (some f) heap).count k - 1))), heap⟩,
      by simp [decrement], by simp [KeyMutex.countEntry], rfl, rfl, rfl, ?_⟩
    intro k1 hk
    simp [KeyMutex.countEntry, Function.update_apply, hk]

theorem lookup_congr {km km1 : KeyMutex T} (h : km1.m = km.m) (k : T) :
    km1.lookup k = km.lookup k := by
  simp [KeyMutex.lookup, h]

theorem countEntry_congr {km km1 : KeyMutex T} (h : km1.refCounts = km.refCounts) (k : T) :
    km1.countEntry k = km.countEntry k := by
  simp [KeyMutex.countEntry, h]

theorem count_congr {km km1 : KeyMutex T} {k : T} (h : km1.countEntry k = km.countEntry k) :
    km1.count k = km.count k := by
  simp [KeyMutex.count, h]

theorem refCounts_isSome_of_entry {km : KeyMutex T} {k : T} {c : Int}
    (h : km.countEntry k = some c) : km.refCounts.isSome = true := by
  cases hf : km.refCounts with
  | none => simp [KeyMutex.countEntry, hf] at h
  | some f => rfl

theorem m_isSome_of_lookup {km : KeyMutex T} {k : T} {p : Handle}
    (h : km.lookup k = some p) : km.m.isSome = true := by
  cases hf : km.m with
  | none => simp [KeyMutex.lookup, hf] at h
  | some f => rfl

/-- What `deleteIfZero` does. -/
theorem deleteIfZero_spec (km : KeyMutex T) (k : T) :
    (deleteIfZero km k).heap = km.heap ∧ (deleteIfZero km k).mapMut = km.mapMut ∧
    (∀ k1, k1 ≠ k → (deleteIfZero km k).lookup k1 = km.lookup k1 ∧
        (deleteIfZero km k).countEntry k1 = km.countEntry k1) ∧
    (km.count k = 0 → (deleteIfZero km k).lookup k = none ∧
        (deleteIfZero km k).countEntry k = none) ∧
    (km.count k ≠ 0 → deleteIfZero km k = km) := by
  by_cases hc : km.count k = 0
  · have hd : deleteIfZero km k = { km with
        m := km.m.map (fun f => Function.update f k none)
        refCounts := km.refCounts.map (fun f => Function.update f k none) } := by
      simp [deleteIfZero, hc]
    rw [hd]
    refine ⟨rfl, rfl, ?_, ?_, fun h => absurd hc h⟩
    · intro k1 hk
      cases hm : km.m <;> cases hr : km.refCounts <;>
        simp [KeyMutex.lookup, KeyMutex.countEntry, hm, hr, Function.update_apply, hk]
    · intro _
      cases hm : km.m <;> cases hr : km.refCounts <;>
        simp [KeyMutex.lookup, KeyMutex.countEntry, hm, hr]
  · have hd : deleteIfZero km k = km := by simp [deleteIfZero, hc]
    rw [hd]
    exact ⟨rfl, rfl, fun _ _ => ⟨rfl, rfl⟩, fun h => absurd h hc, fun _ => rfl⟩

/-- What `release` does when it returns. -/
theorem release_ok {km km1 : KeyMutex T} {p : Option Handle} (h : release km p = .ok km1) :
    ∃ a, p = some a ∧ km.heap[a]? = some true ∧ km1 = { km with heap := km.heap.set a false } := by
  unfold release at h
  cases p with
  | none => simp at h
  | some a =>
    simp only at h
    split at h
    · simp only [Except.ok.injEq] at h
      exact ⟨a, rfl, by assumption, h.symm⟩
    · simp at h
    · simp at h

/-- What `acquire` does when it returns. -/
theorem acquire_some {km km1 : KeyMutex T} {a : Handle} (h : acquire km a = some km1) :
    km.heap[a]? = some false ∧ km1 = { km with heap := km.heap.set a true } := by
  unfold acquire at h
  split at h
  · simp only [Option.some.injEq] at h
    exact ⟨by assumption, h.symm⟩
  · simp at h

end SequentialFacts

section SequentialFacts2

set_option linter.unusedSectionVars false

variable {T : Type} [DecidableEq T]

/-- The bookkeeping of `lockWithWaiting` always completes; what it leaves. -/
theorem register_spec (km : KeyMutex T) (k : T) :
    ∃ km1 p, register km k = .ok (km1, p) ∧ km1.lookup k = some p ∧
      km1.countEntry k = some (km.count k + 1) ∧ km1.mapMut = km.mapMut ∧
      (∀ k1, k1 ≠ k → km1.lookup k1 = km.lookup k1 ∧ km1.countEntry k1 = km.countEntry k1) ∧
      ((km.lookup k = some p ∧ km1.heap = km.heap) ∨
       (km.lookup k = none ∧ p = km.heap.length ∧ km1.heap = km.heap ++ [false])) := by
  obtain ⟨km2, p, hg, hl, hrc, hmm, hoth, hcase⟩ :=
    getOrCreate_spec (ensureMaps km) k (ensureMaps_m_isSome km)
  have hrs : km2.refCounts.isSome = true := by rw [hrc]; exact ensureMaps_refCounts_isSome km
  obtain ⟨km3, hi, hce, hm3, hh3, hmm3, hoth3⟩ := increment_spec km2 k hrs
  have hcnt : km2.count k = km.count k := by
    rw [count_congr (countEntry_congr hrc k), ensureMaps_count]
  refine ⟨km3, p, ?_, ?_, ?_, ?_, ?_, ?_⟩
  · simp [register, hg, hi, bind, Except.bind, pure, Except.pure]
  · rw [lookup_congr hm3, hl]
  · rw [hce, hcnt]
  · rw [hmm3, hmm, ensureMaps_mapMut]
  · intro k1 hk
    refine ⟨?_, ?_⟩
    · rw [lookup_congr hm3, hoth k1 hk, ensureMaps_lookup]
    · rw [hoth3 k1 hk, countEntry_congr hrc, ensureMaps_countEntry]
  · rcases hcase with ⟨h1, h2⟩ | ⟨h1, h2, h3⟩
    · left
      refine ⟨by rw [← h1, ensureMaps_lookup], ?_⟩
      rw [hh3, h2, ensureMaps_heap]
    · right
      refine ⟨by rw [← h1, ensureMaps_lookup], by rw [h2, ensureMaps_heap], ?_⟩
      rw [hh3, h3, ensureMaps_heap]

/-- An `Unlock` whose guard fires returns at once. -/
theorem Unlock_noop (km : KeyMutex T) (k : T) (h : km.count k ≤ 0) : Unlock km k = .ok km := by
  simp [Unlock, h]

/-- What `Unlock` leaves when it returns. -/
theorem Unlock_spec {km km1 : KeyMutex T} {k : T} (h : Unlock km k = .ok km1) :
    (km.count k ≤ 0 ∧ km1 = km) ∨
    (0 < km.count k ∧ ∃ a, km.lookup k = some a ∧ km.heap[a]? = some true ∧
      km1.heap = km.heap.set a false ∧ km1.mapMut = km.mapMut ∧
      (∀ k1, k1 ≠ k → km1.lookup k1 = km.lookup k1 ∧ km1.countEntry k1 = km.countEntry k1) ∧
      (km.count k = 1 → km1.lookup k = none ∧ km1.countEntry k = none) ∧
      (km.count k ≠ 1 → km1.lookup k = some a ∧ km1.countEntry k = some (km.count k - 1))) := by
  by_cases hc : km.count k ≤ 0
  · left
    rw [Unlock_noop km k hc] at h
    exact ⟨hc, by injection h with h; exact h.symm⟩
  · right
    have hpos : 0 < km.count k := by omega
    have hrs : km.refCounts.isSome = true :=
      refCounts_isSome_of_entry (entry_of_count_ne_zero (by omega : km.count k ≠ 0))
    obtain ⟨km2, hd, hce, hm2, hh2, hmm2, hoth2⟩ := decrement_spec km k hrs
    have hU : Unlock km k = release (deleteIfZero km2 k) (km.lookup k) := by
      simp [Unlock, hc, hd, bind, Except.bind]
    rw [hU] at h
    obtain ⟨a, ha, hha, hkm1⟩ := release_ok h
    obtain ⟨dh, dmm, doth, dzero, dne⟩ := deleteIfZero_spec km2 k
    have hc2 : km2.count k = km.count k - 1 := count_eq_of_entry hce
    refine ⟨hpos, a, ha, ?_, ?_, ?_, ?_, ?_, ?_⟩
    · rw [← hh2, ← dh]; exact hha
    · rw [hkm1]; simp [dh, hh2]
    · rw [hkm1]; simp [dmm, hmm2]
    · intro k1 hk
      rw [hkm1]
      refine ⟨?_, ?_⟩
      · show (deleteIfZero km2 k).lookup k1 = _
        rw [(doth k1 hk).1, lookup_congr hm2]
      · show (deleteIfZero km2 k).countEntry k1 = _
        rw [(doth k1 hk).2, hoth2 k1 hk]
    · intro h1
      rw [hkm1]
      exact dzero (by omega)
    · intro h1
      rw [hkm1]
      have hne : km2.count k ≠ 0 := by omega
      refine ⟨?_, ?_⟩
      · show (deleteIfZero km2 k).lookup k = _
        rw [dne hne, lookup_congr hm2, ha]
      · show (deleteIfZero km2 k).countEntry k = _
        rw [dne hne, hce]

/-- When the guard does not fire and the mapped mutex is locked, `Unlock` returns. -/
theorem Unlock_returns (km : KeyMutex T) (k : T) (a : Handle) (hc : 0 < km.count k)
    (ha : km.lookup k = some a) (hl : km.heap[a]? = some true) :
    ∃ km1, Unlock km k = .ok km1 := by
  have hrs : km.refCounts.isSome = true :=
    refCounts_isSome_of_entry (entry_of_count_ne_zero (by omega : km.count k ≠ 0))
  obtain ⟨km2, hd, hce, hm2, hh2, hmm2, hoth2⟩ := decrement_spec km k hrs
  have hU : Unlock km k = release (deleteIfZero km2 k) (km.lookup k) := by
    simp [Unlock, not_le.mpr hc, hd, bind, Except.bind]
  obtain ⟨dh, -⟩ := deleteIfZero_spec km2 k
  refine ⟨{ deleteIfZero km2 k with heap := (deleteIfZero km2 k).heap.set a false }, ?_⟩
  rw [hU, ha]
  have : (deleteIfZero km2 k).heap[a]? = some true := by rw [dh, hh2]; exact hl
  simp [release, this]

end SequentialFacts2

section SequentialInvariant

set_option linter.unusedSectionVars false

variable {T : Type} [DecidableEq T]

theorem consistent_zero : (KeyMutex.zero T).Consistent := by
  intro k
  simp [KeyMutex.zero, KeyMutex.lookup, KeyMutex.countEntry]

theorem count_nonneg_of_consistent {km : KeyMutex T} (h : km.Consistent) (k : T) :
    0 ≤ km.count k := by
  cases hc : km.countEntry k with
  | none => simp [KeyMutex.count, hc]
  | some c =>
    have := (h k).2 c hc
    rw [count_eq_of_entry hc]
    omega

theorem consistent_register {km km1 : KeyMutex T} {k : T} {p : Handle}
    (h : km.Consistent) (hr : register km k = .ok (km1, p)) : km1.Consistent := by
  obtain ⟨km2, q, hreg, hl, hce, -, hoth, -⟩ := register_spec km k
  rw [hr] at hreg
  injection hreg with hreg
  injection hreg with h1 h2
  subst h1
  subst h2
  intro k1
  by_cases hk : k1 = k
  · subst hk
    refine ⟨⟨fun _ => ⟨_, hce⟩, fun _ => ⟨_, hl⟩⟩, ?_⟩
    intro c hc
    rw [hce] at hc
    injection hc with hc
    have := count_nonneg_of_consistent h k1
    omega
  · rw [(hoth k1 hk).1, (hoth k1 hk).2]
    exact h k1

theorem consistent_acquire {km km1 : KeyMutex T} {a : Handle}
    (h : km.Consistent) (hr : acquire km a = some km1) : km1.Consistent := by
  obtain ⟨-, rfl⟩ := acquire_some hr
  exact h

theorem consistent_Unlock {km km1 : KeyMutex T} {k : T}
    (h : km.Consistent) (hr : Unlock km k = .ok km1) : km1.Consistent := by
  rcases Unlock_spec hr with ⟨-, rfl⟩ | ⟨hpos, a, ha, -, -, -, hoth, h1, hne⟩
  · exact h
  · intro k1
    by_cases hk : k1 = k
    · subst hk
      by_cases hc1 : km.count k1 = 1
      · obtain ⟨e1, e2⟩ := h1 hc1
        simp [e1, e2]
      · obtain ⟨e1, e2⟩ := hne hc1
        rw [e1, e2]
        refine ⟨⟨fun _ => ⟨_, rfl⟩, fun _ => ⟨_, rfl⟩⟩, ?_⟩
        intro c hc
        injection hc with hc
        omega
    · rw [(hoth k1 hk).1, (hoth k1 hk).2]
      exact h k1

theorem consistent_applyOp {km km1 : KeyMutex T} {op : Op T}
    (h : km.Consistent) (hr : applyOp km op = some km1) : km1.Consistent := by
  cases op with
  | register key =>
    simp only [applyOp] at hr
    split at hr
    · injection hr with hr
      subst hr
      exact consistent_register h (by assumption)
    · simp at hr
  | acquire key =>
    simp only [applyOp] at hr
    split at hr
    · exact consistent_acquire h hr
    · simp at hr
  | unlock key =>
    simp only [applyOp] at hr
    split at hr
    · injection hr with hr
      subst hr
      exact consistent_Unlock h (by assumption)
    · simp at hr

theorem consistent_runOps (ops : List (Op T)) {km km1 : KeyMutex T}
    (h : km.Consistent) (hr : runOps km ops = some km1) : km1.Consistent := by
  induction ops generalizing km with
  | nil =>
    simp only [runOps, Option.some.injEq] at hr
    subst hr
    exact h
  | cons op ops ih =>
    simp only [runOps] at hr
    split at hr
    · exact ih (consistent_applyOp h (by assumption)) hr
    · simp at hr

theorem entry_iff_of_consistent {km : KeyMutex T} (h : km.Consistent) (k : T) :
    km.hasEntry k ↔ km.hasPositiveCount k := by
  unfold KeyMutex.hasEntry KeyMutex.hasPositiveCount
  rw [(h k).1]
  constructor
  · rintro ⟨c, hc⟩
    exact ⟨c, hc, (h k).2 c hc⟩
  · rintro ⟨c, hc, -⟩
    exact ⟨c, hc⟩

end SequentialInvariant

section SeparateInvariant

set_option linter.unusedSectionVars false

variable {T : Type} [DecidableEq T]

theorem separate_zero : (KeyMutex.zero T).Separate := by
  intro k p h
  simp [KeyMutex.zero, KeyMutex.lookup] at h

theorem separate_register {km km1 : KeyMutex T} {k : T} {p : Handle}
    (h : km.Separate) (hr : register km k = .ok (km1, p)) : km1.Separate := by
  obtain ⟨km2, q, hreg, hl, -, -, hoth, hcase⟩ := register_spec km k
  rw [hr] at hreg
  injection hreg with hreg
  injection hreg with h1 h2
  subst h1
  subst h2
  have hlen : km.heap.length ≤ km1.heap.length := by
    rcases hcase with ⟨-, hh⟩ | ⟨-, -, hh⟩ <;> simp [hh]
  have hfresh : ∀ k1, k1 ≠ k → km.lookup k1 = some p → False := by
    intro k1 hk1 hp
    rcases hcase with ⟨hk, -⟩ | ⟨-, hpl, -⟩
    · exact hk1 ((h k p hk).2 k1 hp)
    · have hlt := (h k1 p hp).1
      rw [hpl] at hlt
      exact Nat.lt_irrefl _ hlt
  intro ka q hq
  by_cases hka : ka = k
  · subst hka
    rw [hl] at hq
    injection hq with hq
    subst hq
    refine ⟨?_, ?_⟩
    · rcases hcase with ⟨hk, hh⟩ | ⟨-, hpl, hh⟩
      · rw [hh]
        exact (h ka p hk).1
      · rw [hh, hpl]
        simp
    · intro k1 hk1
      by_contra hne
      rw [(hoth k1 hne).1] at hk1
      exact hfresh k1 hne hk1
  · rw [(hoth ka hka).1] at hq
    refine ⟨lt_of_lt_of_le (h ka q hq).1 hlen, ?_⟩
    intro k1 hk1
    by_cases hk1k : k1 = k
    · subst hk1k
      rw [hl] at hk1
      injection hk1 with hk1
      subst hk1
      exact absurd hq (fun hq => hfresh ka hka hq)
    · rw [(hoth k1 hk1k).1] at hk1
      exact (h ka q hq).2 k1 hk1

theorem separate_acquire {km km1 : KeyMutex T} {a : Handle}
    (h : km.Separate) (hr : acquire km a = some km1) : km1.Separate := by
  obtain ⟨-, rfl⟩ := acquire_some hr
  intro k p hp
  refine ⟨?_, (h k p hp).2⟩
  show p < (km.heap.set a true).length
  rw [List.length_set]
  exact (h k p hp).1

theorem separate_Unlock {km km1 : KeyMutex T} {k : T}
    (h : km.Separate) (hr : Unlock km k = .ok km1) : km1.Separate := by
  rcases Unlock_spec hr with ⟨-, rfl⟩ | ⟨-, a, ha, -, hheap, -, hoth, h1, hne⟩
  · exact h
  · have hsub : ∀ ka q, km1.lookup ka = some q → km.lookup ka = some q := by
      intro ka q hq
      by_cases hka : ka = k
      · subst hka
        by_cases hc : km.count ka = 1
        · rw [(h1 hc).1] at hq
          cases hq
        · rw [(hne hc).1] at hq
          rw [ha]
          exact hq
      · rw [(hoth ka hka).1] at hq
        exact hq
    intro ka q hq
    refine ⟨?_, fun k1 hk1 => (h ka q (hsub ka q hq)).2 k1 (hsub k1 q hk1)⟩
    rw [hheap, List.length_set]
    exact (h ka q (hsub ka q hq)).1

theorem separate_applyOp {km km1 : KeyMutex T} {op : Op T}
    (h : km.Separate) (hr : applyOp km op = some km1) : km1.Separate := by
  cases op with
  | register key =>
    simp only [applyOp] at hr
    split at hr
    · injection hr with hr
      subst hr
      exact separate_register h (by assumption)
    · simp at hr
  | acquire key =>
    simp only [applyOp] at hr
    split at hr
    · exact separate_acquire h hr
    · simp at hr
  | unlock key =>
    simp only [applyOp] at hr
    split at hr
    · injection hr with hr
      subst hr
      exact separate_Unlock h (by assumption)
    · simp at hr

theorem separate_runOps (ops : List (Op T)) {km km1 : KeyMutex T}
    (h : km.Separate) (hr : runOps km ops = some km1) : km1.Separate := by
  induction ops generalizing km with
  | nil =>
    simp only [runOps, Option.some.injEq] at hr
    subst hr
    exact h
  | cons op ops ih =>
    simp only [runOps] at hr
    split at hr
    · exact ih (separate_applyOp h (by assumption)) hr
    · simp at hr

end SeparateInvariant

section Accounting

set_option linter.unusedSectionVars false

variable {T : Type} [DecidableEq T]

theorem runOps_append (ops1 ops2 : List (Op T)) (km : KeyMutex T) :
    runOps km (ops1 ++ ops2) = (runOps km ops1).bind (fun km1 => runOps km1 ops2) := by
  induction ops1 generalizing km with
  | nil => simp [runOps]
  | cons op ops ih =>
    simp only [List.cons_append, runOps]
    cases applyOp km op with
    | none => simp
    | some km1 => simp [ih]

/-- The effect of one completed operation on the count of `k`. -/
theorem count_applyOp {km km1 : KeyMutex T} {op : Op T} (k : T)
    (hr : applyOp km op = some km1) :
    km1.count k = km.count k + (if Op.isRegister k op then 1 else 0)
      - (if Op.isUnlock k op then (if 0 < km.count k then 1 else 0) else 0) := by
  cases op with
  | register key =>
    simp only [applyOp] at hr
    split at hr
    · rename_i km2 p hreg
      injection hr with hr
      subst hr
      obtain ⟨km3, q, hreg3, -, hce, -, hoth, -⟩ := register_spec km key
      rw [hreg] at hreg3
      injection hreg3 with hreg3
      injection hreg3 with h1 h2
      subst h1
      by_cases hk : key = k
      · subst hk
        simp [Op.isRegister, Op.isUnlock, count_eq_of_entry hce]
      · have : km2.count k = km.count k := count_congr (hoth k (Ne.symm hk)).2
        simp [Op.isRegister, Op.isUnlock, hk, this]
    · simp at hr
  | acquire key =>
    simp only [applyOp] at hr
    split at hr
    · obtain ⟨-, rfl⟩ := acquire_some hr
      simp [Op.isRegister, Op.isUnlock, KeyMutex.count, KeyMutex.countEntry]
    · simp at hr
  | unlock key =>
    simp only [applyOp] at hr
    split at hr
    · rename_i km2 hu
      injection hr with hr
      subst hr
      rcases Unlock_spec hu with ⟨hle, rfl⟩ | ⟨hpos, a, -, -, -, -, hoth, h1, hne⟩
      · by_cases hk : key = k
        · subst hk
          simp [Op.isRegister, Op.isUnlock, not_lt.mpr hle]
        · simp [Op.isRegister, Op.isUnlock, hk]
      · by_cases hk : key = k
        · subst hk
          by_cases hc1 : km.count key = 1
          · simp [Op.isRegister, Op.isUnlock, hpos, count_eq_zero_of_no_entry (h1 hc1).2, hc1]
          · simp [Op.isRegister, Op.isUnlock, hpos, count_eq_of_entry (hne hc1).2]
        · have : km2.count k = km.count k := count_congr (hoth k (Ne.symm hk)).2
          simp [Op.isRegister, Op.isUnlock, hk, this]
    · simp at hr

theorem registrations_cons (k : T) (op : Op T) (ops : List (Op T)) :
    (registrations k (op :: ops) : Int)
      = registrations k ops + (if Op.isRegister k op then 1 else 0) := by
  unfold registrations
  rw [List.countP_cons]
  split <;> simp

theorem unlocks_cons (k : T) (op : Op T) (ops : List (Op T)) :
    (unlocks k (op :: ops) : Int)
      = unlocks k ops + (if Op.isUnlock k op then 1 else 0) := by
  unfold unlocks
  rw [List.countP_cons]
  split <;> simp

/-- Accounting from any start: while no prefix unlocks more than is there, the
count moves by registrations minus unlocks. -/
theorem count_runOps (k : T) (ops : List (Op T)) {km km1 : KeyMutex T}
    (hr : runOps km ops = some km1)
    (hb : ∀ n, (unlocks k (ops.take n) : Int) ≤ km.count k + registrations k (ops.take n)) :
    km1.count k = km.count k + registrations k ops - unlocks k ops := by
  induction ops generalizing km with
  | nil =>
    simp only [runOps, Option.some.injEq] at hr
    subst hr
    simp [registrations, unlocks]
  | cons op ops ih =>
    simp only [runOps] at hr
    split at hr
    · rename_i km2 hop
      have hstep := count_applyOp k hop
      have h1 := hb 1
      rw [List.take_succ_cons, List.take_zero, registrations_cons, unlocks_cons] at h1
      have hz1 : ((registrations k ([] : List (Op T)) : Nat) : Int) = 0 := by simp [registrations]
      have hz2 : ((unlocks k ([] : List (Op T)) : Nat) : Int) = 0 := by simp [unlocks]
      rw [hz1, hz2] at h1
      have htail : ∀ n, (unlocks k (ops.take n) : Int)
          ≤ km2.count k + registrations k (ops.take n) := by
        intro n
        have hn := hb (n + 1)
        rw [List.take_succ_cons, registrations_cons, unlocks_cons] at hn
        rw [hstep]
        split_ifs at hn h1 ⊢ <;> omega
      have hex : ¬ (Op.isRegister k op = true ∧ Op.isUnlock k op = true) := by
        cases op <;> simp [Op.isRegister, Op.isUnlock]
      have := ih hr htail
      rw [this, hstep, registrations_cons, unlocks_cons]
      split_ifs at h1 ⊢ <;> first | omega | exact absurd ⟨‹_›, ‹_›⟩ hex
    · simp at hr

end Accounting

section AccountingRuns

set_option linter.unusedSectionVars false

variable {T : Type} [DecidableEq T]

theorem absent_of_count_zero {km : KeyMutex T} (h : km.Consistent) {k : T}
    (hc : km.count k = 0) : km.lookup k = none ∧ km.countEntry k = none := by
  have hce : km.countEntry k = none := by
    cases he : km.countEntry k with
    | none => rfl
    | some c =>
      have h1 := (h k).2 c he
      rw [count_eq_of_entry he] at hc
      omega
  refine ⟨?_, hce⟩
  cases hl : km.lookup k with
  | none => rfl
  | some p =>
    obtain ⟨c, hc1⟩ := ((h k).1).mp ⟨p, hl⟩
    rw [hce] at hc1
    cases hc1

/-- Registering `k` `n` times always completes and adds `n` to the count. -/
theorem fill_registrations (k : T) (n : Nat) (km : KeyMutex T)
    (hfree : km.lookup k = none ∨ ∃ a, km.lookup k = some a ∧ km.heap[a]? = some false) :
    ∃ km1, runOps km (List.replicate n (.register k)) = some km1 ∧
      km1.count k = km.count k + n ∧
      (0 < n → ∃ a, km1.lookup k = some a ∧ km1.heap[a]? = some false) ∧
      (km.Consistent → km1.Consistent) := by
  induction n generalizing km with
  | zero => exact ⟨km, by simp [runOps], by simp, by simp, id⟩
  | succ n ih =>
    obtain ⟨km2, p, hreg, hl, hce, -, -, hcase⟩ := register_spec km k
    have hfree2 : ∃ a, km2.lookup k = some a ∧ km2.heap[a]? = some false := by
      refine ⟨p, hl, ?_⟩
      rcases hcase with ⟨h1, h2⟩ | ⟨h1, h2, h3⟩
      · rcases hfree with h0 | ⟨a, ha, hb⟩
        · rw [h0] at h1; cases h1
        · rw [h1] at ha
          injection ha with ha
          subst ha
          rw [h2]; exact hb
      · rw [h3, h2]
        simp
    obtain ⟨km1, hrun, hcount, -, hcons⟩ := ih km2 (Or.inr hfree2)
    refine ⟨km1, ?_, ?_, ?_, ?_⟩
    · simp only [List.replicate_succ, runOps, applyOp, hreg]
      exact hrun
    · rw [hcount, count_eq_of_entry hce]
      push_cast
      omega
    · intro _
      rcases Nat.eq_zero_or_pos n with hn | hn
      · subst hn
        simp only [List.replicate_zero, runOps, Option.some.injEq] at hrun
        subst hrun
        exact hfree2
      · obtain ⟨km1', hrun', -, hfree', -⟩ := ih km2 (Or.inr hfree2)
        rw [hrun] at hrun'
        injection hrun' with hrun'
        subst hrun'
        exact hfree' hn
    · intro hc
      exact hcons (consistent_register hc hreg)

/-- From a registry in which `k` has count `n` and its mutex is free, `n`
rounds of acquire-then-`Unlock` all complete and leave `k` absent. -/
theorem drain_unlocks (k : T) (n : Nat) (km : KeyMutex T) (hc : km.Consistent)
    (hn : km.count k = n)
    (hfree : 0 < n → ∃ a, km.lookup k = some a ∧ km.heap[a]? = some false) :
    ∃ km1, runOps km (List.replicate n [Op.acquire k, Op.unlock k]).flatten = some km1 ∧
      km1.lookup k = none ∧ km1.countEntry k = none := by
  induction n generalizing km with
  | zero =>
    refine ⟨km, by simp [runOps], ?_⟩
    exact absent_of_count_zero hc (by simpa using hn)
  | succ n ih =>
    obtain ⟨a, ha, hb⟩ := hfree (Nat.succ_pos n)
    have hacq : acquire km a = some { km with heap := km.heap.set a true } := by
      simp [acquire, hb]
    have hlt : a < km.heap.length := by
      rcases Nat.lt_or_ge a km.heap.length with h1 | h1
      · exact h1
      · rw [List.getElem?_eq_none h1] at hb
        cases hb
    have hc2 := consistent_acquire hc hacq
    have hcnt2 : ({ km with heap := km.heap.set a true } : KeyMutex T).count k = (n + 1 : Nat) := hn
    have hl2 : ({ km with heap := km.heap.set a true } : KeyMutex T).lookup k = some a := ha
    have hh2 : ({ km with heap := km.heap.set a true } : KeyMutex T).heap[a]? = some true := by
      simp [hlt]
    obtain ⟨km3, hu⟩ := Unlock_returns _ k a (by rw [hcnt2]; push_cast; omega) hl2 hh2
    have hc3 := consistent_Unlock hc2 hu
    rcases Unlock_spec hu with ⟨hle, -⟩ | ⟨-, a', ha', -, hheap, -, -, h1, hne⟩
    · rw [hcnt2] at hle
      push_cast at hle
      omega
    · rw [hl2] at ha'
      injection ha' with ha'
      subst ha'
      have hcnt3 : km3.count k = n := by
        by_cases hone : ({ km with heap := km.heap.set a true } : KeyMutex T).count k = 1
        · rw [count_eq_zero_of_no_entry (h1 hone).2]
          rw [hcnt2] at hone
          push_cast at hone
          omega
        · rw [count_eq_of_entry (hne hone).2, hcnt2]
          push_cast
          omega
      have hfree3 : 0 < n → ∃ b, km3.lookup k = some b ∧ km3.heap[b]? = some false := by
        intro hpos
        have hone : ({ km with heap := km.heap.set a true } : KeyMutex T).count k ≠ 1 := by
          rw [hcnt2]
          push_cast
          omega
        refine ⟨a, (hne hone).1, ?_⟩
        rw [hheap]
        simp [hlt]
      obtain ⟨km1, hrun, habs⟩ := ih km3 hc3 hcnt3 hfree3
      refine ⟨km1, ?_, habs⟩
      simp only [List.replicate_succ, List.flatten_cons, List.cons_append, List.nil_append,
        runOps, applyOp, ha, hacq, hu]
      exact hrun

end AccountingRuns

section InvariantFacts

set_option linter.unusedSectionVars false

variable {T : Type} [DecidableEq T]

theorem getElem?_lt {α : Type} {l : List α} {t : Nat} {c : α} (h : l[t]? = some c) :
    t < l.length := by
  rcases Nat.lt_or_ge t l.length with h1 | h1
  · exact h1
  · rw [List.getElem?_eq_none h1] at h
    cases h

theorem total_set (f : Caller T → Nat) (l : List (Caller T)) (t : Nat) (c c1 : Caller T)
    (h : l[t]? = some c) : total f (l.set t c1) + f c = total f l + f c1 := by
  induction l generalizing t with
  | nil => simp at h
  | cons a l ih =>
    cases t with
    | zero =>
      simp only [List.getElem?_cons_zero, Option.some.injEq] at h
      subst h
      simp only [total, List.set_cons_zero, List.map_cons, List.sum_cons]
      omega
    | succ t =>
      simp only [List.getElem?_cons_succ] at h
      have := ih t h
      simp only [total, List.set_cons_succ, List.map_cons, List.sum_cons] at this ⊢
      omega

theorem le_total (f : Caller T → Nat) (l : List (Caller T)) (t : Nat) (c : Caller T)
    (h : l[t]? = some c) : f c ≤ total f l := by
  induction l generalizing t with
  | nil => simp at h
  | cons a l ih =>
    cases t with
    | zero =>
      simp only [List.getElem?_cons_zero, Option.some.injEq] at h
      subst h
      simp only [total, List.map_cons, List.sum_cons]
      omega
    | succ t =>
      simp only [List.getElem?_cons_succ] at h
      have := ih t h
      simp only [total, List.map_cons, List.sum_cons] at this ⊢
      omega

theorem pair_le_total (f : Caller T → Nat) (l : List (Caller T)) (t u : Nat) (c d : Caller T)
    (ht : l[t]? = some c) (hu : l[u]? = some d) (hne : t ≠ u) : f c + f d ≤ total f l := by
  induction l generalizing t u with
  | nil => simp at ht
  | cons a l ih =>
    cases t with
    | zero =>
      cases u with
      | zero => exact absurd rfl hne
      | succ u =>
        simp only [List.getElem?_cons_zero, Option.some.injEq] at ht
        simp only [List.getElem?_cons_succ] at hu
        subst ht
        have := le_total f l u d hu
        simp only [total, List.map_cons, List.sum_cons] at this ⊢
        omega
    | succ t =>
      cases u with
      | zero =>
        simp only [List.getElem?_cons_zero, Option.some.injEq] at hu
        simp only [List.getElem?_cons_succ] at ht
        subst hu
        have := le_total f l t c ht
        simp only [total, List.map_cons, List.sum_cons] at this ⊢
        omega
      | succ u =>
        simp only [List.getElem?_cons_succ] at ht hu
        have := ih t u ht hu (by omega)
        simp only [total, List.map_cons, List.sum_cons] at this ⊢
        omega

theorem total_eq_zero (f : Caller T → Nat) (l : List (Caller T)) (h : total f l = 0)
    (t : Nat) (c : Caller T) (ht : l[t]? = some c) : f c = 0 := by
  have := le_total f l t c ht
  omega

theorem total_replicate (f : Caller T → Nat) (n : Nat) (c : Caller T) (h : f c = 0) :
    total f (List.replicate n c) = 0 := by
  induction n with
  | zero => rfl
  | succ n ih =>
    simp only [total, List.replicate_succ, List.map_cons, List.sum_cons] at ih ⊢
    omega

theorem getElem?_set_same {α : Type} (l : List α) (t : Nat) (c c1 : α) (h : l[t]? = some c) :
    (l.set t c1)[t]? = some c1 := by
  simp [List.getElem?_set, getElem?_lt h]

theorem getElem?_set_other {α : Type} (l : List α) (t u : Nat) (c1 : α) (h : t ≠ u) :
    (l.set t c1)[u]? = l[u]? := by
  simp [List.getElem?_set, h]

theorem heldCount_cons (k key : T) (p : Handle) (held : List (T × Handle)) :
    heldCount k ((key, p) :: held) = heldCount k held + (if key = k then 1 else 0) := by
  unfold heldCount
  rw [List.countP_cons]
  simp

theorem heldCount_dropKey_same (k : T) (held : List (T × Handle)) (h : 0 < heldCount k held) :
    heldCount k (dropKey k held) + 1 = heldCount k held := by
  induction held with
  | nil => simp [heldCount] at h
  | cons e es ih =>
    obtain ⟨k1, p⟩ := e
    by_cases hk : k1 = k
    · simp [dropKey, hk, heldCount_cons]
    · rw [heldCount_cons] at h
      simp only [hk, if_false, Nat.add_zero] at h
      simp [dropKey, hk, heldCount_cons, ih h]

theorem heldCount_dropKey_other (k key : T) (held : List (T × Handle)) (h : key ≠ k) :
    heldCount k (dropKey key held) = heldCount k held := by
  induction held with
  | nil => rfl
  | cons e es ih =>
    obtain ⟨k1, p⟩ := e
    by_cases hk : k1 = key
    · have : k1 ≠ k := by rw [hk]; exact h
      simp [dropKey, hk, heldCount_cons, h]
    · simp [dropKey, hk, heldCount_cons, ih]

theorem mem_of_mem_dropKey (key : T) (held : List (T × Handle)) (e : T × Handle)
    (h : e ∈ dropKey key held) : e ∈ held := by
  induction held with
  | nil => simp [dropKey] at h
  | cons a es ih =>
    by_cases hk : a.1 = key
    · simp only [dropKey, hk, if_true] at h
      exact List.mem_cons_of_mem _ h
    · simp only [dropKey, hk, if_false, List.mem_cons] at h
      rcases h with h | h
      · exact h ▸ List.mem_cons_self _ _
      · exact List.mem_cons_of_mem _ (ih h)

theorem heldCount_pos_of_mem (k : T) (p : Handle) (held : List (T × Handle))
    (h : (k, p) ∈ held) : 0 < heldCount k held := by
  unfold heldCount
  rw [List.countP_pos_iff]
  exact ⟨(k, p), h, by simp⟩

theorem mem_of_heldCount_pos (k : T) (held : List (T × Handle))
    (h : 0 < heldCount k held) : ∃ p, (k, p) ∈ held := by
  unfold heldCount at h
  rw [List.countP_pos_iff] at h
  obtain ⟨⟨k1, p⟩, hmem, hk⟩ := h
  simp only [decide_eq_true_eq] at hk
  subst hk
  exact ⟨p, hmem⟩

end InvariantFacts

section InvariantSteps

set_option linter.unusedSectionVars false

variable {T : Type} [DecidableEq T]

theorem total_zero_of_forall (f : Caller T → Nat) (l : List (Caller T))
    (h : ∀ (u : Nat) (d : Caller T), l[u]? = some d → f d = 0) : total f l = 0 := by
  induction l with
  | nil => rfl
  | cons a l ih =>
    have h0 := h 0 a (by simp)
    have := ih (fun u d hu => h (u + 1) d (by simpa using hu))
    simp only [total, List.map_cons, List.sum_cons] at this ⊢
    omega

/-- The predicate `LocalOK` only looks at the lookups and at which mutexes are locked. -/
theorem LocalOK_mono {km km1 : KeyMutex T} (pc : PC T)
    (hl : ∀ k, km1.lookup k = km.lookup k)
    (hh : ∀ p : Nat, km.heap[p]? = some true → km1.heap[p]? = some true)
    (h : pc.LocalOK km) : pc.LocalOK km1 := by
  cases pc <;> simp only [PC.LocalOK] at h ⊢ <;> try (rw [hl]; exact h)
  · obtain ⟨p, h1, h2, h3, h4⟩ := h
    refine ⟨p, h1, hh p h2, ?_, ?_⟩
    · intro k hk
      rw [hl] at hk
      exact h3 k hk
    · rw [hl]; exact h4

/-- Outside the critical section `LocalOK` only needs the entry a waiter waits on. -/
theorem LocalOK_nonCS {km km1 : KeyMutex T} (pc : PC T) (hcs : pc.inCS = false)
    (hl : ∀ k p, km.lookup k = some p → pc = .lockWait k p → km1.lookup k = some p)
    (h : pc.LocalOK km) : pc.LocalOK km1 := by
  cases pc <;> simp only [PC.inCS] at hcs <;> simp only [PC.LocalOK] at h ⊢ <;> try cases hcs
  exact hl _ _ h rfl

theorem HeldOK_mono {km km1 : KeyMutex T} (held : List (T × Handle))
    (hl : ∀ k p, km.lookup k = some p → 0 < heldCount k held → km1.lookup k = some p)
    (h : HeldOK km held) : HeldOK km1 held := by
  intro k p hm
  exact hl k p (h k p hm) (heldCount_pos_of_mem k p held hm)

theorem csW_le_one (c : Caller T) : csW c ≤ 1 := by
  unfold csW
  split <;> omega

theorem others_not_inCS {s : State T} (hI : Inv s) {t u : Nat} {c d : Caller T}
    (ht : s.callers[t]? = some c) (hc : c.pc.inCS = true) (hne : u ≠ t)
    (hu : s.callers[u]? = some d) : d.pc.inCS = false := by
  have h1 := pair_le_total csW s.callers t u c d ht hu (Ne.symm hne)
  have h2 := hI.cs
  have h3 : csW c = 1 := by simp [csW, hc]
  have h4 : csW d = 0 := by
    split at h2 <;> omega
  unfold csW at h4
  split at h4
  · omega
  · simpa using ‹¬ d.pc.inCS = true›

theorem mapMut_of_inCS {s : State T} (hI : Inv s) {t : Nat} {c : Caller T}
    (ht : s.callers[t]? = some c) (hc : c.pc.inCS = true) : s.km.mapMut = true := by
  have h1 := le_total csW s.callers t c ht
  have h2 := hI.cs
  have h3 : csW c = 1 := by simp [csW, hc]
  cases hm : s.km.mapMut with
  | true => rfl
  | false =>
    rw [hm] at h2
    simp only [Bool.false_eq_true, if_false] at h2
    omega

/-- Packaging: the invariant after caller `t` has moved from `c` to `c1` and
the registry has become `km1`. -/
theorem inv_update {s : State T} (hI : Inv s) {t : Nat} {c : Caller T}
    (ht : s.callers[t]? = some c) (km1 : KeyMutex T) (c1 : Caller T) (sent1 : List Chan)
    (hcs : csW c1 + (if s.km.mapMut then 1 else 0) = csW c + (if km1.mapMut then 1 else 0))
    (hmaps : km1.m.isSome = km1.refCounts.isSome)
    (hcounts : ∀ k, km1.count k + regW k c = s.km.count k + regW k c1)
    (hentries : ∀ k, (∃ p, km1.lookup k = some p) ↔
      0 < total (regW k) (s.callers.set t c1) + total (pendW k) (s.callers.set t c1))
    (hlocks : ∀ k p, km1.lookup k = some p →
      ∃ b, km1.heap[p]? = some b ∧ total (ownW k) (s.callers.set t c1) = if b then 1 else 0)
    (hinj : ∀ k1 k2 p, km1.lookup k1 = some p → km1.lookup k2 = some p → k1 = k2)
    (hloc : c1.pc.LocalOK km1) (hheld : HeldOK km1 c1.held)
    (hothers : ∀ (u : Nat) (d : Caller T), u ≠ t → s.callers[u]? = some d →
      d.pc.LocalOK km1 ∧ HeldOK km1 d.held) :
    Inv { km := km1, callers := s.callers.set t c1, fault := s.fault, sent := sent1,
          ready := s.ready } := by
  refine ⟨hI.noFault, ?_, hmaps, ?_, hentries, hlocks, hinj, ?_, ?_⟩
  · have h1 := total_set csW s.callers t c c1 ht
    have h2 := hI.cs
    show total csW (s.callers.set t c1) = if km1.mapMut then 1 else 0
    omega
  · intro k
    have h1 := total_set (regW k) s.callers t c c1 ht
    have h2 := hI.counts k
    have h3 := hcounts k
    show ((total (regW k) (s.callers.set t c1) : Nat) : Int) = km1.count k
    omega
  · intro u d hu
    by_cases hut : u = t
    · subst hut
      change (s.callers.set u c1)[u]? = some d at hu
      rw [getElem?_set_same _ _ _ _ ht] at hu
      injection hu with hu
      subst hu
      exact hloc
    · change (s.callers.set t c1)[u]? = some d at hu
      rw [getElem?_set_other _ _ _ _ (Ne.symm hut)] at hu
      exact (hothers u d hut hu).1
  · intro u d hu
    by_cases hut : u = t
    · subst hut
      change (s.callers.set u c1)[u]? = some d at hu
      rw [getElem?_set_same _ _ _ _ ht] at hu
      injection hu with hu
      subst hu
      exact hheld
    · change (s.callers.set t c1)[u]? = some d at hu
      rw [getElem?_set_other _ _ _ _ (Ne.symm hut)] at hu
      exact (hothers u d hut hu).2

/-- The invariant does not look at the receivers. -/
theorem inv_ready {s : State T} (hI : Inv s) (r : List Chan) : Inv { s with ready := r } :=
  ⟨hI.noFault, hI.cs, hI.maps, hI.counts, hI.entries, hI.locks, hI.inj, hI.loc, hI.heldOK⟩

/-- A move that leaves the maps and the mutexes alone and does not change any
weight of the caller. -/
theorem inv_pc_move {s : State T} (hI : Inv s) {t : Nat} {c : Caller T}
    (ht : s.callers[t]? = some c) (mm : Bool) (c1 : Caller T) (sent1 : List Chan)
    (hcs : csW c1 + (if s.km.mapMut then 1 else 0) = csW c + (if mm then 1 else 0))
    (hreg : ∀ k, regW k c1 = regW k c) (hown : ∀ k, ownW k c1 = ownW k c)
    (hpend : ∀ k, pendW k c1 = pendW k c)
    (hloc : c1.pc.LocalOK s.km) (hheld : HeldOK s.km c1.held) :
    Inv { km := { s.km with mapMut := mm }, callers := s.callers.set t c1, fault := s.fault,
          sent := sent1, ready := s.ready } := by
  have hl : ∀ k, ({ s.km with mapMut := mm } : KeyMutex T).lookup k = s.km.lookup k :=
    fun _ => rfl
  have hc : ∀ k, ({ s.km with mapMut := mm } : KeyMutex T).count k = s.km.count k :=
    fun _ => rfl
  refine inv_update hI ht _ c1 sent1 hcs hI.maps ?_ ?_ ?_ ?_ ?_ ?_ ?_
  · intro k
    rw [hc, hreg]
  · intro k
    have h1 := total_set (regW k) s.callers t c c1 ht
    have h2 := total_set (pendW k) s.callers t c c1 ht
    rw [hl, hI.entries k, hreg k] at *
    rw [hpend k] at h2
    constructor <;> intro h <;> omega
  · intro k p hp
    have h1 := total_set (ownW k) s.callers t c c1 ht
    rw [hown k] at h1
    obtain ⟨b, hb, htot⟩ := hI.locks k p hp
    exact ⟨b, hb, by omega⟩
  · exact hI.inj
  · exact LocalOK_mono _ hl (fun _ h => h) hloc
  · exact hheld
  · intro u d _ hu
    exact ⟨LocalOK_mono _ hl (fun _ h => h) (hI.loc u d hu), hI.heldOK u d hu⟩

end InvariantSteps

section InvariantCreate

set_option linter.unusedSectionVars false

variable {T : Type} [DecidableEq T]

theorem owning_cases (k : T) (pc : PC T) (h : pc.owning k = true) :
    pc.registered k = true ∨ pc.pending k = true ∨ ∃ q, pc = .unlockRelease k q := by
  cases pc <;> simp only [PC.owning, PC.registered, PC.pending, decide_eq_true_eq] at h ⊢ <;>
    first
    | (exact absurd h (by simp))
    | (left; exact h)
    | (right; left; exact h)
    | (right; right; subst h; exact ⟨_, rfl⟩)

/-- When a key has no entry, nobody owns its mutex, seen from inside the
critical section. -/
theorem no_owner_of_absent {s : State T} (hI : Inv s) {t : Nat} {c : Caller T}
    (ht : s.callers[t]? = some c) (hc : c.pc.inCS = true) (k : T)
    (hown : c.pc.owning k = false) (habs : s.km.lookup k = none) :
    total (ownW k) s.callers = 0 := by
  apply total_zero_of_forall
  intro u d hu
  have hz : ¬ (0 < total (regW k) s.callers + total (pendW k) s.callers) := by
    rw [← hI.entries k]
    rintro ⟨p, hp⟩
    rw [habs] at hp
    cases hp
  have h1 := le_total (regW k) s.callers u d hu
  have h2 := le_total (pendW k) s.callers u d hu
  have hr : regW k d = 0 := by omega
  have hp : pendW k d = 0 := by omega
  unfold regW at hr
  unfold pendW at hp
  unfold ownW
  have hh : heldCount k d.held = 0 := by omega
  rw [hh]
  by_cases ho : d.pc.owning k = true
  · exfalso
    rcases owning_cases k d.pc ho with h | h | ⟨q, h⟩
    · simp [h] at hr
    · simp [h] at hp
    · by_cases hut : u = t
      · subst hut
        rw [ht] at hu
        injection hu with hu
        subst hu
        rw [ho] at hown
        cases hown
      · have := others_not_inCS hI ht hc hut hu
        rw [h] at this
        simp [PC.inCS] at this
  · simp [ho]

theorem inv_lockCreate {s : State T} (hI : Inv s) {t : Nat} {key : T} {ch : Option Chan}
    {held : List (T × Handle)} (ht : s.callers[t]? = some ⟨.lockCreate key ch, held⟩) :
    ∃ km1 p, getOrCreate (ensureMaps s.km) key = .ok (km1, p) ∧
      Inv { km := km1, callers := s.callers.set t ⟨.lockIncr key ch p, held⟩,
            fault := s.fault, sent := s.sent, ready := s.ready } := by
  obtain ⟨km1, p, hg, hl, hrc, hmm, hoth, hcase⟩ :=
    getOrCreate_spec (ensureMaps s.km) key (ensureMaps_m_isSome _)
  simp only [ensureMaps_lookup, ensureMaps_mapMut, ensureMaps_heap] at hl hmm hoth hcase
  have hlk : ∀ k q, s.km.lookup k = some q → km1.lookup k = some q := by
    intro k q hq
    by_cases hk : k = key
    · subst hk
      rcases hcase with ⟨h1, -⟩ | ⟨h1, -⟩
      · rw [hq] at h1
        rw [hl, h1]
      · rw [hq] at h1
        cases h1
    · rw [hoth k hk]
      exact hq
  have hcount : ∀ k, km1.count k = s.km.count k := by
    intro k
    rw [count_congr (countEntry_congr hrc k), ensureMaps_count]
  have hheap : ∀ (q : Nat) (b : Bool), s.km.heap[q]? = some b → km1.heap[q]? = some b := by
    intro q b hb
    rcases hcase with ⟨-, h2⟩ | ⟨-, -, h3⟩
    · rw [h2]
      exact hb
    · rw [h3, List.getElem?_append_left (getElem?_lt hb)]
      exact hb
  refine ⟨km1, p, hg, inv_update hI ht km1 _ _ ?_ ?_ ?_ ?_ ?_ ?_ ?_ ?_ ?_⟩
  · simp [csW, PC.inCS, hmm]
  · rw [m_isSome_of_lookup hl, hrc]
    rfl
  · intro k
    simp [regW, PC.registered, hcount]
  · intro k
    have h1 := total_set (regW k) s.callers t _ ⟨.lockIncr key ch p, held⟩ ht
    have h2 := total_set (pendW k) s.callers t _ ⟨.lockIncr key ch p, held⟩ ht
    simp only [regW, pendW, PC.registered, PC.pending, Bool.false_eq_true, if_false,
      decide_eq_true_eq] at h1 h2
    by_cases hk : key = k
    · subst hk
      simp only [if_true] at h2
      constructor
      · intro _
        omega
      · intro _
        exact ⟨p, hl⟩
    · simp only [hk, if_false] at h2
      rw [hoth k (Ne.symm hk), hI.entries k]
      constructor <;> intro h <;> omega
  · intro k q hq
    have h1 := total_set (ownW k) s.callers t _ ⟨.lockIncr key ch p, held⟩ ht
    simp only [ownW, PC.owning, Bool.false_eq_true, if_false] at h1
    by_cases hk : k = key
    · subst hk
      rw [hl] at hq
      injection hq with hq
      subst hq
      rcases hcase with ⟨h1', h2⟩ | ⟨h1', h2, h3⟩
      · obtain ⟨b, hb, htot⟩ := hI.locks k p h1'
        exact ⟨b, hheap p b hb, by omega⟩
      · have hz := no_owner_of_absent hI ht rfl k rfl h1'
        refine ⟨false, ?_, by simp only [Bool.false_eq_true, if_false]; omega⟩
        rw [h3, h2]
        simp
    · have hq' : s.km.lookup k = some q := by
        rw [← hoth k hk]
        exact hq
      obtain ⟨b, hb, htot⟩ := hI.locks k q hq'
      exact ⟨b, hheap q b hb, by omega⟩
  · intro k1 k2 q h1 h2
    have hnew : ∀ k, k ≠ key → km1.lookup k = some q → km1.lookup key = some q → False := by
      intro k hk hq hq'
      rw [hoth k hk] at hq
      rw [hl] at hq'
      injection hq' with hq'
      subst hq'
      rcases hcase with ⟨h1', -⟩ | ⟨-, h2', -⟩
      · exact hk (hI.inj _ _ _ hq h1')
      · obtain ⟨b, hb, -⟩ := hI.locks k p hq
        have hlt := getElem?_lt hb
        rw [h2'] at hlt
        exact Nat.lt_irrefl _ hlt
    by_cases hk1 : k1 = key
    · by_cases hk2 : k2 = key
      · rw [hk1, hk2]
      · subst hk1
        exact absurd (hnew k2 hk2 h2 h1) id
    · by_cases hk2 : k2 = key
      · subst hk2
        exact absurd (hnew k1 hk1 h1 h2) id
      · rw [hoth k1 hk1] at h1
        rw [hoth k2 hk2] at h2
        exact hI.inj _ _ _ h1 h2
  · exact hl
  · exact HeldOK_mono _ (fun k q hq _ => hlk k q hq)
      (hI.heldOK t ⟨.lockCreate key ch, held⟩ ht)
  · intro u d hut hu
    refine ⟨LocalOK_nonCS _ (others_not_inCS hI ht rfl hut hu) (fun k q hq _ => hlk k q hq)
      (hI.loc u d hu), HeldOK_mono _ (fun k q hq _ => hlk k q hq) (hI.heldOK u d hu)⟩

end InvariantCreate

section InvariantCounts

set_option linter.unusedSectionVars false

variable {T : Type} [DecidableEq T]

/-- A move that changes only the count map. -/
theorem inv_counts_move {s : State T} (hI : Inv s) {t : Nat} {c : Caller T}
    (ht : s.callers[t]? = some c) (km1 : KeyMutex T) (c1 : Caller T)
    (hm : km1.m = s.km.m) (hh : km1.heap = s.km.heap) (hmm : km1.mapMut = s.km.mapMut)
    (hms : s.km.m.isSome = true) (hrs : km1.refCounts.isSome = true)
    (hcs : csW c1 = csW c)
    (hcounts : ∀ k, km1.count k + regW k c = s.km.count k + regW k c1)
    (hsum : ∀ k, regW k c1 + pendW k c1 = regW k c + pendW k c)
    (hown : ∀ k, ownW k c1 = ownW k c)
    (hloc : c1.pc.LocalOK s.km) (hheld : c1.held = c.held) :
    Inv { km := km1, callers := s.callers.set t c1, fault := s.fault, sent := s.sent,
          ready := s.ready } := by
  have hl : ∀ k, km1.lookup k = s.km.lookup k := lookup_congr hm
  have hhp : ∀ p : Nat, s.km.heap[p]? = some true → km1.heap[p]? = some true := by
    intro p hp
    rw [hh]
    exact hp
  refine inv_update hI ht km1 c1 _ ?_ ?_ hcounts ?_ ?_ ?_ ?_ ?_ ?_
  · rw [hcs, hmm]
  · rw [hrs, hm, hms]
  · intro k
    have h1 := total_set (regW k) s.callers t c c1 ht
    have h2 := total_set (pendW k) s.callers t c c1 ht
    have h3 := hsum k
    rw [hl, hI.entries k]
    constructor <;> intro h <;> omega
  · intro k p hp
    have h1 := total_set (ownW k) s.callers t c c1 ht
    rw [hown k] at h1
    rw [hl] at hp
    obtain ⟨b, hb, htot⟩ := hI.locks k p hp
    exact ⟨b, by rw [hh]; exact hb, by omega⟩
  · intro k1 k2 p h1 h2
    rw [hl] at h1 h2
    exact hI.inj _ _ _ h1 h2
  · exact LocalOK_mono _ hl hhp hloc
  · rw [hheld]
    exact HeldOK_mono _ (fun k q hq _ => by rw [hl]; exact hq) (hI.heldOK t c ht)
  · intro u d _ hu
    exact ⟨LocalOK_mono _ hl hhp (hI.loc u d hu),
      HeldOK_mono _ (fun k q hq _ => by rw [hl]; exact hq) (hI.heldOK u d hu)⟩

theorem inv_lockIncr {s : State T} (hI : Inv s) {t : Nat} {key : T} {ch : Option Chan}
    {p : Handle} {held : List (T × Handle)}
    (ht : s.callers[t]? = some ⟨.lockIncr key ch p, held⟩) (pc1 : PC T)
    (hpc : pc1 = .lockRelease key p ∨ ∃ c, pc1 = .lockSend key c p) :
    ∃ km1, increment s.km key = .ok km1 ∧
      Inv { km := km1, callers := s.callers.set t ⟨pc1, held⟩, fault := s.fault,
            sent := s.sent, ready := s.ready } := by
  have hloc : s.km.lookup key = some p := hI.loc t _ ht
  have hms := m_isSome_of_lookup hloc
  have hrs : s.km.refCounts.isSome = true := by rw [← hI.maps]; exact hms
  obtain ⟨km1, hi, hce, hm, hh, hmm, hoth⟩ := increment_spec s.km key hrs
  refine ⟨km1, hi, inv_counts_move hI ht km1 _ hm hh hmm hms
    (refCounts_isSome_of_entry hce) ?_ ?_ ?_ ?_ ?_ rfl⟩
  · rcases hpc with rfl | ⟨c, rfl⟩ <;> simp [csW, PC.inCS]
  · intro k
    by_cases hk : key = k
    · subst hk
      rw [count_eq_of_entry hce]
      rcases hpc with rfl | ⟨c, rfl⟩ <;> simp [regW, PC.registered] <;> omega
    · rw [count_congr (hoth k (Ne.symm hk))]
      rcases hpc with rfl | ⟨c, rfl⟩ <;> simp [regW, PC.registered, hk]
  · intro k
    rcases hpc with rfl | ⟨c, rfl⟩ <;>
      simp only [regW, pendW, PC.registered, PC.pending] <;> split_ifs <;> simp_all
  · intro k
    rcases hpc with rfl | ⟨c, rfl⟩ <;> simp [ownW, PC.owning]
  · rcases hpc with rfl | ⟨c, rfl⟩ <;> exact hloc

theorem inv_unlockDecr {s : State T} (hI : Inv s) {t : Nat} {key : T} {q : Option Handle}
    {held : List (T × Handle)} (ht : s.callers[t]? = some ⟨.unlockDecr key q, held⟩) :
    ∃ km1, decrement s.km key = .ok km1 ∧
      Inv { km := km1, callers := s.callers.set t ⟨.unlockDelete key q, held⟩,
            fault := s.fault, sent := s.sent, ready := s.ready } := by
  have hloc : q = s.km.lookup key := hI.loc t _ ht
  have hpos : 0 < s.km.count key := by
    have h1 := le_total (regW key) s.callers t _ ht
    have h2 := hI.counts key
    simp only [regW, PC.registered, decide_True, if_true] at h1
    omega
  have hrs : s.km.refCounts.isSome = true :=
    refCounts_isSome_of_entry (entry_of_count_ne_zero (by omega : s.km.count key ≠ 0))
  have hms : s.km.m.isSome = true := by rw [hI.maps]; exact hrs
  obtain ⟨km1, hi, hce, hm, hh, hmm, hoth⟩ := decrement_spec s.km key hrs
  refine ⟨km1, hi, inv_counts_move hI ht km1 _ hm hh hmm hms
    (refCounts_isSome_of_entry hce) ?_ ?_ ?_ ?_ ?_ rfl⟩
  · simp [csW, PC.inCS]
  · intro k
    by_cases hk : key = k
    · subst hk
      rw [count_eq_of_entry hce]
      simp [regW, PC.registered]
    · rw [count_congr (hoth k (Ne.symm hk))]
      simp [regW, PC.registered, hk]
  · intro k
    simp only [regW, pendW, PC.registered, PC.pending]
    split_ifs <;> simp_all
  · intro k
    simp [ownW, PC.owning]
  · exact hloc

end InvariantCounts

section InvariantLocks

set_option linter.unusedSectionVars false

variable {T : Type} [DecidableEq T]

theorem inv_lockWait {s : State T} (hI : Inv s) {t : Nat} {key : T} {p : Handle}
    {held : List (T × Handle)} (ht : s.callers[t]? = some ⟨.lockWait key p, held⟩)
    {km1 : KeyMutex T} (ha : acquire s.km p = some km1) :
    Inv { km := km1, callers := s.callers.set t ⟨.idle, (key, p) :: held⟩, fault := s.fault,
          sent := s.sent, ready := s.ready } := by
  obtain ⟨hfree, rfl⟩ := acquire_some ha
  have hloc : s.km.lookup key = some p := hI.loc t _ ht
  have hlt : p < s.km.heap.length := getElem?_lt hfree
  have hl : ∀ k, ({ s.km with heap := s.km.heap.set p true } : KeyMutex T).lookup k
      = s.km.lookup k := fun _ => rfl
  have hhp : ∀ q : Nat, s.km.heap[q]? = some true →
      ({ s.km with heap := s.km.heap.set p true } : KeyMutex T).heap[q]? = some true := by
    intro q hq
    show (s.km.heap.set p true)[q]? = some true
    by_cases hqp : p = q
    · subst hqp
      simp [hlt]
    · rw [List.getElem?_set_ne hqp]
      exact hq
  refine inv_update hI ht _ _ _ ?_ hI.maps ?_ ?_ ?_ hI.inj ?_ ?_ ?_
  · simp [csW, PC.inCS]
  · intro k
    show s.km.count k + _ = s.km.count k + _
    simp [regW, PC.registered, heldCount_cons]
  · intro k
    have h1 := total_set (regW k) s.callers t _ ⟨.idle, (key, p) :: held⟩ ht
    have h2 := total_set (pendW k) s.callers t _ ⟨.idle, (key, p) :: held⟩ ht
    simp only [regW, pendW, PC.registered, PC.pending, heldCount_cons, decide_eq_true_eq,
      Bool.false_eq_true, if_false] at h1 h2
    rw [hl, hI.entries k]
    constructor <;> intro h <;> omega
  · intro k q hq
    have h1 := total_set (ownW k) s.callers t _ ⟨.idle, (key, p) :: held⟩ ht
    simp only [ownW, PC.owning, heldCount_cons, Bool.false_eq_true, if_false] at h1
    rw [hl] at hq
    obtain ⟨b, hb, htot⟩ := hI.locks k q hq
    by_cases hk : key = k
    · subst hk
      rw [hloc] at hq
      injection hq with hq
      subst hq
      rw [hfree] at hb
      injection hb with hb
      subst hb
      simp only [if_true, Bool.false_eq_true, if_false] at h1 htot
      refine ⟨true, ?_, by simp only [if_true]; omega⟩
      show (s.km.heap.set p true)[p]? = some true
      simp [hlt]
    · have hqp : p ≠ q := by
        intro he
        subst he
        exact hk (hI.inj _ _ _ hloc hq)
      simp only [hk, if_false] at h1
      refine ⟨b, ?_, by omega⟩
      show (s.km.heap.set p true)[q]? = some b
      rw [List.getElem?_set_ne hqp]
      exact hb
  · trivial
  · intro k q hm
    rw [hl]
    rcases List.mem_cons.mp hm with h | h
    · injection h with h1 h2
      subst h1
      subst h2
      exact hloc
    · exact hI.heldOK t ⟨.lockWait key p, held⟩ ht k q h
  · intro u d _ hu
    exact ⟨LocalOK_mono _ hl hhp (hI.loc u d hu),
      HeldOK_mono _ (fun k q hq _ => by rw [hl]; exact hq) (hI.heldOK u d hu)⟩

theorem pendW_le_csW (k : T) (c : Caller T) : pendW k c ≤ csW c := by
  unfold pendW csW
  cases h : c.pc <;> simp [PC.pending, PC.inCS] <;> split <;> omega

theorem total_mono (f g : Caller T → Nat) (l : List (Caller T)) (h : ∀ c, f c ≤ g c) :
    total f l ≤ total g l := by
  induction l with
  | nil => simp [total]
  | cons a l ih =>
    have := h a
    simp only [total, List.map_cons, List.sum_cons] at ih ⊢
    omega

theorem total_pendW_le_one {s : State T} (hI : Inv s) (k : T) :
    total (pendW k) s.callers ≤ 1 := by
  have h1 := total_mono (pendW k) csW s.callers (pendW_le_csW k)
  have h2 := hI.cs
  split at h2 <;> omega

theorem inv_unlockDelete {s : State T} (hI : Inv s) {t : Nat} {key : T} {q : Option Handle}
    {held : List (T × Handle)} (ht : s.callers[t]? = some ⟨.unlockDelete key q, held⟩) :
    Inv { km := deleteIfZero s.km key,
          callers := s.callers.set t ⟨.unlockRelease key q, held⟩, fault := s.fault,
          sent := s.sent, ready := s.ready } := by
  obtain ⟨dh, dmm, doth, dzero, dne⟩ := deleteIfZero_spec s.km key
  have hq : q = s.km.lookup key := hI.loc t _ ht
  have hpend : pendW key (⟨.unlockDelete key q, held⟩ : Caller T) = 1 := by
    simp [pendW, PC.pending]
  have hpl := le_total (pendW key) s.callers t _ ht
  obtain ⟨p, hp⟩ := (hI.entries key).mpr (by omega)
  have hsub : ∀ k p, (deleteIfZero s.km key).lookup k = some p → s.km.lookup k = some p := by
    intro k p1 h
    by_cases hk : k = key
    · subst hk
      by_cases hc : s.km.count k = 0
      · rw [(dzero hc).1] at h
        cases h
      · rw [dne hc] at h
        exact h
    · rw [(doth k hk).1] at h
      exact h
  have hcount : ∀ k, (deleteIfZero s.km key).count k = s.km.count k := by
    intro k
    by_cases hk : k = key
    · subst hk
      by_cases hc : s.km.count k = 0
      · rw [count_eq_zero_of_no_entry (dzero hc).2, hc]
      · rw [dne hc]
    · exact count_congr (doth k hk).2
  have hkeep : ∀ (u : Nat) (d : Caller T) (k : T) (p1 : Handle), s.callers[u]? = some d →
      0 < regW k d → s.km.lookup k = some p1 →
      (deleteIfZero s.km key).lookup k = some p1 := by
    intro u d k p1 hu hr hl
    by_cases hk : k = key
    · subst hk
      have h1 := le_total (regW k) s.callers u d hu
      have h2 := hI.counts k
      rw [dne (by omega)]
      exact hl
    · rw [(doth k hk).1]
      exact hl
  refine inv_update hI ht _ _ _ ?_ ?_ ?_ ?_ ?_ ?_ ?_ ?_ ?_
  · simp [csW, PC.inCS, dmm]
  · have := hI.maps
    unfold deleteIfZero
    split
    · cases hm : s.km.m <;> cases hr : s.km.refCounts <;> simp_all
    · exact this
  · intro k
    rw [hcount]
    simp [regW, PC.registered]
  · intro k
    have h1 := total_set (regW k) s.callers t _ ⟨.unlockRelease key q, held⟩ ht
    have h2 := total_set (pendW k) s.callers t _ ⟨.unlockRelease key q, held⟩ ht
    simp only [regW, pendW, PC.registered, PC.pending, decide_eq_true_eq,
      Bool.false_eq_true, if_false] at h1 h2
    by_cases hk : key = k
    · subst hk
      simp only [if_true] at h2
      have h3 := total_pendW_le_one hI key
      have h4 := hI.counts key
      by_cases hc : s.km.count key = 0
      · rw [(dzero hc).1]
        constructor
        · rintro ⟨_, h⟩
          cases h
        · intro h
          omega
      · rw [dne hc]
        constructor
        · intro _
          omega
        · intro _
          exact ⟨p, hp⟩
    · simp only [hk, if_false] at h2
      rw [(doth k (Ne.symm hk)).1, hI.entries k]
      constructor <;> intro h <;> omega
  · intro k p1 hp1
    have h1 := total_set (ownW k) s.callers t _ ⟨.unlockRelease key q, held⟩ ht
    simp only [ownW, PC.owning] at h1
    obtain ⟨b, hb, htot⟩ := hI.locks k p1 (hsub k p1 hp1)
    exact ⟨b, by rw [dh]; exact hb, by omega⟩
  · intro k1 k2 p1 h1 h2
    exact hI.inj _ _ _ (hsub _ _ h1) (hsub _ _ h2)
  · show ∃ p, q = some p ∧ (deleteIfZero s.km key).heap[p]? = some true ∧
      (∀ k, (deleteIfZero s.km key).lookup k = some p → k = key) ∧
      ((deleteIfZero s.km key).lookup key = none ∨ (deleteIfZero s.km key).lookup key = some p)
    obtain ⟨b, hb, htot⟩ := hI.locks key p hp
    have hown := le_total (ownW key) s.callers t _ ht
    simp only [ownW, PC.owning, decide_True, if_true] at hown
    have hbt : b = true := by
      cases b with
      | true => rfl
      | false =>
        simp only [Bool.false_eq_true, if_false] at htot
        omega
    subst hbt
    refine ⟨p, by rw [hq, hp], by rw [dh]; exact hb, ?_, ?_⟩
    · intro k hk
      exact hI.inj _ _ _ (hsub _ _ hk) hp
    · by_cases hc : s.km.count key = 0
      · exact Or.inl (dzero hc).1
      · right
        rw [dne hc]
        exact hp
  · refine HeldOK_mono _ ?_ (hI.heldOK t ⟨.unlockDelete key q, held⟩ ht)
    intro k p1 hl hh
    refine hkeep t _ k p1 ht ?_ hl
    have hh1 : 0 < heldCount k held := hh
    show 0 < heldCount k held + _
    omega
  · intro u d hut hu
    refine ⟨LocalOK_nonCS _ (others_not_inCS hI ht rfl hut hu) ?_ (hI.loc u d hu),
      HeldOK_mono _ ?_ (hI.heldOK u d hu)⟩
    · intro k p1 hl hpc
      refine hkeep u d k p1 hu ?_ hl
      simp [regW, hpc, PC.registered]
    · intro k p1 hl hh
      refine hkeep u d k p1 hu ?_ hl
      simp only [regW]
      omega

theorem inv_unlockRelease {s : State T} (hI : Inv s) {t : Nat} {key : T} {q : Option Handle}
    {held : List (T × Handle)} (ht : s.callers[t]? = some ⟨.unlockRelease key q, held⟩) :
    ∃ km1, release s.km q = .ok km1 ∧
      Inv { km := km1, callers := s.callers.set t ⟨.unlockDeferred key, held⟩,
            fault := s.fault, sent := s.sent, ready := s.ready } := by
  obtain ⟨p, hq, hlocked, huniq, hkey⟩ := hI.loc t _ ht
  subst hq
  have hlt : p < s.km.heap.length := getElem?_lt hlocked
  refine ⟨{ s.km with heap := s.km.heap.set p false }, by simp [release, hlocked], ?_⟩
  have hl : ∀ k, ({ s.km with heap := s.km.heap.set p false } : KeyMutex T).lookup k
      = s.km.lookup k := fun _ => rfl
  refine inv_update hI ht _ _ _ ?_ hI.maps ?_ ?_ ?_ hI.inj ?_ ?_ ?_
  · simp [csW, PC.inCS]
  · intro k
    show s.km.count k + _ = s.km.count k + _
    simp [regW, PC.registered]
  · intro k
    have h1 := total_set (regW k) s.callers t _ ⟨.unlockDeferred key, held⟩ ht
    have h2 := total_set (pendW k) s.callers t _ ⟨.unlockDeferred key, held⟩ ht
    simp only [regW, pendW, PC.registered, PC.pending, Bool.false_eq_true, if_false] at h1 h2
    rw [hl, hI.entries k]
    constructor <;> intro h <;> omega
  · intro k p1 hp1
    have h1 := total_set (ownW k) s.callers t _ ⟨.unlockDeferred key, held⟩ ht
    simp only [ownW, PC.owning, decide_eq_true_eq, Bool.false_eq_true, if_false] at h1
    rw [hl] at hp1
    obtain ⟨b, hb, htot⟩ := hI.locks k p1 hp1
    by_cases hpp : p = p1
    · subst hpp
      have hk := huniq k hp1
      subst hk
      rw [hlocked] at hb
      injection hb with hb
      subst hb
      simp only [if_true] at h1 htot
      refine ⟨false, ?_, by simp only [Bool.false_eq_true, if_false]; omega⟩
      show (s.km.heap.set p false)[p]? = some false
      simp [hlt]
    · have hk : key ≠ k := by
        intro he
        subst he
        rcases hkey with h | h
        · rw [h] at hp1
          cases hp1
        · rw [h] at hp1
          injection hp1 with hp1
          exact hpp hp1
      simp only [hk, if_false] at h1
      refine ⟨b, ?_, by omega⟩
      show (s.km.heap.set p false)[p1]? = some b
      rw [List.getElem?_set_ne hpp]
      exact hb
  · trivial
  · exact hI.heldOK t ⟨.unlockRelease key (some p), held⟩ ht
  · intro u d hut hu
    exact ⟨@LocalOK_nonCS T _ s.km _ d.pc (others_not_inCS hI ht rfl hut hu)
      (fun k p1 h _ => h) (hI.loc u d hu), hI.heldOK u d hu⟩

end InvariantLocks

section InvariantRun

set_option linter.unusedSectionVars false

variable {T : Type} [DecidableEq T]

theorem count_pos_of_registered {s : State T} (hI : Inv s) {t : Nat} {c : Caller T}
    (ht : s.callers[t]? = some c) (k : T) (h : 0 < regW k c) : 0 < s.km.count k := by
  have h1 := le_total (regW k) s.callers t c ht
  have h2 := hI.counts k
  omega

theorem inv_exec {s s1 : State T} (hI : Inv s) {t : Nat} {pc : PC T}
    {held : List (T × Handle)} (ht : s.callers[t]? = some ⟨pc, held⟩)
    (he : exec s t held pc = some s1) : Inv s1 := by
  have hheld := hI.heldOK t _ ht
  cases pc with
  | idle => simp [exec] at he
  | lockAcquire key ch =>
    simp only [exec] at he
    split at he
    · cases he
    · rename_i hm
      injection he with he
      subst he
      exact inv_pc_move hI ht true ⟨.lockCreate key ch, held⟩ s.sent
        (by simp [csW, PC.inCS, hm]) (by simp [regW, PC.registered])
        (by simp [ownW, PC.owning]) (by simp [pendW, PC.pending]) trivial hheld
  | lockCreate key ch =>
    obtain ⟨km1, p, hg, hinv⟩ := inv_lockCreate hI ht
    simp only [exec, hg] at he
    injection he with he
    subst he
    exact hinv
  | lockIncr key ch p =>
    cases ch with
    | none =>
      obtain ⟨km1, hi, hinv⟩ := inv_lockIncr hI ht (.lockRelease key p) (Or.inl rfl)
      simp only [exec, hi] at he
      injection he with he
      subst he
      exact hinv
    | some c =>
      obtain ⟨km1, hi, hinv⟩ := inv_lockIncr hI ht (.lockSend key c p) (Or.inr ⟨c, rfl⟩)
      simp only [exec, hi] at he
      injection he with he
      subst he
      exact hinv
  | lockSend key c p =>
    simp only [exec] at he
    split at he
    · injection he with he
      subst he
      exact inv_ready (inv_pc_move hI ht s.km.mapMut ⟨.lockRelease key p, held⟩ (s.sent ++ [c])
        (by simp [csW, PC.inCS]) (by simp [regW, PC.registered])
        (by simp [ownW, PC.owning]) (by simp [pendW, PC.pending])
        (hI.loc t ⟨.lockSend key c p, held⟩ ht) hheld) (s.ready.erase c)
    · cases he
  | lockRelease key p =>
    simp only [exec] at he
    injection he with he
    subst he
    have hm := mapMut_of_inCS hI ht rfl
    exact inv_pc_move hI ht false ⟨.lockWait key p, held⟩ s.sent
      (by simp [csW, PC.inCS, hm]) (by simp [regW, PC.registered])
      (by simp [ownW, PC.owning]) (by simp [pendW, PC.pending])
      (hI.loc t ⟨.lockRelease key p, held⟩ ht) hheld
  | lockWait key p =>
    simp only [exec] at he
    split at he
    · rename_i km1 ha
      injection he with he
      subst he
      exact inv_lockWait hI ht ha
    · cases he
  | unlockAcquire key =>
    simp only [exec] at he
    split at he
    · cases he
    · rename_i hm
      injection he with he
      subst he
      exact inv_pc_move hI ht true ⟨.unlockGuard key, held⟩ s.sent
        (by simp [csW, PC.inCS, hm]) (by simp [regW, PC.registered])
        (by simp [ownW, PC.owning]) (by simp [pendW, PC.pending]) trivial hheld
  | unlockGuard key =>
    have hpos := count_pos_of_registered hI ht key (by simp [regW, PC.registered])
    simp only [exec, not_le.mpr hpos, if_false] at he
    injection he with he
    subst he
    exact inv_pc_move hI ht s.km.mapMut ⟨.unlockLookup key, held⟩ s.sent
      (by simp [csW, PC.inCS]) (by simp [regW, PC.registered])
      (by simp [ownW, PC.owning]) (by simp [pendW, PC.pending]) trivial hheld
  | unlockLookup key =>
    simp only [exec] at he
    injection he with he
    subst he
    exact inv_pc_move hI ht s.km.mapMut ⟨.unlockDecr key (s.km.lookup key), held⟩ s.sent
      (by simp [csW, PC.inCS]) (by simp [regW, PC.registered])
      (by simp [ownW, PC.owning]) (by simp [pendW, PC.pending]) rfl hheld
  | unlockDecr key q =>
    obtain ⟨km1, hd, hinv⟩ := inv_unlockDecr hI ht
    simp only [exec, hd] at he
    injection he with he
    subst he
    exact hinv
  | unlockDelete key q =>
    simp only [exec] at he
    injection he with he
    subst he
    exact inv_unlockDelete hI ht
  | unlockRelease key q =>
    obtain ⟨km1, hr, hinv⟩ := inv_unlockRelease hI ht
    simp only [exec, hr] at he
    injection he with he
    subst he
    exact hinv
  | unlockDeferred key =>
    simp only [exec] at he
    injection he with he
    subst he
    have hm := mapMut_of_inCS hI ht rfl
    exact inv_pc_move hI ht false ⟨.idle, held⟩ s.sent
      (by simp [csW, PC.inCS, hm]) (by simp [regW, PC.registered])
      (by simp [ownW, PC.owning]) (by simp [pendW, PC.pending]) trivial hheld

theorem HeldOK_dropKey {km : KeyMutex T} (key : T) (held : List (T × Handle))
    (h : HeldOK km held) : HeldOK km (dropKey key held) :=
  fun k p hm => h k p (mem_of_mem_dropKey key held (k, p) hm)

/-- One event of a disciplined schedule keeps the invariant. -/
theorem inv_step {s s1 : State T} (hI : Inv s) {e : Event T}
    (hd : disciplined s e = true) (hs : step s e = some s1) : Inv s1 := by
  cases e with
  | tick t =>
    simp only [step] at hs
    split at hs
    · rename_i c hf hc
      exact inv_exec hI (show s.callers[t]? = some ⟨c.pc, c.held⟩ from hc) hs
    · cases hs
  | call t cl =>
    simp only [step] at hs
    split at hs
    · rename_i held hf ht
      cases cl with
      | lockWithWaiting key ch =>
        simp only at hs
        injection hs with hs
        subst hs
        exact inv_pc_move hI ht s.km.mapMut ⟨.lockAcquire key ch, held⟩ s.sent
          (by simp [csW, PC.inCS]) (by simp [regW, PC.registered])
          (by simp [ownW, PC.owning]) (by simp [pendW, PC.pending]) trivial
          (hI.heldOK t ⟨.idle, held⟩ ht)
      | Unlock key =>
        simp only at hs
        injection hs with hs
        subst hs
        have hpos : 0 < heldCount key held := by
          simpa [disciplined, ht] using hd
        have hcnt : ∀ k, heldCount k (dropKey key held) + (if key = k then 1 else 0)
            = heldCount k held := by
          intro k
          by_cases hk : key = k
          · subst hk
            simp only [if_true]
            exact heldCount_dropKey_same key held hpos
          · simp only [hk, if_false, Nat.add_zero]
            exact heldCount_dropKey_other k key held hk
        exact inv_pc_move hI ht s.km.mapMut ⟨.unlockAcquire key, dropKey key held⟩ s.sent
          (by simp [csW, PC.inCS])
          (by intro k; simpa [regW, PC.registered] using hcnt k)
          (by intro k; simpa [ownW, PC.owning] using hcnt k)
          (by simp [pendW, PC.pending]) trivial
          (HeldOK_dropKey key held (hI.heldOK t ⟨.idle, held⟩ ht))
    · cases hs
  | recv ch =>
    simp only [step] at hs
    split at hs
    · injection hs with hs
      subst hs
      exact inv_ready hI (s.ready ++ [ch])
    · cases hs

theorem inv_run {s s1 : State T} (hI : Inv s) (es : List (Event T))
    (hr : run true s es = some s1) : Inv s1 := by
  induction es generalizing s with
  | nil =>
    simp only [run, Option.some.injEq] at hr
    subst hr
    exact hI
  | cons e es ih =>
    simp only [run, Bool.true_and] at hr
    split at hr
    · cases hr
    · rename_i hd
      split at hr
      · rename_i s2 hs
        exact ih (inv_step hI (by simpa using hd) hs) hr
      · cases hr

theorem inv_init (n : Nat) : Inv (State.init T n) := by
  have hz : ∀ f : Caller T → Nat, f ⟨.idle, []⟩ = 0 →
      total f (State.init T n).callers = 0 := fun f hf => total_replicate f n _ hf
  have hc : ∀ (t : Nat) (c : Caller T), (State.init T n).callers[t]? = some c →
      c = ⟨.idle, []⟩ := by
    intro t c h
    have h1 : (List.replicate n (⟨.idle, []⟩ : Caller T))[t]? = some c := h
    rw [List.getElem?_replicate] at h1
    split at h1
    · injection h1 with h1
      exact h1.symm
    · cases h1
  refine ⟨rfl, ?_, rfl, ?_, ?_, ?_, ?_, ?_, ?_⟩
  · rw [hz csW (by simp [csW, PC.inCS])]
    rfl
  · intro k
    rw [hz (regW k) (by simp [regW, PC.registered, heldCount])]
    rfl
  · intro k
    rw [hz (regW k) (by simp [regW, PC.registered, heldCount]),
      hz (pendW k) (by simp [pendW, PC.pending])]
    constructor
    · rintro ⟨p, hp⟩
      cases hp
    · intro h
      omega
  · intro k p hp
    cases hp
  · intro k1 k2 p hp
    cases hp
  · intro t c h
    rw [hc t c h]
    trivial
  · intro t c h
    rw [hc t c h]
    intro k p hm
    cases hm

/-- Every state reached by disciplined callers satisfies the invariant. -/
theorem inv_of_reachable {s : State T} (h : Reachable s) : Inv s := by
  obtain ⟨n, es, hr⟩ := h
  exact inv_run (inv_init n) es hr

end InvariantRun

section SequentialClaims

variable {T : Type} [DecidableEq T]

/-- C3 (entry-iff-count invariant): in every registry state reached from the
zero-value registry by a finite sequence of `Lock` registrations, per-key lock
acquisitions and `Unlock` calls on any keys, a key has an entry in the
key->lock map if and only if the key->count map holds a count greater than
zero for it. -/
theorem entry_iff_count (ops : List (Op T)) (km : KeyMutex T)
    (h : runOps (KeyMutex.zero T) ops = some km) (k : T) :
    km.hasEntry k ↔ km.hasPositiveCount k :=
  entry_iff_of_consistent (consistent_runOps ops consistent_zero h) k

/-- The invariant of C3 at a concrete run: two registrations of key 1 with one
acquisition and one unlock in between. -/
theorem entry_iff_count_witness :
    ∃ km, runOps (KeyMutex.zero Nat) [.register 1, .acquire 1, .register 1, .unlock 1] = some km ∧
      km.count 1 = 1 ∧ (km.hasEntry 1 ↔ km.hasPositiveCount 1) := by
  refine ⟨_, rfl, by decide, ?_⟩
  exact entry_iff_count [.register 1, .acquire 1, .register 1, .unlock 1] _ (by rfl) 1

end SequentialClaims

section SequentialClaims2

variable {T : Type} [DecidableEq T]

/-- C6 (count is never negative): in every registry state reached from the
zero-value registry by a sequence of `Lock` registrations, per-key lock
acquisitions and `Unlock` calls (matched or not), the reference count of every
key, an absent key reading as 0, is at least 0. -/
theorem count_never_negative (ops : List (Op T)) (km : KeyMutex T)
    (h : runOps (KeyMutex.zero T) ops = some km) (k : T) : 0 ≤ km.count k :=
  count_nonneg_of_consistent (consistent_runOps ops consistent_zero h) k

/-- C6 at a concrete run with two unmatched `Unlock` calls. -/
theorem count_never_negative_witness :
    ∃ km, runOps (KeyMutex.zero Nat)
        [.unlock 1, .register 1, .acquire 1, .unlock 1, .unlock 1] = some km ∧
      km.count 1 = 0 ∧ 0 ≤ km.count 1 := by
  refine ⟨_, rfl, by decide, ?_⟩
  exact count_never_negative [.unlock 1, .register 1, .acquire 1, .unlock 1, .unlock 1] _
    (by rfl) 1

/-- C5 (over-unlock is a no-op): in every registry state, nil maps included,
`Unlock(k)` on a key whose count is at most 0 returns normally with the
registry (both maps and every per-key lock) unchanged.  As a whole call: from
any state in which the mapping-lock is free, a caller not inside a call runs
`Unlock(k)` to completion in three steps (acquire the mapping-lock, guard,
deferred release), performs no per-key unlock, and leaves the registry as it
was. -/
theorem over_unlock_noop (km : KeyMutex T) (k : T) (h : km.count k ≤ 0) :
    Unlock km k = .ok km ∧
    ∀ (callers : List (Caller T)) (sent ready : List Chan) (t : Nat)
      (held : List (T × Handle)),
      km.mapMut = false → callers[t]? = some ⟨.idle, held⟩ →
      run false ⟨km, callers, none, sent, ready⟩
          [.call t (.Unlock k), .tick t, .tick t, .tick t]
        = some ⟨km, callers.set t ⟨.idle, dropKey k held⟩, none, sent, ready⟩ ∧
      traceOf t ⟨km, callers, none, sent, ready⟩
          [.call t (.Unlock k), .tick t, .tick t, .tick t]
        = [.lockMap, .guard, .unlockMap] := by
  refine ⟨Unlock_noop km k h, ?_⟩
  intro callers sent ready t held hm ht
  have hlt : t < callers.length := by
    rcases Nat.lt_or_ge t callers.length with h1 | h1
    · exact h1
    · rw [List.getElem?_eq_none h1] at ht
      cases ht
  obtain ⟨mm, m, rc, heap⟩ := km
  simp only at hm
  subst hm
  have h1 : (KeyMutex.mk true m rc heap).count k ≤ 0 := h
  constructor
  · simp [run, step, exec, State.move, ht, hlt, h1, List.getElem?_set]
  · simp [traceOf, step, exec, State.move, ht, hlt, h1, List.getElem?_set, PC.action]

/-- C5 at the zero-value registry (both maps nil), for a single caller. -/
theorem over_unlock_noop_witness :
    (KeyMutex.zero Nat).count 1 ≤ 0 ∧ Unlock (KeyMutex.zero Nat) 1 = .ok (KeyMutex.zero Nat) ∧
      run false ⟨KeyMutex.zero Nat, [⟨.idle, []⟩], none, [], []⟩
          [.call 0 (.Unlock 1), .tick 0, .tick 0, .tick 0]
        = some ⟨KeyMutex.zero Nat, [⟨.idle, []⟩], none, [], []⟩ :=
  have h := over_unlock_noop (KeyMutex.zero Nat) 1 (by decide)
  ⟨by decide, h.1, (h.2 [⟨.idle, []⟩] [] [] 0 [] rfl rfl).1⟩

/-- C7 as stated fails for the lock state: in a registry in which keys 1 and 2
are mapped to one and the same mutex, which is locked, `Unlock(1)` returns and
leaves the entry and the count of key 2 as they were, but the per-key lock of
key 2 has gone from locked to unlocked. -/
theorem unlock_releases_aliased_lock :
    (1 : Nat) ≠ 2 ∧ demoAliased.lookup 1 = some 0 ∧ demoAliased.lookup 2 = some 0 ∧
      demoAliased.count 1 = 1 ∧ demoAliased.lockState (demoAliased.lookup 2) = some true ∧
      ∃ km1, Unlock demoAliased 1 = .ok km1 ∧ km1.lookup 2 = demoAliased.lookup 2 ∧
        km1.countEntry 2 = demoAliased.countEntry 2 ∧
        km1.lockState (km1.lookup 2) = some false :=
  ⟨by decide, by decide, by decide, by decide, by decide, _, rfl, by decide, by decide,
    by decide⟩

/-- C7, amended (operations on one key leave every other key untouched, given
one lock object per key): for every registry state and keys `k1 ≠ k2`, the
bookkeeping of `Lock(k1)` and the whole of `Unlock(k1)` leave `k2` with the
same entry in the key->lock map (present or not, same handle) and the same
count entry; the bookkeeping of `Lock(k1)` leaves the per-key lock of `k2` in
the same locked/unlocked state, and so does `Unlock(k1)` in every registry in
which `k1` and `k2` are not mapped to one and the same mutex object.  Every
registry reached from the zero value is such a registry. -/
theorem other_keys_untouched (km : KeyMutex T) (k1 k2 : T) (hk : k1 ≠ k2) :
    (∀ km1 p, register km k1 = .ok (km1, p) →
      km1.lookup k2 = km.lookup k2 ∧ km1.countEntry k2 = km.countEntry k2 ∧
      ∀ a b, km.lookup k2 = some a → km.heap[a]? = some b → km1.heap[a]? = some b) ∧
    (∀ km1, Unlock km k1 = .ok km1 →
      km1.lookup k2 = km.lookup k2 ∧ km1.countEntry k2 = km.countEntry k2 ∧
      ((∀ a, km.lookup k1 = some a → km.lookup k2 ≠ some a) →
        ∀ a b, km.lookup k2 = some a → km.heap[a]? = some b → km1.heap[a]? = some b)) ∧
    (∀ ops, runOps (KeyMutex.zero T) ops = some km →
      ∀ a, km.lookup k1 = some a → km.lookup k2 ≠ some a) := by
  refine ⟨?_, ?_, ?_⟩
  · intro km1 p hr
    obtain ⟨km2, q, hreg, -, -, -, hoth, hcase⟩ := register_spec km k1
    rw [hr] at hreg
    injection hreg with hreg
    injection hreg with h1 h2
    subst h1
    subst h2
    refine ⟨(hoth k2 (Ne.symm hk)).1, (hoth k2 (Ne.symm hk)).2, ?_⟩
    intro a b _ hb
    rcases hcase with ⟨-, hh⟩ | ⟨-, -, hh⟩
    · rw [hh]; exact hb
    · rw [hh]
      have hlt : a < km.heap.length := by
        rcases Nat.lt_or_ge a km.heap.length with h1 | h1
        · exact h1
        · rw [List.getElem?_eq_none h1] at hb
          cases hb
      rw [List.getElem?_append_left hlt]
      exact hb
  · intro km1 hu
    rcases Unlock_spec hu with ⟨-, rfl⟩ | ⟨-, a1, ha1, -, hheap, -, hoth, -, -⟩
    · exact ⟨rfl, rfl, fun _ _ _ _ hb => hb⟩
    · refine ⟨(hoth k2 (Ne.symm hk)).1, (hoth k2 (Ne.symm hk)).2, ?_⟩
      intro hd a b ha hb
      have hne : a1 ≠ a := by
        intro he
        subst he
        exact hd a1 ha1 ha
      rw [hheap, List.getElem?_set_ne hne]
      exact hb
  · intro ops hrun a ha1 ha2
    exact hk ((separate_runOps ops separate_zero hrun k2 a ha2).2 k1 ha1)

end SequentialClaims2

section SequentialClaims3

variable {T : Type} [DecidableEq T]

/-- C7, amended, at a concrete registry: keys 1 and 2 are both held, on the
mutexes 0 and 1; `Unlock(1)` returns and leaves the entry, the count and the
locked mutex of key 2 as they were. -/
theorem other_keys_untouched_witness :
    (1 : Nat) ≠ 2 ∧ demoTwoHeld.lookup 1 = some 0 ∧ demoTwoHeld.lookup 2 = some 1 ∧
      demoTwoHeld.heap[1]? = some true ∧
      ∃ km1, Unlock demoTwoHeld 1 = .ok km1 ∧ km1.lookup 2 = demoTwoHeld.lookup 2 ∧
        km1.countEntry 2 = demoTwoHeld.countEntry 2 ∧ km1.heap[1]? = some true := by
  have e1 : demoTwoHeld.lookup 1 = some 0 := by decide
  have e2 : demoTwoHeld.lookup 2 = some 1 := by decide
  have e3 : demoTwoHeld.heap[1]? = some true := by decide
  obtain ⟨km1, h1⟩ := Unlock_returns demoTwoHeld 1 0 (by decide) e1 (by decide)
  have h := (other_keys_untouched demoTwoHeld 1 2 (by decide)).2.1 km1 h1
  refine ⟨by decide, e1, e2, e3, km1, h1, h.1, h.2.1, ?_⟩
  refine h.2.2 ?_ 1 true e2 e3
  intro a ha hb
  rw [e1] at ha
  rw [e2] at hb
  injection ha with ha
  injection hb with hb
  rw [← ha] at hb
  exact absurd hb (by decide)

end SequentialClaims3

section AccountingClaim

variable {T : Type} [DecidableEq T]

/-- C4 (reference count accounting): starting from the zero-value registry,
after any completed sequence of operations in which every prefix has at least
as many registrations of `k` as unlocks of `k`, the count of `k` is the number
of registrations minus the number of unlocks; when the two numbers are equal
`k` is absent from both maps, and with fewer unlocks the entry stays.  In
particular `n` registrations always complete and give count `n`, and `n`
further unlocks (each by a caller that has locked the per-key mutex) always
complete and leave `k` absent from both maps. -/
theorem refcount_accounting (k : T) :
    (∀ (ops : List (Op T)) (km : KeyMutex T),
      runOps (KeyMutex.zero T) ops = some km → Balanced k ops →
        km.count k = (registrations k ops : Int) - unlocks k ops ∧
        (registrations k ops = unlocks k ops →
          km.lookup k = none ∧ km.countEntry k = none) ∧
        (unlocks k ops < registrations k ops →
          km.hasEntry k ∧
          km.countEntry k = some ((registrations k ops : Int) - unlocks k ops))) ∧
    (∀ n : Nat, ∃ km, runOps (KeyMutex.zero T) (List.replicate n (.register k)) = some km ∧
      km.count k = n) ∧
    (∀ n : Nat, ∃ km, runOps (KeyMutex.zero T)
        (List.replicate n (.register k) ++
          (List.replicate n [Op.acquire k, Op.unlock k]).flatten) = some km ∧
      km.lookup k = none ∧ km.countEntry k = none) := by
  have hz : (KeyMutex.zero T).count k = 0 := by
    simp [KeyMutex.zero, KeyMutex.count, KeyMutex.countEntry]
  have hzl : (KeyMutex.zero T).lookup k = none := by
    simp [KeyMutex.zero, KeyMutex.lookup]
  refine ⟨?_, ?_, ?_⟩
  · intro ops km hrun hbal
    have hcons := consistent_runOps ops consistent_zero hrun
    have hcount : km.count k = (registrations k ops : Int) - unlocks k ops := by
      have := count_runOps k ops hrun (by
        intro n
        rw [hz, zero_add]
        exact_mod_cast hbal n)
      rw [this, hz, zero_add]
    refine ⟨hcount, ?_, ?_⟩
    · intro heq
      exact absent_of_count_zero hcons (by rw [hcount, heq]; omega)
    · intro hlt
      have hne : km.count k ≠ 0 := by rw [hcount]; omega
      have hentry := entry_of_count_ne_zero hne
      refine ⟨?_, by rw [hentry, hcount]⟩
      exact (entry_iff_of_consistent hcons k).mpr
        ⟨_, hentry, by rw [hcount]; omega⟩
  · intro n
    obtain ⟨km, hrun, hcount, -, -⟩ := fill_registrations k n (KeyMutex.zero T) (Or.inl hzl)
    exact ⟨km, hrun, by rw [hcount, hz, zero_add]⟩
  · intro n
    obtain ⟨km, hrun, hcount, hfree, hcons⟩ :=
      fill_registrations k n (KeyMutex.zero T) (Or.inl hzl)
    obtain ⟨km1, hrun1, habs⟩ := drain_unlocks k n km (hcons consistent_zero)
      (by rw [hcount, hz, zero_add]) hfree
    refine ⟨km1, ?_, habs⟩
    rw [runOps_append, hrun]
    exact hrun1

/-- C4 at a concrete run: three registrations of key 7 and two unlocks. -/
theorem refcount_accounting_witness :
    ∃ km, runOps (KeyMutex.zero Nat)
        [.register 7, .acquire 7, .register 7, .unlock 7, .register 7, .acquire 7, .unlock 7]
          = some km ∧ km.count 7 = ((3 : Nat) : Int) - (2 : Nat) := by
  refine ⟨_, rfl, ?_⟩
  have h := (refcount_accounting (7 : Nat)).1
    [.register 7, .acquire 7, .register 7, .unlock 7, .register 7, .acquire 7, .unlock 7] _
    (by rfl) (by
      intro n
      rcases n with _ | _ | _ | _ | _ | _ | _ | _ | n <;>
        first | decide | (simp only [List.take_succ_cons, List.take_nil]; decide))
  exact h.1

end AccountingClaim

section MutualExclusion

set_option linter.unusedSectionVars false

variable {T : Type} [DecidableEq T]

theorem lookup_of_registered {s : State T} (hI : Inv s) {t : Nat} {c : Caller T}
    (ht : s.callers[t]? = some c) (k : T) (h : 0 < regW k c) : ∃ p, s.km.lookup k = some p := by
  have h1 := le_total (regW k) s.callers t c ht
  exact (hI.entries k).mpr (by omega)

theorem heldCount_le_regW (k : T) (c : Caller T) : heldCount k c.held ≤ regW k c := by
  unfold regW
  omega

theorem heldCount_le_ownW (k : T) (c : Caller T) : heldCount k c.held ≤ ownW k c := by
  unfold ownW
  omega

theorem total_ownW_le_one {s : State T} (hI : Inv s) (k : T) (p : Handle)
    (hp : s.km.lookup k = some p) : total (ownW k) s.callers ≤ 1 := by
  obtain ⟨b, -, htot⟩ := hI.locks k p hp
  rw [htot]
  split <;> omega

/-- While somebody holds `k`, the mutex `k` is mapped to is locked. -/
theorem locked_of_held {s : State T} (hI : Inv s) {t : Nat} {c : Caller T}
    (ht : s.callers[t]? = some c) (k : T) (h : 0 < heldCount k c.held) :
    ∃ p, s.km.lookup k = some p ∧ s.km.heap[p]? = some true := by
  obtain ⟨p, hp⟩ := lookup_of_registered hI ht k
    (lt_of_lt_of_le h (heldCount_le_regW k c))
  obtain ⟨b, hb, htot⟩ := hI.locks k p hp
  have h1 := le_total (ownW k) s.callers t c ht
  have h2 := heldCount_le_ownW k c
  cases b with
  | true => exact ⟨p, hp, hb⟩
  | false =>
    simp only [Bool.false_eq_true, if_false] at htot
    omega

end MutualExclusion

section Deletion

set_option linter.unusedSectionVars false

variable {T : Type} [DecidableEq T]

theorem increment_m {km km1 : KeyMutex T} {k : T} (h : increment km k = .ok km1) :
    km1.m = km.m := by
  unfold increment at h
  split at h
  · cases h
  · injection h with h
    subst h
    rfl

theorem decrement_m {km km1 : KeyMutex T} {k : T} (h : decrement km k = .ok km1) :
    km1.m = km.m := by
  unfold decrement at h
  split at h
  · cases h
  · injection h with h
    subst h
    rfl

theorem getOrCreate_keeps {km km1 : KeyMutex T} {key : T} {p : Handle}
    (h : getOrCreate km key = .ok (km1, p)) (k : T) (q : Handle)
    (hq : km.lookup k = some q) : km1.lookup k = some q := by
  unfold getOrCreate at h
  split at h
  · injection h with h
    injection h with h1 h2
    subst h1
    exact hq
  · rename_i hnone
    split at h
    · cases h
    · rename_i f hf
      injection h with h
      injection h with h1 h2
      subst h1
      have hk : k ≠ key := by
        intro he
        subst he
        rw [hnone] at hq
        cases hq
      simp only [KeyMutex.lookup, hf] at hq
      simp [KeyMutex.lookup, Function.update_apply, hk, hq]

/-- The only statement that can take away the entry of `k` is the deletion
inside `Unlock(k)` (lines 35-38). -/
theorem entry_lost_only_by_delete {s s1 : State T} {e : Event T} {k : T} {p : Handle}
    (hs : step s e = some s1) (hp : s.km.lookup k = some p) (hn : s1.km.lookup k = none) :
    ∃ t q held, e = .tick t ∧ s.callers[t]? = some ⟨.unlockDelete k q, held⟩ := by
  have hcontra : ∀ km1 : KeyMutex T, km1.lookup k = some p → km1.lookup k = none → False := by
    intro km1 h1 h2
    rw [h1] at h2
    cases h2
  cases e with
  | call t cl =>
    simp only [step] at hs
    split at hs
    · cases cl <;>
      · simp only at hs
        injection hs with hs
        subst hs
        exact absurd hn (by rw [show (State.move s s.km t _).km = s.km from rfl, hp]; simp)
    · cases hs
  | tick t =>
    simp only [step] at hs
    split at hs
    · rename_i c hf hc
      obtain ⟨pc, held⟩ := c
      simp only at hs
      cases pc with
      | idle => simp [exec] at hs
      | lockAcquire key ch =>
        simp only [exec] at hs
        split at hs
        · cases hs
        · injection hs with hs
          subst hs
          exact (hcontra _ hp hn).elim
      | lockCreate key ch =>
        simp only [exec] at hs
        split at hs
        · rename_i km1 p1 hg
          injection hs with hs
          subst hs
          have := getOrCreate_keeps hg k p (by rw [ensureMaps_lookup]; exact hp)
          exact (hcontra _ this hn).elim
        · injection hs with hs
          subst hs
          exact (hcontra _ hp hn).elim
      | lockIncr key ch p1 =>
        simp only [exec] at hs
        split at hs
        · rename_i km1 hi
          have hl : km1.lookup k = some p := by rw [lookup_congr (increment_m hi)]; exact hp
          cases ch <;>
          · simp only at hs
            injection hs with hs
            subst hs
            exact (hcontra _ hl hn).elim
        · injection hs with hs
          subst hs
          exact (hcontra _ hp hn).elim
      | lockSend key c p1 =>
        simp only [exec] at hs
        split at hs
        · injection hs with hs
          subst hs
          exact (hcontra _ hp hn).elim
        · cases hs
      | lockRelease key p1 =>
        simp only [exec] at hs
        injection hs with hs
        subst hs
        exact (hcontra _ hp hn).elim
      | lockWait key p1 =>
        simp only [exec] at hs
        split at hs
        · rename_i km1 ha
          obtain ⟨-, rfl⟩ := acquire_some ha
          injection hs with hs
          subst hs
          exact (hcontra _ hp hn).elim
        · cases hs
      | unlockAcquire key =>
        simp only [exec] at hs
        split at hs
        · cases hs
        · injection hs with hs
          subst hs
          exact (hcontra _ hp hn).elim
      | unlockGuard key =>
        simp only [exec] at hs
        split at hs <;>
        · injection hs with hs
          subst hs
          exact (hcontra _ hp hn).elim
      | unlockLookup key =>
        simp only [exec] at hs
        injection hs with hs
        subst hs
        exact (hcontra _ hp hn).elim
      | unlockDecr key q =>
        simp only [exec] at hs
        split at hs
        · rename_i km1 hd
          have hl : km1.lookup k = some p := by rw [lookup_congr (decrement_m hd)]; exact hp
          injection hs with hs
          subst hs
          exact (hcontra _ hl hn).elim
        · injection hs with hs
          subst hs
          exact (hcontra _ hp hn).elim
      | unlockDelete key q =>
        simp only [exec] at hs
        injection hs with hs
        subst hs
        by_cases hk : k = key
        · subst hk
          exact ⟨t, q, held, rfl, hc⟩
        · have hl : (deleteIfZero s.km key).lookup k = some p := by
            rw [((deleteIfZero_spec s.km key).2.2.1 k hk).1]
            exact hp
          exact (hcontra _ hl hn).elim
      | unlockRelease key q =>
        simp only [exec] at hs
        split at hs
        · rename_i km1 hr
          obtain ⟨a, -, -, rfl⟩ := release_ok hr
          injection hs with hs
          subst hs
          exact (hcontra _ hp hn).elim
        · injection hs with hs
          subst hs
          exact (hcontra _ hp hn).elim
      | unlockDeferred key =>
        simp only [exec] at hs
        injection hs with hs
        subst hs
        exact (hcontra _ hp hn).elim
    · cases hs
  | recv ch =>
    simp only [step] at hs
    split at hs
    · injection hs with hs
      subst hs
      exact (hcontra _ hp hn).elim
    · cases hs

theorem waitingOn_localOK {km : KeyMutex T} {pc : PC T} {k : T} {q : Handle}
    (h : pc.waitingOn k = some q) (hl : pc.LocalOK km) : km.lookup k = some q := by
  cases pc <;> simp only [PC.waitingOn] at h <;> try cases h
  all_goals
    split at h
    · rename_i hk
      subst hk
      injection h with h
      subst h
      exact hl
    · cases h

end Deletion

section Progress

set_option linter.unusedSectionVars false

variable {T : Type} [DecidableEq T]

theorem step_tick {s : State T} {t : Nat} {pc : PC T} {held : List (T × Handle)}
    (hf : s.fault = none) (ht : s.callers[t]? = some ⟨pc, held⟩) :
    step s (.tick t) = exec s t held pc := by
  simp [step, hf, ht]

theorem step_call_lock {s : State T} {t : Nat} {held : List (T × Handle)} (key : T)
    (ch : Option Chan) (hf : s.fault = none) (ht : s.callers[t]? = some ⟨.idle, held⟩) :
    step s (.call t (.lockWithWaiting key ch))
      = some (s.move s.km t ⟨.lockAcquire key ch, held⟩) := by
  simp [step, hf, ht]

theorem step_call_unlock {s : State T} {t : Nat} {held : List (T × Handle)} (key : T)
    (hf : s.fault = none) (ht : s.callers[t]? = some ⟨.idle, held⟩) :
    step s (.call t (.Unlock key))
      = some (s.move s.km t ⟨.unlockAcquire key, dropKey key held⟩) := by
  simp [step, hf, ht]

theorem move_callers_self (s : State T) (km : KeyMutex T) (t : Nat) (c : Caller T)
    (hlt : t < s.callers.length) : (s.move km t c).callers[t]? = some c := by
  simp [State.move, List.getElem?_set, hlt]

theorem move_callers_length (s : State T) (km : KeyMutex T) (t : Nat) (c : Caller T) :
    (s.move km t c).callers.length = s.callers.length := by
  simp [State.move]

theorem step_tick_move (s : State T) (km : KeyMutex T) (t : Nat) (c : Caller T)
    (hf : s.fault = none) (hlt : t < s.callers.length) :
    step (s.move km t c) (.tick t) = exec (s.move km t c) t c.held c.pc := by
  have h1 : (s.move km t c).fault = none := hf
  have h2 := move_callers_self s km t c hlt
  simp [step, h1, h2]

theorem run_cons_tick {disc : Bool} {s s1 : State T} (t : Nat) (es : List (Event T))
    (hs : step s (.tick t) = some s1) : run disc s (.tick t :: es) = run disc s1 es := by
  simp [run, disciplined, hs]

theorem run_cons_lock {disc : Bool} {s s1 : State T} (t : Nat) (key : T) (ch : Option Chan)
    (es : List (Event T)) (hs : step s (.call t (.lockWithWaiting key ch)) = some s1) :
    run disc s (.call t (.lockWithWaiting key ch) :: es) = run disc s1 es := by
  simp [run, disciplined, hs]

/-- A `Lock(k)` on a key that has no entry, called while the mapping-lock is
free, runs to completion on its own: the five statements of the caller are
enabled one after the other and the caller ends up holding `k`. -/
theorem lock_solo (disc : Bool) (s : State T) (t : Nat) (held : List (T × Handle)) (k : T)
    (hf : s.fault = none) (hidle : s.callers[t]? = some ⟨.idle, held⟩)
    (hfree : s.km.mapMut = false) (habs : s.km.lookup k = none) :
    ∃ s1, run disc s [.call t (Call.Lock k), .tick t, .tick t, .tick t, .tick t, .tick t]
        = some s1 ∧ s1.holds t k ∧ s1.fault = none := by
  have hlt : t < s.callers.length := getElem?_lt hidle
  -- the call
  have e1 := step_call_lock k none hf hidle
  -- line 46
  have e2 : step (s.move s.km t ⟨.lockAcquire k none, held⟩) (.tick t)
      = some ((s.move s.km t ⟨.lockAcquire k none, held⟩).move
          { s.km with mapMut := true } t ⟨.lockCreate k none, held⟩) := by
    rw [step_tick_move s _ t _ hf hlt]
    simp [exec, State.move, hfree]
  -- lines 49-61
  obtain ⟨km3, p, hg, hl3, hrc3, -, -, hcase⟩ :=
    getOrCreate_spec (ensureMaps ({ s.km with mapMut := true } : KeyMutex T)) k
      (ensureMaps_m_isSome _)
  have hp : km3.heap = s.km.heap ++ [false] ∧ p = s.km.heap.length := by
    rcases hcase with ⟨h1, -⟩ | ⟨-, h2, h3⟩
    · rw [ensureMaps_lookup] at h1
      have : s.km.lookup k = some p := h1
      rw [habs] at this
      cases this
    · exact ⟨h3, h2⟩
  generalize hs2 : (s.move s.km t ⟨.lockAcquire k none, held⟩).move
      { s.km with mapMut := true } t ⟨.lockCreate k none, held⟩ = s2 at e2
  have hs2f : s2.fault = none := by rw [← hs2]; exact hf
  have hs2k : s2.km = { s.km with mapMut := true } := by rw [← hs2]; rfl
  have hs2l : t < s2.callers.length := by
    rw [← hs2, move_callers_length, move_callers_length]; exact hlt
  have hs2c : s2.callers[t]? = some ⟨.lockCreate k none, held⟩ := by
    rw [← hs2]
    exact move_callers_self _ _ t _ (by rw [move_callers_length]; exact hlt)
  have e3 : step s2 (.tick t) = some (s2.move km3 t ⟨.lockIncr k none p, held⟩) := by
    rw [step_tick hs2f hs2c]
    simp only [exec, hs2k, hg]
  -- line 64
  have hrs3 : km3.refCounts.isSome = true := by rw [hrc3]; rfl
  obtain ⟨km4, hi, -, hm4, hh4, -, -⟩ := increment_spec km3 k hrs3
  have e4 : step (s2.move km3 t ⟨.lockIncr k none p, held⟩) (.tick t)
      = some ((s2.move km3 t ⟨.lockIncr k none p, held⟩).move km4 t
          ⟨.lockRelease k p, held⟩) := by
    rw [step_tick_move s2 _ t _ hs2f hs2l]
    simp only [exec, State.move, hi]
  generalize hs4 : (s2.move km3 t ⟨.lockIncr k none p, held⟩).move km4 t
      ⟨.lockRelease k p, held⟩ = s4 at e4
  have hs4f : s4.fault = none := by rw [← hs4]; exact hs2f
  have hs4k : s4.km = km4 := by rw [← hs4]; rfl
  have hs4l : t < s4.callers.length := by
    rw [← hs4, move_callers_length, move_callers_length]; exact hs2l
  have hs4c : s4.callers[t]? = some ⟨.lockRelease k p, held⟩ := by
    rw [← hs4]
    exact move_callers_self _ _ t _ (by rw [move_callers_length]; exact hs2l)
  -- line 70
  have e5 : step s4 (.tick t)
      = some (s4.move { s4.km with mapMut := false } t ⟨.lockWait k p, held⟩) := by
    rw [step_tick hs4f hs4c]
    simp only [exec]
  -- line 71
  have hfreeP : km4.heap[p]? = some false := by
    rw [hh4, hp.1, hp.2]
    simp
  have hacq : acquire ({ s4.km with mapMut := false } : KeyMutex T) p
      = some { ({ s4.km with mapMut := false } : KeyMutex T) with
          heap := km4.heap.set p true } := by
    simp [acquire, hs4k, hfreeP]
  have e6 : step (s4.move { s4.km with mapMut := false } t ⟨.lockWait k p, held⟩) (.tick t)
      = some ((s4.move { s4.km with mapMut := false } t ⟨.lockWait k p, held⟩).move
          ({ ({ s4.km with mapMut := false } : KeyMutex T) with heap := km4.heap.set p true })
          t ⟨.idle, (k, p) :: held⟩) := by
    rw [step_tick_move s4 _ t _ hs4f hs4l]
    simp only [exec, State.move, hacq]
  refine ⟨(s4.move { s4.km with mapMut := false } t ⟨.lockWait k p, held⟩).move
    ({ ({ s4.km with mapMut := false } : KeyMutex T) with heap := km4.heap.set p true })
    t ⟨.idle, (k, p) :: held⟩, ?_, ?_, ?_⟩
  · show run disc s [.call t (.lockWithWaiting k none), .tick t, .tick t, .tick t, .tick t,
      .tick t] = _
    rw [run_cons_lock t k none _ e1, run_cons_tick t _ e2, run_cons_tick t _ e3,
      run_cons_tick t _ e4, run_cons_tick t _ e5, run_cons_tick t _ e6]
    rfl
  · refine ⟨⟨.idle, (k, p) :: held⟩, ?_, ?_⟩
    · exact move_callers_self _ _ t _ (by rw [move_callers_length]; exact hs4l)
    · rw [heldCount_cons]
      simp
  · exact hs4f

end Progress

section TraceFacts

set_option linter.unusedSectionVars false

variable {T : Type} [DecidableEq T]

/-- Running a statement changes at most the record of the caller that runs it. -/
theorem exec_callers {s s1 : State T} {u : Nat} {held : List (T × Handle)} {pc : PC T}
    (h : exec s u held pc = some s1) :
    s1.fault = s.fault ∧ (∃ c, s1.callers = s.callers.set u c ∧ pc.Succ held c) ∨
    (s1.fault ≠ none ∧ s1.callers = s.callers ∧ pc.canCrash = true) := by
  cases pc with
  | idle => simp [exec] at h
  | lockAcquire key ch =>
    simp only [exec] at h
    split at h
    · cases h
    · injection h with h
      subst h
      exact Or.inl ⟨rfl, _, rfl, rfl⟩
  | lockCreate key ch =>
    simp only [exec] at h
    split at h
    · injection h with h
      subst h
      exact Or.inl ⟨rfl, _, rfl, _, rfl⟩
    · injection h with h
      subst h
      exact Or.inr ⟨by simp [State.crash], rfl, rfl⟩
  | lockIncr key ch p =>
    simp only [exec] at h
    split at h
    · cases ch <;>
      · simp only at h
        injection h with h
        subst h
        exact Or.inl ⟨rfl, _, rfl, rfl⟩
    · injection h with h
      subst h
      exact Or.inr ⟨by simp [State.crash], rfl, rfl⟩
  | lockSend key c p =>
    simp only [exec] at h
    split at h
    · injection h with h
      subst h
      exact Or.inl ⟨rfl, _, rfl, rfl⟩
    · cases h
  | lockRelease key p =>
    simp only [exec] at h
    injection h with h
    subst h
    exact Or.inl ⟨rfl, _, rfl, rfl⟩
  | lockWait key p =>
    simp only [exec] at h
    split at h
    · injection h with h
      subst h
      exact Or.inl ⟨rfl, _, rfl, rfl⟩
    · cases h
  | unlockAcquire key =>
    simp only [exec] at h
    split at h
    · cases h
    · injection h with h
      subst h
      exact Or.inl ⟨rfl, _, rfl, rfl⟩
  | unlockGuard key =>
    simp only [exec] at h
    split at h
    · injection h with h
      subst h
      exact Or.inl ⟨rfl, _, rfl, Or.inl rfl⟩
    · injection h with h
      subst h
      exact Or.inl ⟨rfl, _, rfl, Or.inr rfl⟩
  | unlockLookup key =>
    simp only [exec] at h
    injection h with h
    subst h
    exact Or.inl ⟨rfl, _, rfl, _, rfl⟩
  | unlockDecr key q =>
    simp only [exec] at h
    split at h
    · injection h with h
      subst h
      exact Or.inl ⟨rfl, _, rfl, rfl⟩
    · injection h with h
      subst h
      exact Or.inr ⟨by simp [State.crash], rfl, rfl⟩
  | unlockDelete key q =>
    simp only [exec] at h
    injection h with h
    subst h
    exact Or.inl ⟨rfl, _, rfl, rfl⟩
  | unlockRelease key q =>
    simp only [exec] at h
    split at h
    · injection h with h
      subst h
      exact Or.inl ⟨rfl, _, rfl, rfl⟩
    · injection h with h
      subst h
      exact Or.inr ⟨by simp [State.crash], rfl, rfl⟩
  | unlockDeferred key =>
    simp only [exec] at h
    injection h with h
    subst h
    exact Or.inl ⟨rfl, _, rfl, rfl⟩

theorem step_fault_none {s s1 : State T} {e : Event T} (h : step s e = some s1) :
    s.fault = none := by
  cases hf : s.fault with
  | none => rfl
  | some f =>
    cases e <;> simp [step, hf] at h

/-- An event of another caller leaves the record of caller `t` alone. -/
theorem step_frame {s s1 : State T} {e : Event T} {t : Nat} (h : step s e = some s1)
    (he : match e with
      | .call u _ => u ≠ t
      | .tick u => u ≠ t
      | .recv _ => True) : s1.callers[t]? = s.callers[t]? := by
  cases e with
  | call u cl =>
    simp only at he
    simp only [step] at h
    split at h
    · cases cl <;>
      · simp only at h
        injection h with h
        subst h
        exact getElem?_set_other _ _ _ _ he
    · cases h
  | tick u =>
    simp only at he
    simp only [step] at h
    split at h
    · rcases exec_callers h with ⟨-, c, hc, -⟩ | ⟨-, hc, -⟩
      · rw [hc]
        exact getElem?_set_other _ _ _ _ he
      · rw [hc]
    · cases h
  | recv ch =>
    simp only [step] at h
    split at h
    · injection h with h
      subst h
      rfl
    · cases h

/-- After its own statement a caller is at a successor in the control flow,
unless the process has crashed. -/
theorem tick_succ {s s1 : State T} {t : Nat} {pc : PC T} {held : List (T × Handle)}
    (ht : s.callers[t]? = some ⟨pc, held⟩) (h : step s (.tick t) = some s1) :
    (s1.fault = none ∧ ∃ c, s1.callers[t]? = some c ∧ pc.Succ held c) ∨
    (s1.fault ≠ none ∧ s1.callers[t]? = some ⟨pc, held⟩ ∧ pc.canCrash = true) := by
  have hf := step_fault_none h
  rw [step_tick hf ht] at h
  rcases exec_callers h with ⟨h1, c, hc, hsucc⟩ | ⟨h1, hc, hcr⟩
  · left
    refine ⟨by rw [h1, hf], c, ?_, hsucc⟩
    rw [hc]
    exact getElem?_set_same _ _ _ _ ht
  · right
    exact ⟨h1, by rw [hc]; exact ht, hcr⟩

theorem run_of_fault {disc : Bool} {s s1 : State T} {es : List (Event T)}
    (hf : s.fault ≠ none) (hr : run disc s es = some s1) : es = [] ∧ s1 = s := by
  cases es with
  | nil =>
    simp only [run, Option.some.injEq] at hr
    exact ⟨rfl, hr.symm⟩
  | cons e es =>
    exfalso
    simp only [run] at hr
    split at hr
    · cases hr
    · split at hr
      · rename_i s2 hs
        exact hf (step_fault_none hs)
      · cases hr

theorem traceOf_nil (t : Nat) (s : State T) : traceOf t s [] = [] := rfl

/-- Up to the first statement of caller `t`: either the caller does not move,
or it runs one statement in some state in which its record is still the same. -/
theorem trace_split {disc : Bool} (t : Nat) (es : List (Event T)) {s s1 : State T}
    {c : Caller T} (hn : noCallBy t es = true) (hr : run disc s es = some s1)
    (hc : s.callers[t]? = some c) :
    (traceOf t s es = [] ∧ s1.callers[t]? = some c) ∨
    (∃ sa sb es2, sa.callers[t]? = some c ∧ step sa (.tick t) = some sb ∧
      run disc sb es2 = some s1 ∧ noCallBy t es2 = true ∧
      traceOf t s es = c.pc.action.toList ++ traceOf t sb es2) := by
  induction es generalizing s with
  | nil =>
    simp only [run, Option.some.injEq] at hr
    subst hr
    exact Or.inl ⟨rfl, hc⟩
  | cons e es ih =>
    simp only [run] at hr
    split at hr
    · cases hr
    · split at hr
      · rename_i s2 hs
        have hn2 : noCallBy t es = true := by
          simp only [noCallBy, List.all_cons, Bool.and_eq_true] at hn ⊢
          exact hn.2
        cases e with
        | tick u =>
          by_cases hu : u = t
          · subst hu
            right
            refine ⟨s, s2, es, hc, hs, hr, hn2, ?_⟩
            simp [traceOf, hs, hc]
          · have hfr : s2.callers[t]? = s.callers[t]? := step_frame hs hu
            have htr : traceOf t s (.tick u :: es) = traceOf t s2 es := by
              simp [traceOf, hs, hu]
            rw [htr]
            exact ih hn2 hr (by rw [hfr]; exact hc)
        | call u cl =>
          have hu : u ≠ t := by
            simp only [noCallBy, List.all_cons, Bool.and_eq_true, decide_eq_true_eq] at hn
            exact hn.1
          have hfr : s2.callers[t]? = s.callers[t]? := step_frame hs hu
          have htr : traceOf t s (.call u cl :: es) = traceOf t s2 es := by
            simp [traceOf, hs]
          rw [htr]
          exact ih hn2 hr (by rw [hfr]; exact hc)
        | recv ch =>
          have hfr : s2.callers[t]? = s.callers[t]? := step_frame hs trivial
          have htr : traceOf t s (.recv ch :: es) = traceOf t s2 es := by
            simp [traceOf, hs]
          rw [htr]
          exact ih hn2 hr (by rw [hfr]; exact hc)
      · cases hr

/-- A caller that is not inside a call and makes no call performs no action. -/
theorem trace_idle {disc : Bool} (t : Nat) (es : List (Event T)) {s s1 : State T}
    {held : List (T × Handle)} (hn : noCallBy t es = true) (hr : run disc s es = some s1)
    (hc : s.callers[t]? = some ⟨.idle, held⟩) :
    traceOf t s es = [] ∧ s1.callers[t]? = some ⟨.idle, held⟩ := by
  rcases trace_split t es hn hr hc with h | ⟨sa, sb, es2, hsa, hs, -⟩
  · exact h
  · exfalso
    rw [step_tick (step_fault_none hs) hsa] at hs
    simp [exec] at hs

/-- One stage of a call: if after the statement at `pc` the rest of the call
performs an initial part of `rem i`, then from `pc` on the call performs an
initial part of `a :: rem i`, `a` being the action of `pc`. -/
theorem stage {disc : Bool} {ι : Type} (t : Nat) (rem : ι → List Action) (i0 : ι)
    {s1 : State T} {a : Action} {pc : PC T} {held : List (T × Handle)}
    (hact : pc.action = some a) (hne : pc ≠ .idle)
    (hcrash : pc.canCrash = true → rem i0 ≠ [])
    (hnext : ∀ (sb : State T) (es2 : List (Event T)) (c : Caller T),
      sb.callers[t]? = some c → pc.Succ held c → noCallBy t es2 = true →
      run disc sb es2 = some s1 → ∃ i, Completes t (rem i) (traceOf t sb es2) s1)
    (s : State T) (es : List (Event T)) (hc : s.callers[t]? = some ⟨pc, held⟩)
    (hn : noCallBy t es = true) (hr : run disc s es = some s1) :
    ∃ i, Completes t (a :: rem i) (traceOf t s es) s1 := by
  have hnotidle : ¬ ∃ h, (some (⟨pc, held⟩ : Caller T)) = some ⟨.idle, h⟩ := by
    rintro ⟨h, hh⟩
    injection hh with hh
    injection hh with h1 h2
    exact hne h1
  rcases trace_split t es hn hr hc with ⟨htr, hs1⟩ | ⟨sa, sb, es2, hsa, hs, hr2, hn2, htr⟩
  · refine ⟨i0, ?_, ?_⟩
    · rw [htr]
      exact List.nil_prefix
    · rw [htr, hs1]
      constructor
      · intro h
        cases h
      · intro h
        exact absurd h hnotidle
  · simp only [hact, Option.toList] at htr
    rcases tick_succ hsa hs with ⟨-, c, hcb, hsucc⟩ | ⟨hf, hcb, hcr⟩
    · obtain ⟨i, hpre, hiff⟩ := hnext sb es2 c hcb hsucc hn2 hr2
      refine ⟨i, ?_, ?_⟩
      · rw [htr]
        exact (List.prefix_cons_inj a).mpr hpre
      · rw [htr]
        constructor
        · intro h
          exact hiff.mp (List.cons_injective h)
        · intro h
          rw [hiff.mpr h]
          rfl
    · obtain ⟨hes, hs1⟩ := run_of_fault hf hr2
      subst hes
      subst hs1
      refine ⟨i0, ?_, ?_⟩
      · rw [htr]
        simp [traceOf]
      · rw [htr, hcb]
        constructor
        · intro h
          exfalso
          simp only [traceOf, List.singleton_append, List.cons.injEq, true_and] at h
          exact hcrash hcr h.symm
        · intro h
          exact absurd h hnotidle

end TraceFacts

section LockOrder

set_option linter.unusedSectionVars false

variable {T : Type} [DecidableEq T]

theorem completes_nil_idle {disc : Bool} (t : Nat) {s s1 : State T} {es : List (Event T)}
    {held : List (T × Handle)} (hc : s.callers[t]? = some ⟨.idle, held⟩)
    (hn : noCallBy t es = true) (hr : run disc s es = some s1) :
    Completes t [] (traceOf t s es) s1 := by
  obtain ⟨h1, h2⟩ := trace_idle t es hn hr hc
  rw [h1]
  exact ⟨List.prefix_refl _, ⟨fun _ => ⟨held, h2⟩, fun _ => rfl⟩⟩

theorem lock_wait_stage {disc : Bool} (t : Nat) (key : T) (p : Handle)
    (held : List (T × Handle)) {s1 : State T} (s : State T) (es : List (Event T))
    (hc : s.callers[t]? = some ⟨.lockWait key p, held⟩) (hn : noCallBy t es = true)
    (hr : run disc s es = some s1) : Completes t [.lockKey p] (traceOf t s es) s1 := by
  obtain ⟨_, h⟩ := stage t (fun _ : Unit => []) () (rfl : (PC.lockWait key p).action = _)
    (by simp) (by simp [PC.canCrash]) (by
      intro sb es2 c hcb hsucc hn2 hr2
      simp only [PC.Succ] at hsucc
      subst hsucc
      exact ⟨(), completes_nil_idle t hcb hn2 hr2⟩) s es hc hn hr
  exact h

theorem lock_release_stage {disc : Bool} (t : Nat) (key : T) (p : Handle)
    (held : List (T × Handle)) {s1 : State T} (s : State T) (es : List (Event T))
    (hc : s.callers[t]? = some ⟨.lockRelease key p, held⟩) (hn : noCallBy t es = true)
    (hr : run disc s es = some s1) :
    Completes t [.unlockMap, .lockKey p] (traceOf t s es) s1 := by
  obtain ⟨_, h⟩ := stage t (fun _ : Unit => [.lockKey p]) ()
    (rfl : (PC.lockRelease key p).action = _) (by simp) (by simp) (by
      intro sb es2 c hcb hsucc hn2 hr2
      simp only [PC.Succ] at hsucc
      subst hsucc
      exact ⟨(), lock_wait_stage t key p held sb es2 hcb hn2 hr2⟩) s es hc hn hr
  exact h

theorem lock_send_stage {disc : Bool} (t : Nat) (key : T) (ch : Chan) (p : Handle)
    (held : List (T × Handle)) {s1 : State T} (s : State T) (es : List (Event T))
    (hc : s.callers[t]? = some ⟨.lockSend key ch p, held⟩) (hn : noCallBy t es = true)
    (hr : run disc s es = some s1) :
    Completes t [.send ch, .unlockMap, .lockKey p] (traceOf t s es) s1 := by
  obtain ⟨_, h⟩ := stage t (fun _ : Unit => [.unlockMap, .lockKey p]) ()
    (rfl : (PC.lockSend key ch p).action = _) (by simp) (by simp) (by
      intro sb es2 c hcb hsucc hn2 hr2
      simp only [PC.Succ] at hsucc
      subst hsucc
      exact ⟨(), lock_release_stage t key p held sb es2 hcb hn2 hr2⟩) s es hc hn hr
  exact h

theorem lock_incr_stage {disc : Bool} (t : Nat) (key : T) (p : Handle)
    (held : List (T × Handle)) {s1 : State T} (s : State T) (es : List (Event T))
    (hc : s.callers[t]? = some ⟨.lockIncr key none p, held⟩) (hn : noCallBy t es = true)
    (hr : run disc s es = some s1) :
    Completes t [.incrementCount, .unlockMap, .lockKey p] (traceOf t s es) s1 := by
  obtain ⟨_, h⟩ := stage t (fun _ : Unit => [.unlockMap, .lockKey p]) ()
    (rfl : (PC.lockIncr key none p).action = _) (by simp) (by simp) (by
      intro sb es2 c hcb hsucc hn2 hr2
      simp only [PC.Succ] at hsucc
      subst hsucc
      exact ⟨(), lock_release_stage t key p held sb es2 hcb hn2 hr2⟩) s es hc hn hr
  exact h

theorem lock_create_stage {disc : Bool} (t : Nat) (key : T)
    (held : List (T × Handle)) {s1 : State T} (s : State T) (es : List (Event T))
    (hc : s.callers[t]? = some ⟨.lockCreate key none, held⟩) (hn : noCallBy t es = true)
    (hr : run disc s es = some s1) :
    ∃ p, Completes t [.createIfAbsent, .incrementCount, .unlockMap, .lockKey p]
      (traceOf t s es) s1 :=
  stage t (fun p : Handle => [.incrementCount, .unlockMap, .lockKey p]) 0
    (rfl : (PC.lockCreate key none).action = _) (by simp) (by simp) (by
      intro sb es2 c hcb hsucc hn2 hr2
      simp only [PC.Succ] at hsucc
      obtain ⟨p, rfl⟩ := hsucc
      exact ⟨p, lock_incr_stage t key p held sb es2 hcb hn2 hr2⟩) s es hc hn hr

theorem lock_acquire_stage {disc : Bool} (t : Nat) (key : T)
    (held : List (T × Handle)) {s1 : State T} (s : State T) (es : List (Event T))
    (hc : s.callers[t]? = some ⟨.lockAcquire key none, held⟩) (hn : noCallBy t es = true)
    (hr : run disc s es = some s1) :
    ∃ p, Completes t (specLockActions p) (traceOf t s es) s1 :=
  stage t (fun p : Handle => [.createIfAbsent, .incrementCount, .unlockMap, .lockKey p]) 0
    (rfl : (PC.lockAcquire key none).action = _) (by simp) (by simp) (by
      intro sb es2 c hcb hsucc hn2 hr2
      simp only [PC.Succ] at hsucc
      subst hsucc
      exact lock_create_stage t key held sb es2 hcb hn2 hr2) s es hc hn hr

/-- Which statements can fail to run: the two kinds of `Lock()`, and the send
of line 68 while no receiver is ready. -/
theorem suspended_only_at_locks {s : State T} {t : Nat} {c : Caller T}
    (hf : s.fault = none) (hc : s.callers[t]? = some c) (hs : step s (.tick t) = none) :
    c.pc = .idle ∨ (c.pc.action = some .lockMap ∧ s.km.mapMut = true) ∨
    (∃ p, c.pc.action = some (.lockKey p) ∧ s.km.heap[p]? ≠ some false) ∨
    (∃ ch, c.pc.action = some (.send ch) ∧ ch ∉ s.ready) := by
  obtain ⟨pc, held⟩ := c
  rw [step_tick hf hc] at hs
  cases pc with
  | idle => exact Or.inl rfl
  | lockAcquire key ch =>
    right; left
    refine ⟨rfl, ?_⟩
    simp only [exec] at hs
    split at hs
    · assumption
    · cases hs
  | unlockAcquire key =>
    right; left
    refine ⟨rfl, ?_⟩
    simp only [exec] at hs
    split at hs
    · assumption
    · cases hs
  | lockWait key p =>
    right; right; left
    refine ⟨p, rfl, ?_⟩
    intro hfree
    simp [exec, acquire, hfree] at hs
  | lockCreate key ch =>
    simp only [exec] at hs
    split at hs <;> cases hs
  | lockIncr key ch p =>
    simp only [exec] at hs
    split at hs
    · cases ch <;> cases hs
    · cases hs
  | lockSend key ch p =>
    right; right; right
    refine ⟨ch, rfl, ?_⟩
    intro hrdy
    simp [exec, hrdy] at hs
  | lockRelease key p => simp [exec] at hs
  | unlockGuard key =>
    simp only [exec] at hs
    split at hs <;> cases hs
  | unlockLookup key => simp [exec] at hs
  | unlockDecr key q =>
    simp only [exec] at hs
    split at hs <;> cases hs
  | unlockDelete key q => simp [exec] at hs
  | unlockRelease key q =>
    simp only [exec] at hs
    split at hs <;> cases hs
  | unlockDeferred key => simp [exec] at hs

/-- While the mapping-lock is locked some caller is in its critical section. -/
theorem holder_of_mapMut {s : State T} (hI : Inv s) (hm : s.km.mapMut = true) :
    ∃ (u : Nat) (d : Caller T), s.callers[u]? = some d ∧ d.pc.inCS = true := by
  by_contra hno
  have hz : total csW s.callers = 0 := by
    apply total_zero_of_forall
    intro u d hu
    unfold csW
    split
    · exact absurd ⟨u, d, hu, ‹d.pc.inCS = true›⟩ hno
    · rfl
  have h2 := hI.cs
  rw [hm, hz] at h2
  simp at h2

end LockOrder

section UnlockOrder

set_option linter.unusedSectionVars false

variable {T : Type} [DecidableEq T]

theorem unlock_deferred_stage {disc : Bool} (t : Nat) (key : T)
    (held : List (T × Handle)) {s1 : State T} (s : State T) (es : List (Event T))
    (hc : s.callers[t]? = some ⟨.unlockDeferred key, held⟩) (hn : noCallBy t es = true)
    (hr : run disc s es = some s1) : Completes t [.unlockMap] (traceOf t s es) s1 := by
  obtain ⟨_, h⟩ := stage t (fun _ : Unit => []) ()
    (rfl : (PC.unlockDeferred key).action = _) (by simp) (by simp [PC.canCrash]) (by
      intro sb es2 c hcb hsucc hn2 hr2
      simp only [PC.Succ] at hsucc
      subst hsucc
      exact ⟨(), completes_nil_idle t hcb hn2 hr2⟩) s es hc hn hr
  exact h

theorem unlock_release_stage {disc : Bool} (t : Nat) (key : T) (q : Option Handle)
    (held : List (T × Handle)) {s1 : State T} (s : State T) (es : List (Event T))
    (hc : s.callers[t]? = some ⟨.unlockRelease key q, held⟩) (hn : noCallBy t es = true)
    (hr : run disc s es = some s1) :
    Completes t [.unlockKey q, .unlockMap] (traceOf t s es) s1 := by
  obtain ⟨_, h⟩ := stage t (fun _ : Unit => [.unlockMap]) ()
    (rfl : (PC.unlockRelease key q).action = _) (by simp) (by simp) (by
      intro sb es2 c hcb hsucc hn2 hr2
      simp only [PC.Succ] at hsucc
      subst hsucc
      exact ⟨(), unlock_deferred_stage t key held sb es2 hcb hn2 hr2⟩) s es hc hn hr
  exact h

theorem unlock_delete_stage {disc : Bool} (t : Nat) (key : T) (q : Option Handle)
    (held : List (T × Handle)) {s1 : State T} (s : State T) (es : List (Event T))
    (hc : s.callers[t]? = some ⟨.unlockDelete key q, held⟩) (hn : noCallBy t es = true)
    (hr : run disc s es = some s1) :
    Completes t [.deleteIfZero, .unlockKey q, .unlockMap] (traceOf t s es) s1 := by
  obtain ⟨_, h⟩ := stage t (fun _ : Unit => [.unlockKey q, .unlockMap]) ()
    (rfl : (PC.unlockDelete key q).action = _) (by simp) (by simp) (by
      intro sb es2 c hcb hsucc hn2 hr2
      simp only [PC.Succ] at hsucc
      subst hsucc
      exact ⟨(), unlock_release_stage t key q held sb es2 hcb hn2 hr2⟩) s es hc hn hr
  exact h

theorem unlock_decr_stage {disc : Bool} (t : Nat) (key : T) (q : Option Handle)
    (held : List (T × Handle)) {s1 : State T} (s : State T) (es : List (Event T))
    (hc : s.callers[t]? = some ⟨.unlockDecr key q, held⟩) (hn : noCallBy t es = true)
    (hr : run disc s es = some s1) :
    Completes t [.decrementCount, .deleteIfZero, .unlockKey q, .unlockMap]
      (traceOf t s es) s1 := by
  obtain ⟨_, h⟩ := stage t (fun _ : Unit => [.deleteIfZero, .unlockKey q, .unlockMap]) ()
    (rfl : (PC.unlockDecr key q).action = _) (by simp) (by simp) (by
      intro sb es2 c hcb hsucc hn2 hr2
      simp only [PC.Succ] at hsucc
      subst hsucc
      exact ⟨(), unlock_delete_stage t key q held sb es2 hcb hn2 hr2⟩) s es hc hn hr
  exact h

theorem unlock_lookup_stage {disc : Bool} (t : Nat) (key : T)
    (held : List (T × Handle)) {s1 : State T} (s : State T) (es : List (Event T))
    (hc : s.callers[t]? = some ⟨.unlockLookup key, held⟩) (hn : noCallBy t es = true)
    (hr : run disc s es = some s1) :
    ∃ q, Completes t [.readKey, .decrementCount, .deleteIfZero, .unlockKey q, .unlockMap]
      (traceOf t s es) s1 :=
  stage t (fun q : Option Handle => [.decrementCount, .deleteIfZero, .unlockKey q, .unlockMap])
    none (rfl : (PC.unlockLookup key).action = _) (by simp) (by simp) (by
      intro sb es2 c hcb hsucc hn2 hr2
      simp only [PC.Succ] at hsucc
      obtain ⟨q, rfl⟩ := hsucc
      exact ⟨q, unlock_decr_stage t key q held sb es2 hcb hn2 hr2⟩) s es hc hn hr

theorem unlock_guard_stage {disc : Bool} (t : Nat) (key : T)
    (held : List (T × Handle)) {s1 : State T} (s : State T) (es : List (Event T))
    (hc : s.callers[t]? = some ⟨.unlockGuard key, held⟩) (hn : noCallBy t es = true)
    (hr : run disc s es = some s1) :
    ∃ i, Completes t (.guard :: (unlockActions i).drop 2) (traceOf t s es) s1 :=
  stage t (fun i : Option (Option Handle) => (unlockActions i).drop 2)
    none (rfl : (PC.unlockGuard key).action = _) (by simp)
    (by simp [unlockActions, noopUnlockActions]) (by
      intro sb es2 c hcb hsucc hn2 hr2
      simp only [PC.Succ] at hsucc
      rcases hsucc with rfl | rfl
      · exact ⟨none, unlock_deferred_stage t key held sb es2 hcb hn2 hr2⟩
      · obtain ⟨q, hq⟩ := unlock_lookup_stage t key held sb es2 hcb hn2 hr2
        exact ⟨some q, hq⟩) s es hc hn hr

theorem unlock_acquire_stage {disc : Bool} (t : Nat) (key : T)
    (held : List (T × Handle)) {s1 : State T} (s : State T) (es : List (Event T))
    (hc : s.callers[t]? = some ⟨.unlockAcquire key, held⟩) (hn : noCallBy t es = true)
    (hr : run disc s es = some s1) :
    ∃ i, Completes t (unlockActions i) (traceOf t s es) s1 := by
  obtain ⟨i, hi⟩ := stage t
    (fun i : Option (Option Handle) => .guard :: (unlockActions i).drop 2)
    none (rfl : (PC.unlockAcquire key).action = _) (by simp) (by simp)
    (fun sb es2 c hcb hsucc hn2 hr2 => by
      simp only [PC.Succ] at hsucc
      subst hsucc
      exact unlock_guard_stage t key held sb es2 hcb hn2 hr2) s es hc hn hr
  refine ⟨i, ?_⟩
  cases i <;> exact hi

end UnlockOrder

section PostconditionFacts

set_option linter.unusedSectionVars false

variable {T : Type} [DecidableEq T]

/-- When the guard does not fire and the mapped mutex is not locked, `Unlock`
ends in the fatal error of the Go runtime. -/
theorem Unlock_fatal (km : KeyMutex T) (k : T) (a : Handle) (hc : 0 < km.count k)
    (ha : km.lookup k = some a) (hl : km.heap[a]? = some false) :
    Unlock km k = .error .unlockOfUnlocked := by
  have hrs : km.refCounts.isSome = true :=
    refCounts_isSome_of_entry (entry_of_count_ne_zero (by omega : km.count k ≠ 0))
  obtain ⟨km2, hd, hce, hm2, hh2, hmm2, hoth2⟩ := decrement_spec km k hrs
  have hU : Unlock km k = release (deleteIfZero km2 k) (km.lookup k) := by
    simp [Unlock, not_le.mpr hc, hd, bind, Except.bind]
  obtain ⟨dh, -⟩ := deleteIfZero_spec km2 k
  rw [hU, ha]
  have : (deleteIfZero km2 k).heap[a]? = some false := by rw [dh, hh2]; exact hl
  simp [release, this]

/-- The bookkeeping of `Lock` does not look at the mapping-lock. -/
theorem register_mapMut (km : KeyMutex T) (k : T) (b : Bool) :
    register { km with mapMut := b } k
      = (register km k).map fun r => ({ r.1 with mapMut := b }, r.2) := by
  obtain ⟨mm, m, rc, heap⟩ := km
  cases m with
  | none =>
    cases rc <;>
      simp [register, ensureMaps, getOrCreate, increment, KeyMutex.lookup, KeyMutex.count,
        KeyMutex.countEntry, bind, Except.bind, pure, Except.pure, Except.map]
  | some f =>
    cases hfk : f k <;> cases rc <;>
      simp [register, ensureMaps, getOrCreate, increment, KeyMutex.lookup, KeyMutex.count,
        KeyMutex.countEntry, bind, Except.bind, pure, Except.pure, Except.map, hfk]

/-- The statements of `lockWithWaiting` that run under the mapping-lock, run
by the caller one after the other, do the bookkeeping `register`, send the
signal when there is a channel, on which a receiver has to be ready, and
leave the caller at `mut.Lock()`. -/
theorem lock_cs_run (disc : Bool) (s : State T) (t : Nat) (held : List (T × Handle)) (k : T)
    (ch : Option Chan) (hf : s.fault = none)
    (ht : s.callers[t]? = some ⟨.lockCreate k ch, held⟩)
    (hrdy : ∀ c, ch = some c → c ∈ s.ready) :
    ∃ km1 p, register s.km k = .ok (km1, p) ∧
      run disc s (registerTicks t ch)
        = some ⟨{ km1 with mapMut := false }, s.callers.set t ⟨.lockWait k p, held⟩, none,
            s.sent ++ ch.toList, afterSend s.ready ch⟩ := by
  obtain ⟨km2, p, hg, -, hrc, -⟩ :=
    getOrCreate_spec (ensureMaps s.km) k (ensureMaps_m_isSome _)
  have hrs : km2.refCounts.isSome = true := by
    rw [hrc]; exact ensureMaps_refCounts_isSome _
  obtain ⟨km3, hi, -⟩ := increment_spec km2 k hrs
  have hreg : register s.km k = .ok (km3, p) := by
    simp [register, hg, hi, bind, Except.bind, pure, Except.pure]
  refine ⟨km3, p, hreg, ?_⟩
  have hlt : t < s.callers.length := getElem?_lt ht
  obtain ⟨km, callers, fault, sent, ready⟩ := s
  simp only at hf ht hg hi hlt hrdy
  subst hf
  cases ch with
  | none =>
    simp [registerTicks, run, disciplined, step, exec, State.move, ht, hlt, hg, hi,
      List.getElem?_set, afterSend]
  | some c =>
    have hc : c ∈ ready := hrdy c rfl
    simp [registerTicks, run, disciplined, step, exec, State.move, ht, hlt, hg, hi,
      List.getElem?_set, afterSend, hc]

/-- With a channel, the statements up to the send do the bookkeeping
`register` and leave the caller at the send of line 68, the mapping-lock
still held; there the caller is suspended as long as no receiver is ready. -/
theorem hook_cs_stall (disc : Bool) (s : State T) (t : Nat) (held : List (T × Handle)) (k : T)
    (c : Chan) (hf : s.fault = none)
    (ht : s.callers[t]? = some ⟨.lockCreate k (some c), held⟩) :
    ∃ km1 p, register s.km k = .ok (km1, p) ∧
      run disc s [.tick t, .tick t]
        = some ⟨km1, s.callers.set t ⟨.lockSend k c p, held⟩, none, s.sent, s.ready⟩ ∧
      (c ∉ s.ready →
        step ⟨km1, s.callers.set t ⟨.lockSend k c p, held⟩, none, s.sent, s.ready⟩ (.tick t)
          = none) := by
  obtain ⟨km2, p, hg, -, hrc, -⟩ :=
    getOrCreate_spec (ensureMaps s.km) k (ensureMaps_m_isSome _)
  have hrs : km2.refCounts.isSome = true := by
    rw [hrc]; exact ensureMaps_refCounts_isSome _
  obtain ⟨km3, hi, -⟩ := increment_spec km2 k hrs
  have hreg : register s.km k = .ok (km3, p) := by
    simp [register, hg, hi, bind, Except.bind, pure, Except.pure]
  refine ⟨km3, p, hreg, ?_, ?_⟩
  · have hlt : t < s.callers.length := getElem?_lt ht
    obtain ⟨km, callers, fault, sent, ready⟩ := s
    simp only at hf ht hg hi hlt
    subst hf
    simp [run, disciplined, step, exec, State.move, ht, hlt, hg, hi, List.getElem?_set]
  · intro hno
    have hlt : t < s.callers.length := getElem?_lt ht
    simp [step, exec, List.getElem?_set, hlt, hno]

/-- A whole `lockWithWaiting(k, ch)` up to `mut.Lock()`, called while the
mapping-lock is free and run by the caller alone; with a channel, a receiver
has to be ready on it. -/
theorem lock_call_run (disc : Bool) (s : State T) (t : Nat) (held : List (T × Handle)) (k : T)
    (ch : Option Chan) (hf : s.fault = none) (ht : s.callers[t]? = some ⟨.idle, held⟩)
    (hfree : s.km.mapMut = false) (hrdy : ∀ c, ch = some c → c ∈ s.ready) :
    ∃ km1 p, register s.km k = .ok (km1, p) ∧
      run disc s (.call t (.lockWithWaiting k ch) :: .tick t :: registerTicks t ch)
        = some ⟨km1, s.callers.set t ⟨.lockWait k p, held⟩, none, s.sent ++ ch.toList,
            afterSend s.ready ch⟩ := by
  have hlt : t < s.callers.length := getElem?_lt ht
  obtain ⟨km1, p, hreg, hl1, hc1, hmm1, -⟩ := register_spec s.km k
  refine ⟨km1, p, hreg, ?_⟩
  have e1 := step_call_lock k ch hf ht
  have e2 : step (s.move s.km t ⟨.lockAcquire k ch, held⟩) (.tick t)
      = some ((s.move s.km t ⟨.lockAcquire k ch, held⟩).move
          { s.km with mapMut := true } t ⟨.lockCreate k ch, held⟩) := by
    rw [step_tick_move s _ t _ hf hlt]
    simp [exec, State.move, hfree]
  rw [run_cons_lock t k ch _ e1, run_cons_tick t _ e2]
  obtain ⟨km2, p2, hreg2, hrun⟩ := lock_cs_run disc
    ((s.move s.km t ⟨.lockAcquire k ch, held⟩).move
      { s.km with mapMut := true } t ⟨.lockCreate k ch, held⟩) t held k ch hf
    (move_callers_self _ _ t _ (by rw [move_callers_length]; exact hlt)) hrdy
  have hreg3 : register ({ s.km with mapMut := true } : KeyMutex T) k
      = .ok ({ km1 with mapMut := true }, p) := by
    rw [register_mapMut, hreg]
    rfl
  have hkm : ((s.move s.km t ⟨.lockAcquire k ch, held⟩).move
      { s.km with mapMut := true } t ⟨.lockCreate k ch, held⟩).km
      = { s.km with mapMut := true } := rfl
  rw [hkm, hreg3] at hreg2
  injection hreg2 with hreg2
  injection hreg2 with h1 h2
  subst h1
  subst h2
  rw [hrun]
  obtain ⟨mm1, m1, rc1, heap1⟩ := km1
  simp only at hmm1
  rw [hfree] at hmm1
  subst hmm1
  simp [State.move]

/-- A whole `lockWithWaiting(k, ch)` with a channel up to its send, called
while the mapping-lock is free and run by the caller alone: the bookkeeping is
done, the mapping-lock is held, and the caller is suspended at the send as
long as no receiver is ready. -/
theorem hook_call_stall (disc : Bool) (s : State T) (t : Nat) (held : List (T × Handle))
    (k : T) (c : Chan) (hf : s.fault = none) (ht : s.callers[t]? = some ⟨.idle, held⟩)
    (hfree : s.km.mapMut = false) :
    ∃ km1 p, register s.km k = .ok (km1, p) ∧
      run disc s [.call t (.lockWithWaiting k (some c)), .tick t, .tick t, .tick t]
        = some ⟨{ km1 with mapMut := true }, s.callers.set t ⟨.lockSend k c p, held⟩, none,
            s.sent, s.ready⟩ ∧
      (c ∉ s.ready →
        step ⟨{ km1 with mapMut := true }, s.callers.set t ⟨.lockSend k c p, held⟩, none,
            s.sent, s.ready⟩ (.tick t) = none) := by
  have hlt : t < s.callers.length := getElem?_lt ht
  obtain ⟨km1, p, hreg, -⟩ := register_spec s.km k
  refine ⟨km1, p, hreg, ?_, ?_⟩
  · have e1 := step_call_lock k (some c) hf ht
    have e2 : step (s.move s.km t ⟨.lockAcquire k (some c), held⟩) (.tick t)
        = some ((s.move s.km t ⟨.lockAcquire k (some c), held⟩).move
            { s.km with mapMut := true } t ⟨.lockCreate k (some c), held⟩) := by
      rw [step_tick_move s _ t _ hf hlt]
      simp [exec, State.move, hfree]
    rw [run_cons_lock t k (some c) _ e1, run_cons_tick t _ e2]
    obtain ⟨km2, p2, hreg2, hrun, -⟩ := hook_cs_stall disc
      ((s.move s.km t ⟨.lockAcquire k (some c), held⟩).move
        { s.km with mapMut := true } t ⟨.lockCreate k (some c), held⟩) t held k c hf
      (move_callers_self _ _ t _ (by rw [move_callers_length]; exact hlt))
    have hreg3 : register ({ s.km with mapMut := true } : KeyMutex T) k
        = .ok ({ km1 with mapMut := true }, p) := by
      rw [register_mapMut, hreg]
      rfl
    have hkm : ((s.move s.km t ⟨.lockAcquire k (some c), held⟩).move
        { s.km with mapMut := true } t ⟨.lockCreate k (some c), held⟩).km
        = { s.km with mapMut := true } := rfl
    rw [hkm, hreg3] at hreg2
    injection hreg2 with hreg2
    injection hreg2 with h1 h2
    subst h1
    subst h2
    rw [hrun]
    simp [State.move]
  · intro hno
    simp [step, exec, List.getElem?_set, hlt, hno]

end PostconditionFacts

section HookFacts

set_option linter.unusedSectionVars false

variable {T : Type} [DecidableEq T]

theorem hook_incr_stage {disc : Bool} (t : Nat) (key : T) (c : Chan) (p : Handle)
    (held : List (T × Handle)) {s1 : State T} (s : State T) (es : List (Event T))
    (hc : s.callers[t]? = some ⟨.lockIncr key (some c) p, held⟩) (hn : noCallBy t es = true)
    (hr : run disc s es = some s1) :
    Completes t [.incrementCount, .send c, .unlockMap, .lockKey p] (traceOf t s es) s1 := by
  obtain ⟨_, h⟩ := stage t (fun _ : Unit => [.send c, .unlockMap, .lockKey p]) ()
    (rfl : (PC.lockIncr key (some c) p).action = _) (by simp) (by simp) (by
      intro sb es2 d hcb hsucc hn2 hr2
      simp only [PC.Succ] at hsucc
      subst hsucc
      exact ⟨(), lock_send_stage t key c p held sb es2 hcb hn2 hr2⟩) s es hc hn hr
  exact h

theorem hook_create_stage {disc : Bool} (t : Nat) (key : T) (c : Chan)
    (held : List (T × Handle)) {s1 : State T} (s : State T) (es : List (Event T))
    (hc : s.callers[t]? = some ⟨.lockCreate key (some c), held⟩) (hn : noCallBy t es = true)
    (hr : run disc s es = some s1) :
    ∃ p, Completes t [.createIfAbsent, .incrementCount, .send c, .unlockMap, .lockKey p]
      (traceOf t s es) s1 :=
  stage t (fun p : Handle => [.incrementCount, .send c, .unlockMap, .lockKey p]) 0
    (rfl : (PC.lockCreate key (some c)).action = _) (by simp) (by simp) (by
      intro sb es2 d hcb hsucc hn2 hr2
      simp only [PC.Succ] at hsucc
      obtain ⟨p, rfl⟩ := hsucc
      exact ⟨p, hook_incr_stage t key c p held sb es2 hcb hn2 hr2⟩) s es hc hn hr

theorem hook_acquire_stage {disc : Bool} (t : Nat) (key : T) (c : Chan)
    (held : List (T × Handle)) {s1 : State T} (s : State T) (es : List (Event T))
    (hc : s.callers[t]? = some ⟨.lockAcquire key (some c), held⟩) (hn : noCallBy t es = true)
    (hr : run disc s es = some s1) :
    ∃ p, Completes t (codeHookActions c p) (traceOf t s es) s1 :=
  stage t (fun p : Handle => [.createIfAbsent, .incrementCount, .send c, .unlockMap, .lockKey p])
    0 (rfl : (PC.lockAcquire key (some c)).action = _) (by simp) (by simp) (by
      intro sb es2 d hcb hsucc hn2 hr2
      simp only [PC.Succ] at hsucc
      subst hsucc
      exact hook_create_stage t key c held sb es2 hcb hn2 hr2) s es hc hn hr

/-- The trace of a call is the trace of the schedule that follows it. -/
theorem traceOf_call {s : State T} {t : Nat} {held : List (T × Handle)} (key : T)
    (ch : Option Chan) (es : List (Event T)) (hf : s.fault = none)
    (ht : s.callers[t]? = some ⟨.idle, held⟩) :
    traceOf t s (.call t (.lockWithWaiting key ch) :: es)
      = traceOf t (s.move s.km t ⟨.lockAcquire key ch, held⟩) es := by
  simp only [traceOf]
  rw [step_call_lock key ch hf ht]

/-- A statement adds a signal to the record exactly when it is the send of
line 68, and then it adds one signal on the channel of the call. -/
theorem step_sent {s s1 : State T} {t : Nat} {c : Caller T} (ht : s.callers[t]? = some c)
    (h : step s (.tick t) = some s1) :
    s1.sent = s.sent ++ (match c.pc.action with
      | some (.send ch) => [ch]
      | _ => []) := by
  obtain ⟨pc, held⟩ := c
  rw [step_tick (step_fault_none h) ht] at h
  cases pc with
  | idle => simp [exec] at h
  | lockAcquire key ch =>
    simp only [exec] at h
    split at h
    · cases h
    · injection h with h
      subst h
      simp [State.move, PC.action]
  | lockCreate key ch =>
    simp only [exec] at h
    split at h <;>
    · injection h with h
      subst h
      simp [State.move, State.crash, PC.action]
  | lockIncr key ch p =>
    simp only [exec] at h
    split at h
    · cases ch <;>
      · simp only at h
        injection h with h
        subst h
        simp [State.move, PC.action]
    · injection h with h
      subst h
      simp [State.crash, PC.action]
  | lockSend key c p =>
    simp only [exec] at h
    split at h
    · injection h with h
      subst h
      simp [PC.action]
    · cases h
  | lockRelease key p =>
    simp only [exec] at h
    injection h with h
    subst h
    simp [State.move, PC.action]
  | lockWait key p =>
    simp only [exec] at h
    split at h
    · injection h with h
      subst h
      simp [State.move, PC.action]
    · cases h
  | unlockAcquire key =>
    simp only [exec] at h
    split at h
    · cases h
    · injection h with h
      subst h
      simp [State.move, PC.action]
  | unlockGuard key =>
    simp only [exec] at h
    split at h <;>
    · injection h with h
      subst h
      simp [State.move, PC.action]
  | unlockLookup key =>
    simp only [exec] at h
    injection h with h
    subst h
    simp [State.move, PC.action]
  | unlockDecr key q =>
    simp only [exec] at h
    split at h <;>
    · injection h with h
      subst h
      simp [State.move, State.crash, PC.action]
  | unlockDelete key q =>
    simp only [exec] at h
    injection h with h
    subst h
    simp [State.move, PC.action]
  | unlockRelease key q =>
    simp only [exec] at h
    split at h <;>
    · injection h with h
      subst h
      simp [State.move, State.crash, PC.action]
  | unlockDeferred key =>
    simp only [exec] at h
    injection h with h
    subst h
    simp [State.move, PC.action]

end HookFacts

section MutualExclusionClaim

variable {T : Type} [DecidableEq T]

/-- C1 (mutual exclusion per key): in every state reached by callers that
follow the Lock-then-Unlock discipline, for every key `k` no two callers hold
`k` at once (a caller holds `k` from the return of its `Lock(k)` to the start
of its matching `Unlock(k)`), no caller holds `k` twice, and while some caller
holds `k` the `mut.Lock()` of every caller waiting in `Lock(k)` cannot return. -/
theorem mutual_exclusion (s : State T) (hr : Reachable s) (k : T) :
    (∀ t1 t2, s.holds t1 k → s.holds t2 k → t1 = t2) ∧
    (∀ (t : Nat) (c : Caller T), s.callers[t]? = some c → heldCount k c.held ≤ 1) ∧
    (∀ t1 t2 p, s.holds t1 k → s.pcOf t2 = some (.lockWait k p) →
      step s (.tick t2) = none) := by
  have hI := inv_of_reachable hr
  refine ⟨?_, ?_, ?_⟩
  · rintro t1 t2 ⟨c1, h1, hc1⟩ ⟨c2, h2, hc2⟩
    by_contra hne
    obtain ⟨p, hp, -⟩ := locked_of_held hI h1 k hc1
    have h3 := total_ownW_le_one hI k p hp
    have h4 := pair_le_total (ownW k) s.callers t1 t2 c1 c2 h1 h2 hne
    have h5 := heldCount_le_ownW k c1
    have h6 := heldCount_le_ownW k c2
    omega
  · intro t c ht
    by_contra hgt
    obtain ⟨p, hp, -⟩ := locked_of_held hI ht k (by omega)
    have h3 := total_ownW_le_one hI k p hp
    have h4 := le_total (ownW k) s.callers t c ht
    have h5 := heldCount_le_ownW k c
    omega
  · rintro t1 t2 p ⟨c1, h1, hc1⟩ hw
    obtain ⟨q, hq, hlocked⟩ := locked_of_held hI h1 k hc1
    unfold State.pcOf at hw
    cases h2 : s.callers[t2]? with
    | none => simp [step, h2]
    | some c2 =>
      rw [h2] at hw
      simp only [Option.map_some', Option.some.injEq] at hw
      have hloc := hI.loc t2 c2 h2
      rw [hw] at hloc
      have hpq : q = p := by
        have : s.km.lookup k = some p := hloc
        rw [hq] at this
        injection this
      subst hpq
      simp [step, h2, hI.noFault, hw, exec, acquire, hlocked]

/-- C1 at a concrete state: caller 0 holds key 1 and caller 1, waiting in
`Lock(1)`, cannot proceed. -/
theorem mutual_exclusion_witness :
    demoContended.holds 0 1 ∧ demoContended.pcOf 1 = some (.lockWait 1 0) ∧
      step demoContended (.tick 1) = none :=
  have hr : Reachable demoContended := ⟨2, lockSolo 0 1 ++ lockUpToWait 1 1, by rfl⟩
  have hh : demoContended.holds 0 1 := ⟨_, rfl, by decide⟩
  ⟨hh, by rfl, (mutual_exclusion demoContended hr 1).2.2 0 1 0 hh (by rfl)⟩

end MutualExclusionClaim

section DeletionClaim

variable {T : Type} [DecidableEq T]

/-- C10 (no premature deletion): in every state reached by callers that follow
the discipline, a caller that is counted for `k` (it is past the increment of
`Lock(k)`, waiting or holding, and the decrement of its matching `Unlock(k)`
has not run) finds an entry for `k` in the key->lock map, and that entry is
the mutex object it is waiting on or holding (and a held one is locked).  The
entry of `k` is taken away only by the deletion inside an `Unlock(k)`, and
after that step no caller is holding or waiting for `k`. -/
theorem no_premature_deletion (s : State T) (hr : Reachable s) (k : T) :
    (∀ (t : Nat) (c : Caller T), s.callers[t]? = some c → 0 < regW k c →
      ∃ p, s.km.lookup k = some p ∧
        (∀ q, c.pc.waitingOn k = some q → q = p) ∧
        (∀ q, (k, q) ∈ c.held → q = p ∧ s.km.heap[p]? = some true)) ∧
    (∀ (e : Event T) (s1 : State T) (p : Handle), disciplined s e = true →
      step s e = some s1 → s.km.lookup k = some p → s1.km.lookup k = none →
        (∃ t q held, e = .tick t ∧ s.callers[t]? = some ⟨.unlockDelete k q, held⟩) ∧
        ∀ (u : Nat) (d : Caller T), s1.callers[u]? = some d → regW k d = 0) := by
  have hI := inv_of_reachable hr
  refine ⟨?_, ?_⟩
  · intro t c ht hreg
    obtain ⟨p, hp⟩ := lookup_of_registered hI ht k hreg
    refine ⟨p, hp, ?_, ?_⟩
    · intro q hq
      have := waitingOn_localOK hq (hI.loc t c ht)
      rw [hp] at this
      injection this with this
      exact this.symm
    · intro q hq
      have h1 := hI.heldOK t c ht k q hq
      rw [hp] at h1
      injection h1 with h1
      subst h1
      obtain ⟨p1, hp1, hlocked⟩ := locked_of_held hI ht k (heldCount_pos_of_mem k p c.held hq)
      rw [hp] at hp1
      injection hp1 with hp1
      subst hp1
      exact ⟨rfl, hlocked⟩
  · intro e s1 p hd hs hp hn
    refine ⟨entry_lost_only_by_delete hs hp hn, ?_⟩
    have hI1 := inv_step hI hd hs
    intro u d hu
    have hz : ¬ (0 < total (regW k) s1.callers + total (pendW k) s1.callers) := by
      rw [← hI1.entries k]
      rintro ⟨q, hq⟩
      rw [hn] at hq
      cases hq
    have := le_total (regW k) s1.callers u d hu
    omega

/-- C10 at a concrete state: caller 1 is waiting in `Lock(1)` while caller 0
holds key 1; the entry of key 1 is there and is the mutex caller 1 waits on. -/
theorem no_premature_deletion_witness :
    demoContended.pcOf 1 = some (.lockWait 1 0) ∧ demoContended.km.lookup 1 = some 0 :=
  have hr : Reachable demoContended := ⟨2, lockSolo 0 1 ++ lockUpToWait 1 1, by rfl⟩
  have h := (no_premature_deletion demoContended hr 1).1 1 ⟨.lockWait 1 0, []⟩ (by rfl)
    (by decide)
  ⟨by rfl, by
    obtain ⟨p, hp, hw, -⟩ := h
    rw [hp, hw 0 (by rfl)]⟩

end DeletionClaim

section IndependenceClaim

variable {T : Type} [DecidableEq T]

/-- C2 (independence across keys): in every state reached by callers that
follow the discipline, whoever holds other keys, (a) a caller waiting in
`Lock(k2)` waits on the mutex `k2` is mapped to, and its `mut.Lock()` can
return exactly when that mutex is free, which is exactly when no caller owns
the mutex of `k2`; and (b) when the mapping-lock is free and nobody holds or
waits for `k2`, a `Lock(k2)` runs to completion on its own, by the caller's
steps alone, so without waiting for the `Unlock` of any other key. -/
theorem independence (s : State T) (hr : Reachable s) (k2 : T) :
    (∀ (t : Nat) (p : Handle) (held : List (T × Handle)),
      s.callers[t]? = some ⟨.lockWait k2 p, held⟩ →
        s.km.lookup k2 = some p ∧
        ((step s (.tick t)).isSome = true ↔ s.km.heap[p]? = some false) ∧
        ((step s (.tick t)).isSome = true ↔
          ∀ (u : Nat) (d : Caller T), s.callers[u]? = some d → ownW k2 d = 0)) ∧
    (∀ (t2 : Nat) (held : List (T × Handle)),
      s.callers[t2]? = some ⟨.idle, held⟩ → s.km.mapMut = false →
      (∀ (u : Nat) (d : Caller T), s.callers[u]? = some d → regW k2 d = 0) →
        ∃ s1, run true s
            [.call t2 (Call.Lock k2), .tick t2, .tick t2, .tick t2, .tick t2, .tick t2]
              = some s1 ∧ s1.holds t2 k2) := by
  have hI := inv_of_reachable hr
  refine ⟨?_, ?_⟩
  · intro t p held ht
    have hloc : s.km.lookup k2 = some p := hI.loc t _ ht
    obtain ⟨b, hb, htot⟩ := hI.locks k2 p hloc
    rw [step_tick hI.noFault ht]
    refine ⟨hloc, ?_, ?_⟩
    · cases b <;> simp [exec, acquire, hb]
    cases b with
    | true =>
      simp only [if_true] at htot
      constructor
      · intro h
        simp [exec, acquire, hb] at h
      · intro h
        have := total_zero_of_forall (ownW k2) s.callers h
        omega
    | false =>
      simp only [Bool.false_eq_true, if_false] at htot
      constructor
      · intro _ u d hu
        exact total_eq_zero (ownW k2) s.callers htot u d hu
      · intro _
        simp [exec, acquire, hb]
  · intro t2 held hidle hfree hnobody
    have habs : s.km.lookup k2 = none := by
      cases hl : s.km.lookup k2 with
      | none => rfl
      | some p =>
        exfalso
        have h1 := (hI.entries k2).mp ⟨p, hl⟩
        have h2 := total_zero_of_forall (regW k2) s.callers hnobody
        have h3 := total_mono (pendW k2) csW s.callers (pendW_le_csW k2)
        have h4 := hI.cs
        rw [hfree] at h4
        simp only [Bool.false_eq_true, if_false] at h4
        omega
    obtain ⟨s1, hrun, hholds, -⟩ := lock_solo true s t2 held k2 hI.noFault hidle hfree habs
    exact ⟨s1, hrun, hholds⟩

/-- C2 at a concrete state: caller 0 holds key 1; caller 1 locks key 2 by its
own steps alone. -/
theorem independence_witness :
    demoHeld.holds 0 1 ∧ ∃ s1, run true demoHeld (lockSolo 1 2) = some s1 ∧ s1.holds 1 2 := by
  have hr : Reachable demoHeld := ⟨2, lockSolo 0 1, by rfl⟩
  obtain ⟨s1, h1, h2⟩ := (independence demoHeld hr 2).2 1 [] (by rfl) (by rfl) (by
    intro u d hu
    rcases u with _ | _ | u
    · have h : demoHeld.callers[0]? = some ⟨.idle, [(1, 0)]⟩ := by rfl
      rw [h] at hu
      injection hu with hu
      subst hu
      decide
    · have h : demoHeld.callers[1]? = some ⟨.idle, []⟩ := by rfl
      rw [h] at hu
      injection hu with hu
      subst hu
      decide
    · have h : demoHeld.callers[u + 1 + 1]? = none := by rfl
      rw [h] at hu
      cases hu)
  exact ⟨⟨_, rfl, by decide⟩, s1, h1, h2⟩

end IndependenceClaim

section LockOrderClaim

variable {T : Type} [DecidableEq T]

/-- C8 as stated fails: the wait on the per-key lock is not the only action
that can suspend.  Caller 0 is inside the critical section of `Lock(1)` and
holds the mapping-lock; caller 1 has called `Lock(2)`, its next action is the
acquire of the mapping-lock (line 46), and that action cannot run.  It can run
once caller 0 has released the mapping-lock at line 70. -/
theorem map_lock_acquire_suspends :
    Reachable demoMapBusy ∧ demoMapBusy.pcOf 1 = some (.lockAcquire 2 none) ∧
      PC.action (PC.lockAcquire (2 : Nat) none) = some .lockMap ∧
      demoMapBusy.km.mapMut = true ∧ step demoMapBusy (.tick 1) = none ∧
      ∃ s2, run true demoMapBusy [.tick 0, .tick 0, .tick 0] = some s2 ∧
        s2.pcOf 0 = some (.lockWait 1 0) ∧ s2.km.mapMut = false ∧
        (step s2 (.tick 1)).isSome = true :=
  ⟨⟨2, [.call 0 (Call.Lock 1), .tick 0, .call 1 (Call.Lock 2)], by rfl⟩, by rfl, rfl, by rfl,
    by rfl, _, rfl, by rfl, by rfl, by rfl⟩

/-- C8, amended (Lock never waits while holding the mapping-lock): in every
execution of `Lock(key)`, whatever the other callers do, the actions of the
caller are, in this order, acquire the mapping-lock, create-if-absent,
increment the count, release the mapping-lock, acquire the per-key lock, and
the caller has returned exactly when all five are done.  A caller can be
suspended only at an acquire of the mapping-lock while it is taken, at the
wait on a per-key lock that is not free, and at the send of a call with a
channel while no receiver is ready; `Lock` passes the nil channel, so no
statement it runs while holding the mapping-lock can suspend.  In every state
reached by disciplined callers the release of line 70 finds the mapping-lock
locked and unlocks it, and a caller that stands at the wait of line 71 does
not hold the mapping-lock: if it is locked, another caller is in its critical
section. -/
theorem lock_action_order (disc : Bool) (s s1 : State T) (t : Nat) (key : T)
    (held : List (T × Handle)) (es : List (Event T))
    (hidle : s.callers[t]? = some ⟨.idle, held⟩) (hn : noCallBy t es = true)
    (hr : run disc s (.call t (Call.Lock key) :: es) = some s1) :
    (∃ p, Completes t (specLockActions p)
        (traceOf t s (.call t (Call.Lock key) :: es)) s1 ∧
      ∀ ch, Action.send ch ∉ specLockActions p) ∧
    (∀ (s0 : State T) (t0 : Nat) (c0 : Caller T), s0.fault = none →
      s0.callers[t0]? = some c0 → step s0 (.tick t0) = none →
        c0.pc = .idle ∨ (c0.pc.action = some .lockMap ∧ s0.km.mapMut = true) ∨
        (∃ p, c0.pc.action = some (.lockKey p) ∧ s0.km.heap[p]? ≠ some false) ∨
        (∃ ch, c0.pc.action = some (.send ch) ∧ ch ∉ s0.ready)) ∧
    (∀ (s0 : State T) (t0 : Nat) (c0 : Caller T), s0.fault = none →
      s0.callers[t0]? = some c0 → c0.pc.inCS = true →
      (∀ ch, c0.pc.action ≠ some (.send ch)) → (step s0 (.tick t0)).isSome = true) ∧
    (∀ (s0 : State T) (t0 : Nat) (key0 : T) (p : Handle) (h0 : List (T × Handle)),
      Reachable s0 → s0.callers[t0]? = some ⟨.lockRelease key0 p, h0⟩ →
        s0.km.mapMut = true ∧
        ∃ sb, step s0 (.tick t0) = some sb ∧ sb.km.mapMut = false ∧
          sb.callers[t0]? = some ⟨.lockWait key0 p, h0⟩) ∧
    (∀ (s0 : State T) (t0 : Nat) (key0 : T) (p : Handle) (h0 : List (T × Handle)),
      Reachable s0 → s0.callers[t0]? = some ⟨.lockWait key0 p, h0⟩ →
      s0.km.mapMut = true →
        ∃ (u : Nat) (d : Caller T), u ≠ t0 ∧ s0.callers[u]? = some d ∧ d.pc.inCS = true) := by
  refine ⟨?_, fun s0 t0 c0 hf hc hs => suspended_only_at_locks hf hc hs, ?_, ?_, ?_⟩
  · simp only [run] at hr
    split at hr
    · cases hr
    · split at hr
      · rename_i s2 hs
        have hf := step_fault_none hs
        have hs2 := step_call_lock key none hf hidle
        rw [show step s (.call t (Call.Lock key)) = step s (.call t (.lockWithWaiting key none))
          from rfl, hs2] at hs
        injection hs with hs
        subst hs
        have hc2 := move_callers_self s s.km t ⟨.lockAcquire key none, held⟩ (getElem?_lt hidle)
        have htr : traceOf t s (.call t (Call.Lock key) :: es)
            = traceOf t (s.move s.km t ⟨.lockAcquire key none, held⟩) es := by
          simp only [traceOf]
          rw [show step s (.call t (Call.Lock key))
            = step s (.call t (.lockWithWaiting key none)) from rfl, hs2]
        rw [htr]
        obtain ⟨p, hp⟩ := lock_acquire_stage t key held _ es hc2 hn hr
        refine ⟨p, hp, ?_⟩
        intro ch hch
        simp [specLockActions] at hch
      · cases hr
  · intro s0 t0 c0 hf hc hcs hnosend
    cases hs : step s0 (.tick t0) with
    | some _ => rfl
    | none =>
      exfalso
      rcases suspended_only_at_locks hf hc hs with h | ⟨h, -⟩ | ⟨p, h, -⟩ | ⟨ch, h, -⟩
      · rw [h] at hcs
        simp [PC.inCS] at hcs
      · cases hpc : c0.pc <;> rw [hpc] at h hcs <;> simp [PC.action, PC.inCS] at h hcs
      · cases hpc : c0.pc <;> rw [hpc] at h hcs <;> simp [PC.action, PC.inCS] at h hcs
      · exact hnosend ch h
  · intro s0 t0 key0 p h0 hreach hc
    have hI := inv_of_reachable hreach
    refine ⟨mapMut_of_inCS hI hc rfl,
      s0.move { s0.km with mapMut := false } t0 ⟨.lockWait key0 p, h0⟩, ?_, rfl, ?_⟩
    · rw [step_tick hI.noFault hc]
      simp only [exec]
    · exact move_callers_self s0 _ t0 _ (getElem?_lt hc)
  · intro s0 t0 key0 p h0 hreach hc hm
    have hI := inv_of_reachable hreach
    obtain ⟨u, d, hu, hd⟩ := holder_of_mapMut hI hm
    refine ⟨u, d, ?_, hu, hd⟩
    intro hut
    subst hut
    rw [hc] at hu
    injection hu with hu
    subst hu
    simp [PC.inCS] at hd

/-- C8, amended, at a concrete run: one caller locks key 1 on its own; in the
state in which it is about to run line 70 the mapping-lock is locked, and the
statement unlocks it and takes the caller to the wait of line 71. -/
theorem lock_action_order_witness :
    ∃ s1, run true (State.init Nat 1) (lockSolo 0 1) = some s1 ∧
      (∃ p, Completes 0 (specLockActions p) (traceOf 0 (State.init Nat 1) (lockSolo 0 1)) s1 ∧
        ∀ ch, Action.send ch ∉ specLockActions p) ∧
      demoBeforeUnlockMap.callers[0]? = some ⟨.lockRelease 1 0, []⟩ ∧
      demoBeforeUnlockMap.km.mapMut = true ∧
      ∃ sb, step demoBeforeUnlockMap (.tick 0) = some sb ∧ sb.km.mapMut = false ∧
        sb.callers[0]? = some ⟨.lockWait 1 0, []⟩ := by
  have h := lock_action_order true (State.init Nat 1) _ 0 1 []
    [.tick 0, .tick 0, .tick 0, .tick 0, .tick 0] (by rfl) (by rfl)
    (show run true (State.init Nat 1) (lockSolo 0 1) = some _ from rfl)
  have hr : Reachable demoBeforeUnlockMap := ⟨1, (lockUpToWait 0 1).take 4, by rfl⟩
  have h4 := h.2.2.2.1 demoBeforeUnlockMap 0 1 0 [] hr (by rfl)
  exact ⟨_, rfl, h.1, by rfl, h4.1, h4.2⟩

end LockOrderClaim

section UnlockOrderClaim

variable {T : Type} [DecidableEq T]

/-- C9 as stated fails: the per-key lock is released while the mapping-lock is
held.  One caller locks key 1 and unlocks it: its actions end with the release
of the per-key lock followed by the release of the mapping-lock, not the other
way round; and in the state in which `mut.Unlock()` (line 41) is about to run
the mapping-lock is locked, and it still is after the per-key lock has been
released. -/
theorem unlock_releases_key_under_map_lock :
    traceOf 0 (State.init Nat 1) (lockSolo 0 1 ++ unlockSolo 0 1)
        = specLockActions 0 ++ codeUnlockActions (some 0) ∧
      codeUnlockActions (some 0) ≠ specUnlockActions (some 0) ∧
      Reachable demoBeforeRelease ∧
      demoBeforeRelease.pcOf 0 = some (.unlockRelease 1 (some 0)) ∧
      demoBeforeRelease.km.mapMut = true ∧ demoBeforeRelease.km.heap[0]? = some true ∧
      ∃ sb, step demoBeforeRelease (.tick 0) = some sb ∧ sb.km.heap[0]? = some false ∧
        sb.km.mapMut = true :=
  ⟨by rfl, by decide, ⟨1, lockSolo 0 1 ++ (unlockSolo 0 1).take 6, by rfl⟩, by rfl, by rfl,
    by rfl, _, rfl, by rfl, by rfl⟩

/-- C9, amended (Unlock releases the per-key lock under the mapping-lock): in
every execution of `Unlock(key)`, whatever the other callers do, the actions of
the caller are, in this order, acquire the mapping-lock, the guard, and, when
the guard does not fire, read the pointer, decrement, delete-if-zero, release
the per-key lock, and last the deferred release of the mapping-lock (when the
guard fires, only that release follows); the caller has returned exactly when
all of them are done.  In every state reached by disciplined callers the
release of the per-key lock finds the mapping-lock held and leaves it held. -/
theorem unlock_action_order (disc : Bool) (s s1 : State T) (t : Nat) (key : T)
    (held : List (T × Handle)) (es : List (Event T))
    (hidle : s.callers[t]? = some ⟨.idle, held⟩) (hn : noCallBy t es = true)
    (hr : run disc s (.call t (.Unlock key) :: es) = some s1) :
    (∃ i, Completes t (unlockActions i) (traceOf t s (.call t (.Unlock key) :: es)) s1) ∧
    (∀ (s0 sb : State T) (t0 : Nat) (key0 : T) (q : Option Handle) (h0 : List (T × Handle)),
      Reachable s0 → s0.callers[t0]? = some ⟨.unlockRelease key0 q, h0⟩ →
      step s0 (.tick t0) = some sb →
        s0.km.mapMut = true ∧ sb.km.mapMut = true ∧
        sb.callers[t0]? = some ⟨.unlockDeferred key0, h0⟩ ∧
        ∃ p, q = some p ∧ s0.km.heap[p]? = some true ∧ sb.km.heap[p]? = some false) := by
  refine ⟨?_, ?_⟩
  · simp only [run] at hr
    split at hr
    · cases hr
    · split at hr
      · rename_i s2 hs
        have hf := step_fault_none hs
        have hs2 := step_call_unlock key hf hidle
        rw [hs2] at hs
        injection hs with hs
        subst hs
        have hc2 := move_callers_self s s.km t ⟨.unlockAcquire key, dropKey key held⟩
          (getElem?_lt hidle)
        have htr : traceOf t s (.call t (.Unlock key) :: es)
            = traceOf t (s.move s.km t ⟨.unlockAcquire key, dropKey key held⟩) es := by
          simp only [traceOf]
          rw [hs2]
        rw [htr]
        exact unlock_acquire_stage t key _ _ es hc2 hn hr
      · cases hr
  · intro s0 sb t0 key0 q h0 hreach hc hs
    have hI := inv_of_reachable hreach
    have hm := mapMut_of_inCS hI hc rfl
    obtain ⟨p, hq, hlocked, -, -⟩ := hI.loc t0 _ hc
    subst hq
    rw [step_tick hI.noFault hc] at hs
    simp only [exec, release, hlocked] at hs
    injection hs with hs
    subst hs
    refine ⟨hm, hm, ?_, p, rfl, hlocked, ?_⟩
    · exact move_callers_self _ _ t0 _ (getElem?_lt hc)
    · show (s0.km.heap.set p false)[p]? = some false
      simp [getElem?_lt hlocked]

/-- C9, amended, at a concrete run: one caller locks key 1 and unlocks it. -/
theorem unlock_action_order_witness :
    ∃ s s1, run true (State.init Nat 1) (lockSolo 0 1) = some s ∧
      run true s (unlockSolo 0 1) = some s1 ∧
      ∃ i, Completes 0 (unlockActions i) (traceOf 0 s (unlockSolo 0 1)) s1 := by
  refine ⟨_, _, rfl, rfl, ?_⟩
  exact (unlock_action_order true _ _ 0 1 [(1, 0)]
    [.tick 0, .tick 0, .tick 0, .tick 0, .tick 0, .tick 0, .tick 0]
    (by rfl) (by rfl) (by rfl)).1

end UnlockOrderClaim

section RegistrationClaim

variable {T : Type} [DecidableEq T]

/-- C11 (Lock registration postcondition): in every registry state, the
zero-value registry with nil maps included, the bookkeeping of `Lock(k)`
completes.  When `k` has no entry in the key->lock map it maps `k` to a mutex
allocated by this call (its address was not in use before) that is unlocked;
when `k` has an entry it keeps the same pointer and allocates nothing.  In
both cases the count of `k` becomes its previous value, 0 when absent, plus 1.
The caller that runs these statements (with a channel, when a receiver is
ready on it) then stands at `mut.Lock()` on exactly the mutex now mapped to
`k`: that statement returns with the mutex locked and the caller holding `k`
whenever the mutex is free, as a newly created one is, and does not return
while the mutex is locked. -/
theorem lock_registration_post (km : KeyMutex T) (k : T) :
    ∃ km1 p, register km k = .ok (km1, p) ∧
      km1.lookup k = some p ∧ km1.countEntry k = some (km.count k + 1) ∧
      (km.lookup k = none →
        p = km.heap.length ∧ km.heap[p]? = none ∧ km1.heap = km.heap ++ [false] ∧
          km1.heap[p]? = some false) ∧
      (∀ a, km.lookup k = some a → p = a ∧ km1.heap = km.heap) ∧
      (km.countEntry k = none → km1.countEntry k = some 1) ∧
      ∀ (callers : List (Caller T)) (sent ready : List Chan) (t : Nat)
        (held : List (T × Handle)) (ch : Option Chan),
        callers[t]? = some ⟨.lockCreate k ch, held⟩ → (∀ c, ch = some c → c ∈ ready) →
        ∃ s1, run true ⟨km, callers, none, sent, ready⟩ (registerTicks t ch) = some s1 ∧
          s1.km.lookup k = some p ∧ s1.km.count k = km.count k + 1 ∧
          s1.callers[t]? = some ⟨.lockWait k p, held⟩ ∧
          (km1.heap[p]? = some false →
            ∃ s2, step s1 (.tick t) = some s2 ∧ s2.km.heap = km1.heap.set p true ∧
              s2.km.lookup k = some p ∧ s2.callers[t]? = some ⟨.idle, (k, p) :: held⟩) ∧
          (km1.heap[p]? = some true → step s1 (.tick t) = none) := by
  obtain ⟨km1, p, hreg, hl1, hc1, hmm1, hoth, hcase⟩ := register_spec km k
  refine ⟨km1, p, hreg, hl1, hc1, ?_, ?_, ?_, ?_⟩
  · intro habs
    rcases hcase with ⟨h1, -⟩ | ⟨-, h2, h3⟩
    · rw [habs] at h1
      cases h1
    · refine ⟨h2, ?_, h3, ?_⟩
      · rw [h2]
        simp
      · rw [h3, h2]
        simp
  · intro a ha
    rcases hcase with ⟨h1, h2⟩ | ⟨h1, -, -⟩
    · rw [ha] at h1
      injection h1 with h1
      exact ⟨h1.symm, h2⟩
    · rw [ha] at h1
      cases h1
  · intro hnone
    rw [hc1, count_eq_zero_of_no_entry hnone]
    rfl
  · intro callers sent ready t held ch ht hrdy
    obtain ⟨km2, p2, hreg2, hrun⟩ :=
      lock_cs_run true ⟨km, callers, none, sent, ready⟩ t held k ch rfl ht hrdy
    have hreg3 : register km k = .ok (km2, p2) := hreg2
    rw [hreg] at hreg3
    injection hreg3 with hreg3
    injection hreg3 with e1 e2
    subst e1
    subst e2
    have hlt : t < callers.length := getElem?_lt ht
    refine ⟨_, hrun, hl1, count_eq_of_entry hc1, ?_, ?_, ?_⟩
    · simp [List.getElem?_set, hlt]
    · intro hfree
      refine ⟨⟨{ km1 with mapMut := false, heap := km1.heap.set p true },
        (callers.set t ⟨.lockWait k p, held⟩).set t ⟨.idle, (k, p) :: held⟩, none,
        sent ++ ch.toList, afterSend ready ch⟩, ?_, rfl, hl1, ?_⟩
      · simp [step, exec, acquire, State.move, List.getElem?_set, hlt, hfree]
      · simp [List.getElem?_set, hlt]
    · intro hlocked
      simp [step, exec, acquire, List.getElem?_set, hlt, hlocked]

/-- C11 at the zero-value registry (both maps nil) and key 1. -/
theorem lock_registration_post_witness :
    (KeyMutex.zero Nat).lookup 1 = none ∧ (KeyMutex.zero Nat).count 1 = 0 ∧
    ∃ km1 p, register (KeyMutex.zero Nat) 1 = .ok (km1, p) ∧
      km1.lookup 1 = some p ∧ km1.countEntry 1 = some ((KeyMutex.zero Nat).count 1 + 1) ∧
      ((KeyMutex.zero Nat).lookup 1 = none →
        p = (KeyMutex.zero Nat).heap.length ∧ (KeyMutex.zero Nat).heap[p]? = none ∧
          km1.heap = (KeyMutex.zero Nat).heap ++ [false] ∧ km1.heap[p]? = some false) := by
  refine ⟨rfl, rfl, ?_⟩
  obtain ⟨km1, p, h1, h2, h3, h4, -⟩ := lock_registration_post (KeyMutex.zero Nat) 1
  exact ⟨km1, p, h1, h2, h3, h4⟩

end RegistrationClaim

section UnlockPostClaim

variable {T : Type} [DecidableEq T]

/-- C12 as stated fails: the zero-value registry after the bookkeeping of one
`Lock(1)` satisfies the entry-iff-count invariant and the count of key 1 is 1,
but the mutex mapped to key 1 is not locked (the caller has not run
`mut.Lock()` yet), and `Unlock(1)` does not release anything: it ends in the
fatal error "unlock of unlocked mutex" at line 41. -/
theorem unlock_of_registered_fails :
    runOps (KeyMutex.zero Nat) [.register 1] = some demoRegistered ∧
    (∀ k, demoRegistered.hasEntry k ↔ demoRegistered.hasPositiveCount k) ∧
    demoRegistered.count 1 = 1 ∧ demoRegistered.lookup 1 = some 0 ∧
    demoRegistered.heap = [false] ∧
    Unlock demoRegistered 1 = .error .unlockOfUnlocked := by
  refine ⟨rfl, fun k => entry_iff_of_consistent
    (consistent_runOps [.register 1] consistent_zero (by rfl)) k, by decide, by decide,
    by decide, ?_⟩
  exact Unlock_fatal demoRegistered 1 0 (by decide) (by decide) (by decide)

/-- C12, amended (Unlock postcondition when the mapped lock is locked): in
every registry state that satisfies the entry-iff-count invariant, for every
key `k` with count `c >= 1` whose mapped per-key lock is locked, `Unlock(k)`
returns and has released the per-key lock that was mapped to `k` before the
call.  If `c = 1` it has removed `k` from both maps, so that the bookkeeping
of the next `Lock(k)` creates a new, unlocked mutex with count 1; if `c > 1`
it has set the count to `c - 1` and kept the same pointer mapped to `k`. -/
theorem unlock_post (km : KeyMutex T) (k : T)
    (hI : ∀ k1, km.hasEntry k1 ↔ km.hasPositiveCount k1) (hc : 1 ≤ km.count k)
    (hl : ∀ a, km.lookup k = some a → km.heap[a]? = some true) :
    ∃ a km1, km.lookup k = some a ∧ Unlock km k = .ok km1 ∧
      km1.heap = km.heap.set a false ∧ km1.heap[a]? = some false ∧
      (km.count k = 1 → km1.lookup k = none ∧ km1.countEntry k = none ∧
        ∃ km2 p, register km1 k = .ok (km2, p) ∧ p = km1.heap.length ∧
          km2.lookup k = some p ∧ km2.heap[p]? = some false ∧ km2.countEntry k = some 1) ∧
      (1 < km.count k → km1.countEntry k = some (km.count k - 1) ∧ km1.lookup k = some a) := by
  have hne : km.count k ≠ 0 := by omega
  obtain ⟨a, ha⟩ : km.hasEntry k := (hI k).mpr ⟨km.count k, entry_of_count_ne_zero hne, by omega⟩
  have hla := hl a ha
  obtain ⟨km1, hU⟩ := Unlock_returns km k a (by omega) ha hla
  rcases Unlock_spec hU with ⟨h0, -⟩ | ⟨-, a1, ha1, -, hheap, -, -, hone, hmore⟩
  · omega
  rw [ha] at ha1
  injection ha1 with ha1
  subst ha1
  have hlt : a < km.heap.length := getElem?_lt hla
  refine ⟨a, km1, ha, hU, hheap, ?_, ?_, ?_⟩
  · rw [hheap]
    simp [List.getElem?_set, hlt]
  · intro h1
    obtain ⟨hl1, hc1⟩ := hone h1
    refine ⟨hl1, hc1, ?_⟩
    obtain ⟨km2, p, hreg, hl2, hc2, -, -, hcase⟩ := register_spec km1 k
    rcases hcase with ⟨h2, -⟩ | ⟨-, h2, h3⟩
    · rw [hl1] at h2
      cases h2
    · refine ⟨km2, p, hreg, h2, hl2, ?_, ?_⟩
      · rw [h3, h2]
        simp
      · rw [hc2, count_eq_zero_of_no_entry hc1]
        rfl
  · intro h1
    obtain ⟨hl1, hc1⟩ := hmore (by omega)
    exact ⟨hc1, hl1⟩

/-- C12, amended, at a registry in which key 1 is held with count 1. -/
theorem unlock_post_witness :
    (∀ k1, demoRegistry.hasEntry k1 ↔ demoRegistry.hasPositiveCount k1) ∧
    1 ≤ demoRegistry.count 1 ∧ demoRegistry.lookup 1 = some 0 ∧
    demoRegistry.heap[0]? = some true ∧
    ∃ a km1, demoRegistry.lookup 1 = some a ∧ Unlock demoRegistry 1 = .ok km1 ∧
      km1.heap = demoRegistry.heap.set a false ∧ km1.heap[a]? = some false ∧
      (demoRegistry.count 1 = 1 → km1.lookup 1 = none ∧ km1.countEntry 1 = none ∧
        ∃ km2 p, register km1 1 = .ok (km2, p) ∧ p = km1.heap.length ∧
          km2.lookup 1 = some p ∧ km2.heap[p]? = some false ∧ km2.countEntry 1 = some 1) ∧
      (1 < demoRegistry.count 1 →
        km1.countEntry 1 = some (demoRegistry.count 1 - 1) ∧ km1.lookup 1 = some a) := by
  have hI : ∀ k1, demoRegistry.hasEntry k1 ↔ demoRegistry.hasPositiveCount k1 := fun k1 =>
    entry_iff_of_consistent
      (consistent_runOps [.register 1, .acquire 1, .register 2] consistent_zero (by rfl)) k1
  have hlook : demoRegistry.lookup 1 = some 0 := by decide
  refine ⟨hI, by decide, hlook, by decide, ?_⟩
  refine unlock_post demoRegistry 1 hI (by decide) ?_
  intro a ha
  rw [hlook] at ha
  injection ha with ha
  subst ha
  decide

end UnlockPostClaim

section HookTimingClaim

variable {T : Type} [DecidableEq T]

/-- C13 as stated fails: the signal is sent while the mapping-lock is held,
not after its release.  One caller runs `lockWithWaiting(1, 7)`: its actions
are, in the order of the source, the send (line 68) and then the release of
the mapping-lock (line 70).  In the state in which the send is about to run
the mapping-lock is locked; with no receiver ready the send cannot run, and
once a receiver is ready and the signal has been sent the mapping-lock is
still locked. -/
theorem send_under_map_lock :
    traceOf 0 (State.init Nat 1) (hookSolo 0 1 7) = codeHookActions 7 0 ∧
      codeHookActions 7 0 ≠ specHookActions 7 0 ∧
      Reachable demoBeforeSend ∧
      demoBeforeSend.pcOf 0 = some (.lockSend 1 7 0) ∧
      demoBeforeSend.km.mapMut = true ∧ demoBeforeSend.sent = [] ∧
      demoBeforeSend.ready = [] ∧ step demoBeforeSend (.tick 0) = none ∧
      ∃ sr sb, step demoBeforeSend (.recv 7) = some sr ∧ step sr (.tick 0) = some sb ∧
        sb.sent = [7] ∧ sb.ready = [] ∧ sb.km.mapMut = true ∧
        sb.pcOf 0 = some (.lockRelease 1 0) :=
  ⟨by rfl, by decide, ⟨1, hookUpToSend 0 1 7, by rfl⟩, by rfl, by rfl, by rfl, by rfl, by rfl,
    _, _, rfl, rfl, by rfl, by rfl, by rfl, by rfl⟩

/-- C13, amended (the signal is sent under the mapping-lock, to a ready
receiver): in every execution of `lockWithWaiting(key, ch)` with a channel,
whatever the other callers do, the actions of the caller are, in this order,
acquire the mapping-lock, create-if-absent, increment the count, send one
signal on `ch`, release the mapping-lock, acquire the per-key lock; the caller
has returned exactly when all six are done, and the send occurs exactly once
among them, after the increment and before the wait on the per-key lock.  A
statement changes the record of signals only when it is that send, which
appends one signal on `ch`.  In every state reached by disciplined callers the
caller at the send finds the count of `key` at least 1 and the mapping-lock
held; the send cannot run while no receiver is ready on `ch`, and when one is
it takes that receiver and leaves the registry as it is, the mapping-lock
still held.  Called while the mapping-lock is free and a receiver is ready,
the call runs up to the wait on the per-key lock by its own statements and has
then sent exactly one signal.  With a nil channel the actions are those of
`Lock`, and no send is among them. -/
theorem hook_send_order (disc : Bool) (s s1 : State T) (t : Nat) (key : T) (ch : Chan)
    (held : List (T × Handle)) (es : List (Event T))
    (hidle : s.callers[t]? = some ⟨.idle, held⟩) (hn : noCallBy t es = true)
    (hr : run disc s (.call t (.lockWithWaiting key (some ch)) :: es) = some s1) :
    (∃ p, Completes t (codeHookActions ch p)
        (traceOf t s (.call t (.lockWithWaiting key (some ch)) :: es)) s1 ∧
      (codeHookActions ch p).count (.send ch) = 1 ∧
      ∀ c0, .send c0 ∈ codeHookActions ch p → c0 = ch) ∧
    (∀ (s0 sb : State T) (t0 : Nat) (c0 : Caller T), s0.callers[t0]? = some c0 →
      step s0 (.tick t0) = some sb →
        sb.sent = s0.sent ++ (match c0.pc.action with
          | some (.send c) => [c]
          | _ => [])) ∧
    (∀ (s0 : State T) (t0 : Nat) (key0 : T) (c : Chan) (p : Handle) (h0 : List (T × Handle)),
      Reachable s0 → s0.callers[t0]? = some ⟨.lockSend key0 c p, h0⟩ →
        s0.km.mapMut = true ∧ 1 ≤ s0.km.count key0 ∧ s0.km.lookup key0 = some p ∧
        (c ∉ s0.ready → step s0 (.tick t0) = none) ∧
        (c ∈ s0.ready →
          ∃ sb, step s0 (.tick t0) = some sb ∧ sb.sent = s0.sent ++ [c] ∧
            sb.ready = s0.ready.erase c ∧ sb.km = s0.km ∧
            sb.callers[t0]? = some ⟨.lockRelease key0 p, h0⟩)) ∧
    (∀ s0 : State T, s0.fault = none → s0.callers[t]? = some ⟨.idle, held⟩ →
      s0.km.mapMut = false → ch ∈ s0.ready →
        ∃ km1 p, run disc s0
            (.call t (.lockWithWaiting key (some ch)) :: .tick t :: registerTicks t (some ch))
          = some ⟨km1, s0.callers.set t ⟨.lockWait key p, held⟩, none, s0.sent ++ [ch],
              s0.ready.erase ch⟩) ∧
    (∀ (s0 s2 : State T) (es0 : List (Event T)), s0.callers[t]? = some ⟨.idle, held⟩ →
      noCallBy t es0 = true →
      run disc s0 (.call t (.lockWithWaiting key none) :: es0) = some s2 →
        ∃ p, Completes t (specLockActions p)
            (traceOf t s0 (.call t (.lockWithWaiting key none) :: es0)) s2 ∧
          ∀ c0, Action.send c0 ∉ specLockActions p) := by
  have hcall : ∀ (c : Option Chan) (s0 s2 : State T) (es0 : List (Event T)),
      s0.callers[t]? = some ⟨.idle, held⟩ →
      run disc s0 (.call t (.lockWithWaiting key c) :: es0) = some s2 →
      s0.fault = none ∧ run disc (s0.move s0.km t ⟨.lockAcquire key c, held⟩) es0 = some s2 := by
    intro c s0 s2 es0 h0 hr0
    simp only [run] at hr0
    split at hr0
    · cases hr0
    · split at hr0
      · rename_i s3 hs
        have hf := step_fault_none hs
        rw [step_call_lock key c hf h0] at hs
        injection hs with hs
        subst hs
        exact ⟨hf, hr0⟩
      · cases hr0
  refine ⟨?_, ?_, ?_, ?_, ?_⟩
  · obtain ⟨hf, hr2⟩ := hcall (some ch) s s1 es hidle hr
    rw [traceOf_call key (some ch) es hf hidle]
    obtain ⟨p, hp⟩ := hook_acquire_stage t key ch held _ es
      (move_callers_self s s.km t _ (getElem?_lt hidle)) hn hr2
    refine ⟨p, hp, ?_, ?_⟩
    · simp [codeHookActions, List.count_cons]
    · intro c0 hc0
      simp [codeHookActions] at hc0
      exact hc0
  · intro s0 sb t0 c0 hc0 hs
    exact step_sent hc0 hs
  · intro s0 t0 key0 c p h0 hreach hc
    have hI := inv_of_reachable hreach
    have hm := mapMut_of_inCS hI hc rfl
    have hcount := count_pos_of_registered hI hc key0 (by simp [regW, PC.registered])
    have hloc : s0.km.lookup key0 = some p := hI.loc t0 ⟨.lockSend key0 c p, h0⟩ hc
    refine ⟨hm, by omega, hloc, ?_, ?_⟩
    · intro hno
      rw [step_tick hI.noFault hc]
      simp [exec, hno]
    · intro hrdy
      refine ⟨{ s0.move s0.km t0 ⟨.lockRelease key0 p, h0⟩ with
          sent := s0.sent ++ [c], ready := s0.ready.erase c }, ?_, rfl, rfl, rfl, ?_⟩
      · rw [step_tick hI.noFault hc]
        simp [exec, hrdy]
      · exact move_callers_self s0 s0.km t0 _ (getElem?_lt hc)
  · intro s0 hf0 h0 hfree hrdy
    obtain ⟨km1, p, -, hrun⟩ := lock_call_run disc s0 t held key (some ch) hf0 h0 hfree
      (by intro c hc; injection hc with hc; subst hc; exact hrdy)
    exact ⟨km1, p, hrun⟩
  · intro s0 s2 es0 h0 hn0 hr0
    obtain ⟨hf, hr2⟩ := hcall none s0 s2 es0 h0 hr0
    rw [traceOf_call key none es0 hf h0]
    obtain ⟨p, hp⟩ := lock_acquire_stage t key held _ es0
      (move_callers_self s0 s0.km t _ (getElem?_lt h0)) hn0 hr2
    refine ⟨p, hp, ?_⟩
    intro c0 hc0
    simp [specLockActions] at hc0

/-- C13, amended, at a concrete run: one caller runs `lockWithWaiting(1, 7)`
on its own, and a receiver gets ready while the caller is at the send. -/
theorem hook_send_order_witness :
    ∃ s1, run true (State.init Nat 1) (hookSolo 0 1 7) = some s1 ∧ s1.sent = [7] ∧
      ∃ p, Completes 0 (codeHookActions 7 p)
          (traceOf 0 (State.init Nat 1) (hookSolo 0 1 7)) s1 ∧
        (codeHookActions 7 p).count (.send 7) = 1 ∧
        ∀ c0, .send c0 ∈ codeHookActions 7 p → c0 = 7 := by
  refine ⟨_, rfl, by rfl, ?_⟩
  exact (hook_send_order true (State.init Nat 1) _ 0 1 7 []
    [.tick 0, .tick 0, .tick 0, .recv 7, .tick 0, .tick 0, .tick 0] (by rfl) (by rfl)
    (by rfl)).1

end HookTimingClaim

section RoundTripClaim

variable {T : Type} [DecidableEq T]

/-- C14 as stated fails, in two ways.  (1) The zero-value registry satisfies
the entry-iff-count invariant, but after the bookkeeping of `Lock(1)` the new
mutex is still unlocked and `Unlock(1)` ends in the fatal error "unlock of
unlocked mutex": it yields no maps.  (2) A registry that stores the count 0
for key 1 and has no lock entry satisfies the invariant as well (no entry, no
count greater than zero); the bookkeeping of `Lock(1)`, the acquisition of the
new mutex and `Unlock(1)` all complete, and the count map has lost the key. -/
theorem round_trip_fails :
    ((∀ k, (KeyMutex.zero Nat).hasEntry k ↔ (KeyMutex.zero Nat).hasPositiveCount k) ∧
      register (KeyMutex.zero Nat) 1 = .ok (demoRegistered, 0) ∧
      Unlock demoRegistered 1 = .error .unlockOfUnlocked) ∧
    ((∀ k, demoZeroCount.hasEntry k ↔ demoZeroCount.hasPositiveCount k) ∧
      ∃ km1 km2 km3, register demoZeroCount 1 = .ok (km1, 0) ∧ acquire km1 0 = some km2 ∧
        Unlock km2 1 = .ok km3 ∧ km3.countEntry 1 = none ∧
        demoZeroCount.countEntry 1 = some 0) := by
  refine ⟨⟨fun k => entry_iff_of_consistent consistent_zero k, by rfl, ?_⟩, ?_, ?_⟩
  · exact Unlock_fatal demoRegistered 1 0 (by decide) (by decide) (by decide)
  · intro k
    by_cases hk : k = 1 <;>
      simp [KeyMutex.hasEntry, KeyMutex.hasPositiveCount, KeyMutex.lookup, KeyMutex.countEntry,
        demoZeroCount, hk]
  · exact ⟨_, _, _, by rfl, by rfl, by rfl, by rfl, by rfl⟩

/-- What `Unlock(k)` leaves in the two maps when it runs after the bookkeeping
of `Lock(k)` on a registry with the same maps and returns. -/
theorem unlock_restores_maps {km km1 km2 km3 : KeyMutex T} {k : T} {p : Handle}
    (hC : km.Consistent) (hreg : register km k = .ok (km1, p))
    (hm : km2.m = km1.m) (hrc : km2.refCounts = km1.refCounts)
    (hU : Unlock km2 k = .ok km3) (k1 : T) :
    km3.lookup k1 = km.lookup k1 ∧ km3.countEntry k1 = km.countEntry k1 := by
  obtain ⟨km1a, pa, hreg1, hl1, hc1, -, hoth, hcase⟩ := register_spec km k
  rw [hreg] at hreg1
  injection hreg1 with hreg1
  injection hreg1 with e1 e2
  subst e1
  subst e2
  have hl2 : ∀ x, km2.lookup x = km1.lookup x := fun x => lookup_congr hm x
  have hc2 : ∀ x, km2.countEntry x = km1.countEntry x := fun x => countEntry_congr hrc x
  have hcnt2 : km2.count k = km.count k + 1 := by
    rw [count_congr (hc2 k)]
    exact count_eq_of_entry hc1
  have hnn := count_nonneg_of_consistent hC k
  rcases Unlock_spec hU with ⟨h0, -⟩ | ⟨-, a, ha, -, -, -, hoth3, hone, hmore⟩
  · omega
  by_cases hk : k1 = k
  · subst hk
    by_cases hz : km.count k1 = 0
    · obtain ⟨h3, h4⟩ := hone (by omega)
      obtain ⟨h5, h6⟩ := absent_of_count_zero hC hz
      rw [h3, h4, h5, h6]
      exact ⟨rfl, rfl⟩
    · obtain ⟨h3, h4⟩ := hmore (by omega)
      rw [hl2, hl1] at ha
      injection ha with ha
      subst ha
      have h5 : km.lookup k1 = some p := by
        rcases hcase with ⟨h, -⟩ | ⟨h, -, -⟩
        · exact h
        · exfalso
          cases he : km.countEntry k1 with
          | none => exact hz (count_eq_zero_of_no_entry he)
          | some c =>
            obtain ⟨q, hq⟩ := ((hC k1).1).mpr ⟨c, he⟩
            rw [h] at hq
            cases hq
      rw [h3, h4, h5, hcnt2, entry_of_count_ne_zero hz]
      refine ⟨rfl, ?_⟩
      congr 1
      omega
  · obtain ⟨h3, h4⟩ := hoth3 k1 hk
    obtain ⟨h5, h6⟩ := hoth k1 hk
    rw [h3, h4, hl2, hc2, h5, h6]
    exact ⟨rfl, rfl⟩

/-- C14, amended (bookkeeping round trip): in every registry state in which
each key has a lock entry exactly when it has a count entry and every stored
count is greater than zero, as in every reachable state, the bookkeeping of
`Lock(k)` completes, and an `Unlock(k)` that follows it while the per-key lock
of `k` is locked (after the caller's `mut.Lock()` has returned, or while
another caller holds the lock) returns and leaves a key->lock map and a
key->count map equal, as mappings, to those of the state before.  An
`Unlock(k)` that follows the bookkeeping while that lock is not locked ends in
the fatal error "unlock of unlocked mutex" instead. -/
theorem round_trip (km : KeyMutex T) (k : T) (hC : km.Consistent) :
    ∃ km1 p, register km k = .ok (km1, p) ∧
      (∀ km2, acquire km1 p = some km2 →
        ∃ km3, Unlock km2 k = .ok km3 ∧
          ∀ k1, km3.lookup k1 = km.lookup k1 ∧ km3.countEntry k1 = km.countEntry k1) ∧
      (km1.heap[p]? = some true →
        ∃ km3, Unlock km1 k = .ok km3 ∧
          ∀ k1, km3.lookup k1 = km.lookup k1 ∧ km3.countEntry k1 = km.countEntry k1) ∧
      (km1.heap[p]? = some false →
        Unlock km1 k = .error .unlockOfUnlocked ∧ ∃ km2, acquire km1 p = some km2) ∧
      (km.lookup k = none → km1.heap[p]? = some false) := by
  obtain ⟨km1, p, hreg, hl1, hc1, -, -, hcase⟩ := register_spec km k
  have hnn := count_nonneg_of_consistent hC k
  have hpos : 0 < km1.count k := by
    rw [count_eq_of_entry hc1]
    omega
  refine ⟨km1, p, hreg, ?_, ?_, ?_, ?_⟩
  · intro km2 hacq
    obtain ⟨hfree, hkm2⟩ := acquire_some hacq
    have hlt : p < km1.heap.length := getElem?_lt hfree
    have hm : km2.m = km1.m := by rw [hkm2]
    have hrc : km2.refCounts = km1.refCounts := by rw [hkm2]
    have hlocked : km2.heap[p]? = some true := by
      rw [hkm2]
      simp [List.getElem?_set, hlt]
    obtain ⟨km3, hU⟩ := Unlock_returns km2 k p
      (by rw [count_congr (countEntry_congr hrc k)]; exact hpos)
      (by rw [lookup_congr hm]; exact hl1) hlocked
    exact ⟨km3, hU, fun k1 => unlock_restores_maps hC hreg hm hrc hU k1⟩
  · intro hlocked
    obtain ⟨km3, hU⟩ := Unlock_returns km1 k p hpos hl1 hlocked
    exact ⟨km3, hU, fun k1 => unlock_restores_maps hC hreg rfl rfl hU k1⟩
  · intro hfree
    refine ⟨Unlock_fatal km1 k p hpos hl1 hfree, ?_⟩
    simp [acquire, hfree]
  · intro habs
    rcases hcase with ⟨h, -⟩ | ⟨-, h2, h3⟩
    · rw [habs] at h
      cases h
    · rw [h3, h2]
      simp

/-- C14, amended, at a registry in which key 1 is held and key 2 is registered:
the round trip on key 1, whose lock is locked, and on the absent key 3. -/
theorem round_trip_witness :
    demoRegistry.Consistent ∧ demoRegistry.lookup 3 = none ∧
    ∃ km1 p, register demoRegistry 3 = .ok (km1, p) ∧
      (∀ km2, acquire km1 p = some km2 →
        ∃ km3, Unlock km2 3 = .ok km3 ∧
          ∀ k1, km3.lookup k1 = demoRegistry.lookup k1 ∧
            km3.countEntry k1 = demoRegistry.countEntry k1) ∧
      (km1.heap[p]? = some true →
        ∃ km3, Unlock km1 3 = .ok km3 ∧
          ∀ k1, km3.lookup k1 = demoRegistry.lookup k1 ∧
            km3.countEntry k1 = demoRegistry.countEntry k1) ∧
      (km1.heap[p]? = some false →
        Unlock km1 3 = .error .unlockOfUnlocked ∧ ∃ km2, acquire km1 p = some km2) ∧
      (demoRegistry.lookup 3 = none → km1.heap[p]? = some false) := by
  have hC : demoRegistry.Consistent :=
    consistent_runOps [.register 1, .acquire 1, .register 2] consistent_zero (by rfl)
  exact ⟨hC, by decide, round_trip demoRegistry 3 hC⟩

end RoundTripClaim

section UnlockSafetyClaim

variable {T : Type} [DecidableEq T]

/-- C15 (Unlock never dereferences a missing lock): in every registry state
reached from the zero-value registry by `Lock` registrations, per-key lock
acquisitions and `Unlock` calls, whenever the count of `k` is greater than
zero, so that `Unlock(k)` passes its guard, the lookup of `k` at line 29 finds
a pointer to an allocated mutex.  The `mut.Unlock()` of line 41 acts on that
mutex: `Unlock(k)` returns when it is locked, ends in "unlock of unlocked
mutex" when it is not, and in no case ends in a nil dereference or in a write
to a nil map. -/
theorem unlock_finds_lock (ops : List (Op T)) (km : KeyMutex T)
    (h : runOps (KeyMutex.zero T) ops = some km) (k : T) (hc : 0 < km.count k) :
    ∃ a b, km.lookup k = some a ∧ a < km.heap.length ∧ km.lockState (km.lookup k) = some b ∧
      (b = true → ∃ km1, Unlock km k = .ok km1) ∧
      (b = false → Unlock km k = .error .unlockOfUnlocked) ∧
      Unlock km k ≠ .error .nilDeref ∧ Unlock km k ≠ .error .nilMapWrite := by
  have hC := consistent_runOps ops consistent_zero h
  have hS := separate_runOps ops separate_zero h
  have hce : km.countEntry k = some (km.count k) := entry_of_count_ne_zero (by omega)
  obtain ⟨a, ha⟩ := ((hC k).1).mpr ⟨_, hce⟩
  have hlt : a < km.heap.length := (hS k a ha).1
  have hget : km.heap[a]? = some km.heap[a] := List.getElem?_eq_getElem hlt
  refine ⟨a, km.heap[a], ha, hlt, ?_, ?_, ?_, ?_, ?_⟩
  · rw [ha]
    exact hget
  · intro hb
    rw [hb] at hget
    exact Unlock_returns km k a hc ha hget
  · intro hb
    rw [hb] at hget
    exact Unlock_fatal km k a hc ha hget
  · cases hb : km.heap[a] with
    | true =>
      rw [hb] at hget
      obtain ⟨km1, h1⟩ := Unlock_returns km k a hc ha hget
      rw [h1]
      simp
    | false =>
      rw [hb] at hget
      rw [Unlock_fatal km k a hc ha hget]
      simp
  · cases hb : km.heap[a] with
    | true =>
      rw [hb] at hget
      obtain ⟨km1, h1⟩ := Unlock_returns km k a hc ha hget
      rw [h1]
      simp
    | false =>
      rw [hb] at hget
      rw [Unlock_fatal km k a hc ha hget]
      simp

/-- C15 at a concrete run: key 1 is registered twice and acquired once. -/
theorem unlock_finds_lock_witness :
    ∃ km, runOps (KeyMutex.zero Nat) [.register 1, .acquire 1, .register 1] = some km ∧
      0 < km.count 1 ∧
      ∃ a b, km.lookup 1 = some a ∧ a < km.heap.length ∧
        km.lockState (km.lookup 1) = some b ∧
        (b = true → ∃ km1, Unlock km 1 = .ok km1) ∧
        (b = false → Unlock km 1 = .error .unlockOfUnlocked) ∧
        Unlock km 1 ≠ .error .nilDeref ∧ Unlock km 1 ≠ .error .nilMapWrite := by
  refine ⟨_, rfl, by decide, ?_⟩
  exact unlock_finds_lock [.register 1, .acquire 1, .register 1] _ (by rfl) 1 (by decide)

end UnlockSafetyClaim

section DuplicateUnlockClaim

/-- C16 (the count guard does not protect other lockers from a duplicate
Unlock): with three callers A = 0, B = 1, C = 2 and key 1, let A lock the key,
B register and wait, A unlock, and B acquire, so that B holds the key, the
count is 1 (B's) and the key is mapped to the locked mutex 0.  A's second
`Unlock(1)`, which no discipline-following caller would make, then passes the
guard and runs all of its statements, `mut.Unlock()` on mutex 0 included; it
leaves key 1 in neither map and mutex 0, the one B locked, unlocked, while B
still holds the key.  A `Lock(1)` by C then creates the new mutex 1, acquires
it and returns: B and C both hold key 1, on different mutexes, and the
process has not crashed. -/
theorem duplicate_unlock_breaks_exclusion :
    (run false (State.init Nat 3)
        (lockSolo 0 1 ++ lockUpToWait 1 1 ++ unlockSolo 0 1 ++ [.tick 1]) = some demoDupBefore ∧
      demoDupBefore.holds 1 1 ∧ ¬ demoDupBefore.holds 0 1 ∧
      demoDupBefore.km.count 1 = 1 ∧ demoDupBefore.km.lookup 1 = some 0 ∧
      demoDupBefore.km.heap = [true]) ∧
    (run true demoDupBefore (unlockSolo 0 1) = none ∧
      run false demoDupBefore (unlockSolo 0 1) = some demoDupAfter ∧
      traceOf 0 demoDupBefore (unlockSolo 0 1) = codeUnlockActions (some 0) ∧
      demoDupAfter.km.lookup 1 = none ∧ demoDupAfter.km.countEntry 1 = none ∧
      demoDupAfter.km.heap = [false] ∧ demoDupAfter.holds 1 1 ∧
      demoDupAfter.callers[1]? = some ⟨.idle, [(1, 0)]⟩) ∧
    (run false demoDupAfter (lockSolo 2 1) = some demoDupFinal ∧
      demoDupFinal.km.lookup 1 = some 1 ∧ demoDupFinal.km.count 1 = 1 ∧
      demoDupFinal.km.heap = [false, true] ∧
      demoDupFinal.callers[2]? = some ⟨.idle, [(1, 1)]⟩ ∧
      demoDupFinal.holds 2 1 ∧ demoDupFinal.holds 1 1 ∧ demoDupFinal.fault = none ∧
      ReachableAny demoDupFinal) := by
  refine ⟨⟨by rfl, ⟨_, rfl, by decide⟩, ?_, by decide, by decide, by decide⟩,
    ⟨by rfl, by rfl, by rfl, by decide, by decide, by decide, ⟨_, rfl, by decide⟩, by rfl⟩,
    ⟨by rfl, by decide, by decide, by decide, by rfl, ⟨_, rfl, by decide⟩, ⟨_, rfl, by decide⟩,
      by rfl, ?_⟩⟩
  · rintro ⟨c, hc, hpos⟩
    have h0 : demoDupBefore.callers[0]? = some ⟨.idle, []⟩ := by rfl
    rw [h0] at hc
    injection hc with hc
    subst hc
    simp [heldCount] at hpos
  · exact ⟨3, lockSolo 0 1 ++ lockUpToWait 1 1 ++ unlockSolo 0 1 ++ [.tick 1] ++ unlockSolo 0 1
      ++ lockSolo 2 1, by rfl⟩

end DuplicateUnlockClaim

section HookRefinementClaim

variable {T : Type} [DecidableEq T]

/-- C17 as stated fails: the call with a channel can stall where `Lock` never
does.  From the zero-value registry with two callers and no receiver,
`Lock(1)` by caller 0 returns and `Lock(2)` by caller 1 after it returns as
well.  With `lockWithWaiting(1, 7)` in the place of `Lock(1)`, caller 0 does
the same bookkeeping (count 1, a new unlocked mutex) and is then suspended at
the send of line 68: no signal is sent, the per-key lock is not acquired, and
the mapping-lock stays locked, so that the `Lock(2)` of caller 1 is suspended
at line 46. -/
theorem hook_stalls_under_map_lock :
    (∃ s2, run true (State.init Nat 2) (lockSolo 0 1 ++ lockSolo 1 2) = some s2 ∧
      s2.holds 0 1 ∧ s2.holds 1 2 ∧ s2.km.mapMut = false) ∧
    Reachable demoHookStalled ∧ demoHookStalled.ready = [] ∧
    demoHookStalled.callers = [⟨.lockSend 1 7 0, []⟩, ⟨.lockAcquire 2 none, []⟩] ∧
    demoHookStalled.km.count 1 = 1 ∧ demoHookStalled.km.lookup 1 = some 0 ∧
    demoHookStalled.km.heap = [false] ∧ demoHookStalled.sent = [] ∧
    demoHookStalled.km.mapMut = true ∧
    step demoHookStalled (.tick 0) = none ∧ step demoHookStalled (.tick 1) = none :=
  ⟨⟨_, rfl, ⟨_, rfl, by decide⟩, ⟨_, rfl, by decide⟩, by rfl⟩,
    ⟨2, hookUpToSend 0 1 7 ++ [.call 1 (Call.Lock 2)], by rfl⟩, by rfl, by rfl, by decide,
    by decide, by decide, by rfl, by rfl, by rfl, by rfl⟩

/-- C17, amended (with a ready receiver the hook does not change the
bookkeeping): from every state and for every key `k` and channel `ch`,
`Lock(k)`, which is `lockWithWaiting(k, nil)`, and `lockWithWaiting(k, ch)`
do the same bookkeeping, the one `register` computes.  When the mapping-lock
is free, `Lock(k)` runs up to `mut.Lock()` by the caller's statements alone;
so does the call with the channel when a receiver is ready on `ch`, and it
leaves the same registry (same key->lock map, same key->count map, same mutex
objects) and the same callers, the caller standing at `mut.Lock()` on the
same mutex `p`: the two differ only by the one signal on `ch` and the receiver
it has taken.  Whether or not a receiver is ready, the call with the channel
reaches the send of line 68 with that same registry, the mapping-lock still
held, and it is suspended there while no receiver is ready.  When the
mapping-lock is taken, both calls wait at line 46.  The `mut.Lock()` of line
71 does not depend on the signals or the receivers: it acquires `p` or waits
in the same way after either call. -/
theorem hook_same_bookkeeping (disc : Bool) (s : State T) (t : Nat) (held : List (T × Handle))
    (k : T) (ch : Chan) (hf : s.fault = none) (ht : s.callers[t]? = some ⟨.idle, held⟩) :
    ∃ km1 p, register s.km k = .ok (km1, p) ∧
      (s.km.mapMut = false →
        run disc s (.call t (Call.Lock k) :: .tick t :: registerTicks t none)
          = some ⟨km1, s.callers.set t ⟨.lockWait k p, held⟩, none, s.sent, s.ready⟩ ∧
        (ch ∈ s.ready →
          run disc s (.call t (.lockWithWaiting k (some ch)) :: .tick t ::
              registerTicks t (some ch))
            = some ⟨km1, s.callers.set t ⟨.lockWait k p, held⟩, none, s.sent ++ [ch],
                s.ready.erase ch⟩) ∧
        run disc s [.call t (.lockWithWaiting k (some ch)), .tick t, .tick t, .tick t]
          = some ⟨{ km1 with mapMut := true }, s.callers.set t ⟨.lockSend k ch p, held⟩, none,
              s.sent, s.ready⟩ ∧
        (ch ∉ s.ready →
          step ⟨{ km1 with mapMut := true }, s.callers.set t ⟨.lockSend k ch p, held⟩, none,
              s.sent, s.ready⟩ (.tick t) = none)) ∧
      (s.km.mapMut = true →
        run disc s [.call t (Call.Lock k), .tick t] = none ∧
        run disc s [.call t (.lockWithWaiting k (some ch)), .tick t] = none) ∧
      ∀ sent ready : List Chan,
        step ⟨km1, s.callers.set t ⟨.lockWait k p, held⟩, none, sent, ready⟩ (.tick t)
          = (acquire km1 p).map fun km2 =>
              ⟨km2, s.callers.set t ⟨.idle, (k, p) :: held⟩, none, sent, ready⟩ := by
  have hlt : t < s.callers.length := getElem?_lt ht
  obtain ⟨km1, p, hreg, -⟩ := register_spec s.km k
  refine ⟨km1, p, hreg, ?_, ?_, ?_⟩
  · intro hfree
    obtain ⟨kmA, pA, hregA, hrunA⟩ := lock_call_run disc s t held k none hf ht hfree
      (by intro c hc; cases hc)
    obtain ⟨kmC, pC, hregC, hrunC, hstallC⟩ := hook_call_stall disc s t held k ch hf ht hfree
    rw [hreg] at hregA hregC
    injection hregA with hregA
    injection hregA with a1 a2
    injection hregC with hregC
    injection hregC with c1 c2
    subst a1
    subst a2
    subst c1
    subst c2
    refine ⟨?_, ?_, hrunC, hstallC⟩
    · have : s.sent ++ (none : Option Chan).toList = s.sent := by simp
      rw [this] at hrunA
      exact hrunA
    · intro hrdy
      obtain ⟨kmB, pB, hregB, hrunB⟩ := lock_call_run disc s t held k (some ch) hf ht hfree
        (by intro c hc; injection hc with hc; subst hc; exact hrdy)
      rw [hreg] at hregB
      injection hregB with hregB
      injection hregB with b1 b2
      subst b1
      subst b2
      exact hrunB
  · intro hbusy
    have hblock : ∀ c : Option Chan, run disc s [.call t (.lockWithWaiting k c), .tick t]
        = none := by
      intro c
      rw [run_cons_lock t k c _ (step_call_lock k c hf ht)]
      have e2 : step (s.move s.km t ⟨.lockAcquire k c, held⟩) (.tick t) = none := by
        rw [step_tick_move s _ t _ hf hlt]
        simp [exec, State.move, hbusy]
      simp [run, disciplined, e2]
    exact ⟨hblock none, hblock (some ch)⟩
  · intro sent ready
    cases hacq : acquire km1 p <;>
      simp [step, exec, State.move, List.getElem?_set, hlt, hacq]

/-- C17, amended, at the zero-value registry with one receiver ready on channel
7: caller 0 calls `Lock(1)`, or `lockWithWaiting(1, 7)`. -/
theorem hook_same_bookkeeping_witness :
    demoReceiver.fault = none ∧ demoReceiver.callers[0]? = some ⟨.idle, []⟩ ∧
    demoReceiver.km.mapMut = false ∧ 7 ∈ demoReceiver.ready ∧
    ∃ km1 p, register demoReceiver.km 1 = .ok (km1, p) ∧
      run true demoReceiver (.call 0 (Call.Lock 1) :: .tick 0 :: registerTicks 0 none)
        = some ⟨km1, demoReceiver.callers.set 0 ⟨.lockWait 1 p, []⟩, none,
            demoReceiver.sent, demoReceiver.ready⟩ ∧
      run true demoReceiver (.call 0 (.lockWithWaiting 1 (some 7)) :: .tick 0 ::
          registerTicks 0 (some 7))
        = some ⟨km1, demoReceiver.callers.set 0 ⟨.lockWait 1 p, []⟩, none,
            demoReceiver.sent ++ [7], demoReceiver.ready.erase 7⟩ := by
  have hrdy : 7 ∈ demoReceiver.ready := by decide
  obtain ⟨km1, p, h1, h2, -⟩ := hook_same_bookkeeping true demoReceiver 0 [] 1 7 rfl rfl
  obtain ⟨h3, h4, -⟩ := h2 rfl
  exact ⟨rfl, rfl, rfl, hrdy, km1, p, h1, h3, h4 hrdy⟩

end HookRefinementClaim

end keymutex
